import Mathlib

/-!
Verification of the split-handling core of DendroPy
(`dendropy/calculate/treesplit.py`).

Conventions of the shallow embedding:
* Python arbitrary-precision nonnegative integers become `Nat`; for
  nonnegative `s` and `mask` the Python expression `(~s) & mask` equals
  `ldiffNat mask s` (the bits of `mask` that are not in `s`), defined below
  as `mask ^^^ (mask &&& s)` so that it evaluates inside the kernel.
* Python `s & (s-1)` on `s = 0` gives `(-1) & 0 = 0`; over `Nat` the
  truncated subtraction gives `(0-1) &&& 0 = 0 &&& 0 = 0`, the same value,
  so the `x != 0` tests written as `(x-1) & x` transfer verbatim.
-/

set_option maxHeartbeats 1000000
set_option linter.unnecessarySeqFocus false

namespace TreeSplit

/-- `lowest_bit_only(split)` from treesplit.py: `m = split & (split - 1); return m ^ split`. -/
def lowest_bit_only (split : Nat) : Nat :=
  (split &&& (split - 1)) ^^^ split

/-- The value of the Python expression `(~s) & m` for nonnegative `s`, `m`:
the bits of `m` that are not set in `s`.  `m ^^^ (m &&& s)` equals
`m &&& ~s` because `m &&& s ⊆ m`. -/
def ldiffNat (m s : Nat) : Nat :=
  m ^^^ (m &&& s)

theorem testBit_ldiffNat (m s i : Nat) :
    (ldiffNat m s).testBit i = (m.testBit i && !(s.testBit i)) := by
  unfold ldiffNat
  rw [Nat.testBit_xor, Nat.testBit_and]
  cases m.testBit i <;> cases s.testBit i <;> rfl

/-- The lookup table `__n_bits_set` from treesplit.py. -/
def nBitsSet : List Nat := [0, 1, 1, 2, 1, 2, 2, 3, 1, 2, 2, 3, 2, 3, 3, 4]

/-- `count_bits(split)` from treesplit.py, for nonnegative input (the negative
and non-integer error branches cannot arise over `Nat`):
accumulates table counts of the low four bits while shifting right by 4. -/
def count_bits (c : Nat) : Nat :=
  if c < 1 then 0
  else nBitsSet.getD (c &&& 0xF) 0 + count_bits (c >>> 4)
  termination_by c
  decreasing_by
    simp only [Nat.shiftRight_eq_div_pow]
    exact Nat.div_lt_self (by omega) (by norm_num)

/-- `is_trivial_split(split, mask)` from treesplit.py. -/
def is_trivial_split (split mask : Nat) : Bool :=
  let masked := split &&& mask
  if split = 0 ∨ split = mask then true
  else if (masked - 1) &&& masked = 0 then true
  else
    let cm := ldiffNat mask split
    if (cm - 1) &&& cm = 0 then true
    else false

/-- `is_compatible(split1, split2, mask)` from treesplit.py: the early-return
chain of the four intersection tests, with the complements computed as
`mask ^ split` exactly as in the source. -/
def is_compatible (split1 split2 mask : Nat) : Bool :=
  let m1 := mask &&& split1
  let m2 := mask &&& split2
  if 0 = m1 &&& m2 then true
  else
    let c2 := mask ^^^ split2
    if 0 = m1 &&& c2 then true
    else
      let c1 := mask ^^^ split1
      if 0 = c1 &&& m2 then true
      else if 0 = c1 &&& c2 then true
      else false

/-- The split-filtering and canonicalization pass of `tree_from_splits`
(treesplit.py lines 65-81): drop the full-mask split and singleton splits,
for unrooted output additionally drop splits whose complement in the taxa
mask is a singleton and canonicalize (`k = c` when bit 0 is in `m`, else
`k = m`); for rooted output keep the masked split as is. -/
def splitsToAdd (splits : List Nat) (taxa_mask : Nat) (is_rooted : Bool) : List Nat :=
  splits.filterMap fun s =>
    let m := s &&& taxa_mask
    if m ≠ taxa_mask ∧ (m - 1) &&& m ≠ 0 then
      if ¬ is_rooted then
        let c := ldiffNat taxa_mask m
        if (c - 1) &&& c ≠ 0 then
          some (if 1 &&& m ≠ 0 then c else m)
        else none
      else some m
    else none

/-- Reference population count, one bit at a time. -/
def popcount (n : Nat) : Nat :=
  if n = 0 then 0 else n % 2 + popcount (n / 2)
  termination_by n
  decreasing_by exact Nat.div_lt_self (by omega) (by norm_num)

theorem popcount_zero : popcount 0 = 0 := by
  unfold popcount
  simp

theorem popcount_step (n : Nat) : popcount n = n % 2 + popcount (n / 2) := by
  by_cases h : n = 0
  · subst h
    rw [popcount_zero]
  · rw [popcount, if_neg h]

theorem popcount_eq_zero {n : Nat} : popcount n = 0 ↔ n = 0 := by
  induction n using Nat.strong_induction_on with
  | _ n ih =>
    by_cases h : n = 0
    · subst h; simp [popcount_zero]
    · rw [popcount_step]
      by_cases h2 : n / 2 = 0
      · have hn1 : n = 1 := by omega
        subst hn1
        rw [show (1 : Nat) / 2 = 0 from rfl, popcount_zero]
      · have := (ih (n / 2) (Nat.div_lt_self (by omega) (by norm_num))).not.mpr h2
        omega

theorem popcount_two_pow_split (k : Nat) :
    ∀ x : Nat, popcount x = popcount (x % 2 ^ k) + popcount (x / 2 ^ k) := by
  induction k with
  | zero => intro x; simp [Nat.mod_one, Nat.div_one, popcount_zero]
  | succ k ih =>
    intro x
    have h1 : popcount x = x % 2 + popcount (x / 2) := popcount_step x
    have h2 : popcount (x / 2) = popcount (x / 2 % 2 ^ k) + popcount (x / 2 / 2 ^ k) := ih (x / 2)
    have h3 : x / 2 / 2 ^ k = x / 2 ^ (k + 1) := by
      rw [Nat.div_div_eq_div_mul, pow_succ, mul_comm 2 (2 ^ k), mul_comm (2 ^ k) 2]
    rw [h3] at h2
    have h4 : popcount (x % 2 ^ (k + 1)) =
        x % 2 + popcount (x / 2 % 2 ^ k) := by
      rw [popcount_step]
      have e1 : x % 2 ^ (k + 1) % 2 = x % 2 := by
        rw [Nat.mod_mod_of_dvd]
        exact dvd_pow_self 2 (Nat.succ_ne_zero k)
      have e2 : x % 2 ^ (k + 1) / 2 = x / 2 % 2 ^ k := by
        rw [pow_succ, mul_comm (2 ^ k) 2, Nat.mod_mul_right_div_self]
      rw [e1, e2]
    omega

theorem popcount_le_one_iff (x : Nat) : popcount x ≤ 1 ↔ (x - 1) &&& x = 0 := by
  induction x using Nat.strong_induction_on with
  | _ x ih =>
    rcases Nat.eq_zero_or_pos x with h0 | hpos
    · subst h0; simp [popcount_zero]
    rcases Nat.even_or_odd x with ⟨m, hm⟩ | ⟨m, hm⟩
    · -- x = 2 m with m ≥ 1
      have hm1 : 1 ≤ m := by omega
      have hx : x = 2 * m := by omega
      have hdiv : x / 2 = m := by omega
      have hmod : x % 2 = 0 := by omega
      have hpc : popcount x = popcount m := by
        rw [popcount_step, hdiv, hmod]; omega
      have hand : (x - 1) &&& x = 2 * ((m - 1) &&& m) := by
        have hd : ((x - 1) &&& x) / 2 = (m - 1) &&& m := by
          rw [Nat.and_div_two]
          congr 1 <;> omega
        have hm2 : ((x - 1) &&& x) % 2 = 0 := by
          have : ¬ (((x - 1) &&& x) % 2 = 1) := by
            rw [Nat.and_mod_two_eq_one]
            omega
          omega
        omega
      rw [hpc, hand]
      have := ih m (by omega)
      constructor
      · intro h; have := this.mp h; omega
      · intro h; exact this.mpr (by omega)
    · -- x = 2 m + 1
      have hx : x = 2 * m + 1 := by omega
      have hdiv : x / 2 = m := by omega
      have hmod : x % 2 = 1 := by omega
      have hpc : popcount x = 1 + popcount m := by
        rw [popcount_step, hdiv, hmod]
      rcases Nat.eq_zero_or_pos m with hm0 | hmpos
      · subst hm0
        have hx1 : x = 1 := by omega
        subst hx1
        rw [popcount_step, show (1 : Nat) / 2 = 0 from rfl, popcount_zero]
        constructor
        · intro _; decide
        · intro _; omega
      · -- m ≥ 1: both sides false
        have hand : (x - 1) &&& x = 2 * m := by
          have hd : ((x - 1) &&& x) / 2 = m := by
            rw [Nat.and_div_two]
            have e1 : (x - 1) / 2 = m := by omega
            have e2 : x / 2 = m := by omega
            rw [e1, e2, Nat.and_self]
          have hm2 : ((x - 1) &&& x) % 2 = 0 := by
            have : ¬ (((x - 1) &&& x) % 2 = 1) := by
              rw [Nat.and_mod_two_eq_one]
              omega
            omega
          omega
        rw [hpc, hand]
        have hpm : popcount m ≠ 0 := popcount_eq_zero.not.mpr (by omega)
        constructor
        · intro h; omega
        · intro h; omega

theorem nBitsSet_getD (i : Nat) (h : i < 16) : nBitsSet.getD i 0 = popcount i := by
  have p0 : popcount 0 = 0 := popcount_zero
  have p1 : popcount 1 = 1 := by rw [popcount_step]; norm_num [p0]
  have p2 : popcount 2 = 1 := by rw [popcount_step]; norm_num [p1]
  have p3 : popcount 3 = 2 := by rw [popcount_step]; norm_num [p1]
  have p4 : popcount 4 = 1 := by rw [popcount_step]; norm_num [p2]
  have p5 : popcount 5 = 2 := by rw [popcount_step]; norm_num [p2]
  have p6 : popcount 6 = 2 := by rw [popcount_step]; norm_num [p3]
  have p7 : popcount 7 = 3 := by rw [popcount_step]; norm_num [p3]
  have p8 : popcount 8 = 1 := by rw [popcount_step]; norm_num [p4]
  have p9 : popcount 9 = 2 := by rw [popcount_step]; norm_num [p4]
  have p10 : popcount 10 = 2 := by rw [popcount_step]; norm_num [p5]
  have p11 : popcount 11 = 3 := by rw [popcount_step]; norm_num [p5]
  have p12 : popcount 12 = 2 := by rw [popcount_step]; norm_num [p6]
  have p13 : popcount 13 = 3 := by rw [popcount_step]; norm_num [p6]
  have p14 : popcount 14 = 3 := by rw [popcount_step]; norm_num [p7]
  have p15 : popcount 15 = 4 := by rw [popcount_step]; norm_num [p7]
  interval_cases i <;>
    simp [nBitsSet, p0, p1, p2, p3, p4, p5, p6, p7, p8, p9, p10, p11, p12, p13, p14, p15]

theorem count_bits_eq_popcount (x : Nat) : count_bits x = popcount x := by
  induction x using Nat.strong_induction_on with
  | _ x ih =>
    rcases Nat.eq_zero_or_pos x with h0 | hpos
    · subst h0; simp [count_bits, popcount]
    · rw [count_bits, if_neg (by omega)]
      have hand : x &&& 0xF = x % 16 := by
        have := Nat.and_pow_two_sub_one_eq_mod x 4
        norm_num at this
        exact this
      have hshift : x >>> 4 = x / 16 := by
        rw [Nat.shiftRight_eq_div_pow]
      rw [hand, hshift, nBitsSet_getD _ (Nat.mod_lt x (by norm_num)),
        ih (x / 16) (Nat.div_lt_self hpos (by norm_num))]
      have := popcount_two_pow_split 4 x
      norm_num at this
      omega

theorem count_bits_le_one_iff (x : Nat) : count_bits x ≤ 1 ↔ (x - 1) &&& x = 0 := by
  rw [count_bits_eq_popcount]; exact popcount_le_one_iff x

theorem ldiffNat_self (n : Nat) : ldiffNat n n = 0 := by
  unfold ldiffNat
  rw [Nat.and_self, Nat.xor_self]

/-- C7: `is_trivial_split(s, mask)` is true iff `count_bits(s & mask) <= 1` or
`count_bits((~s) & mask) <= 1`, together with the three concrete scenarios
`is_trivial_split(1, 15) = True`, `is_trivial_split(3, 15) = False`,
`is_trivial_split(15, 15) = True`. -/
theorem is_trivial_split_iff_count_bits :
    (∀ s mask : Nat,
      is_trivial_split s mask = true ↔
        (count_bits (s &&& mask) ≤ 1 ∨ count_bits (ldiffNat mask s) ≤ 1)) ∧
    is_trivial_split 1 15 = true ∧
    is_trivial_split 3 15 = false ∧
    is_trivial_split 15 15 = true := by
  refine ⟨?_, by decide, by decide, by decide⟩
  intro s mask
  rw [count_bits_le_one_iff, count_bits_le_one_iff]
  unfold is_trivial_split
  by_cases h0 : s = 0 ∨ s = mask
  · simp only [h0, if_true]
    rcases h0 with h | h
    · subst h
      simp
    · subst h
      rw [ldiffNat_self]
      simp
  · simp only [h0, if_false]
    by_cases h1 : (s &&& mask - 1) &&& (s &&& mask) = 0
    · simp [h1]
    · by_cases h2 : (ldiffNat mask s - 1) &&& ldiffNat mask s = 0
      · simp [h1, h2]
      · simp [h1, h2]

theorem ldiffNat_and_mask (m s : Nat) : ldiffNat m s &&& m = ldiffNat m s := by
  apply Nat.eq_of_testBit_eq
  intro i
  rw [Nat.testBit_and, testBit_ldiffNat]
  cases m.testBit i <;> cases s.testBit i <;> rfl

theorem xor_of_and_mask {s mask : Nat} (h : s &&& mask = s) :
    mask ^^^ s = ldiffNat mask s := by
  unfold ldiffNat
  rw [Nat.and_comm mask s, h]

/-- Formalization of the specification of `is_compatible`: restricted to `mask`,
at least one of the four pairwise intersections among
`{split1, complement of split1} x {split2, complement of split2}` is empty,
where the complement of `s` within `mask` is `ldiffNat mask s`. -/
def compatibleSpec (split1 split2 mask : Nat) : Prop :=
  split1 &&& split2 &&& mask = 0 ∨
  split1 &&& ldiffNat mask split2 &&& mask = 0 ∨
  ldiffNat mask split1 &&& split2 &&& mask = 0 ∨
  ldiffNat mask split1 &&& ldiffNat mask split2 &&& mask = 0

instance (split1 split2 mask : Nat) : Decidable (compatibleSpec split1 split2 mask) := by
  unfold compatibleSpec
  infer_instance

/-- C6 counterexample: for `split1 = 11`, `split2 = 14`, `mask = 7` the
complements-restricted intersection `{¬split1} ∩ {¬split2}` within the mask is
empty (so the claimed characterization says compatible), yet `is_compatible`
returns `False`, because the code computes complements as `mask ^ split`,
which keeps the out-of-mask bit 8 shared by both splits. -/
theorem is_compatible_claim_counterexample :
    compatibleSpec 11 14 7 ∧ is_compatible 11 14 7 = false := by decide

/-- C6 amended: for splits that are subsets of the mask (`s &&& mask = s`),
`is_compatible(split1, split2, mask)` returns `True` iff, restricted to the
mask, one of the four pairwise intersections among
`{split1, ¬split1} x {split2, ¬split2}` is empty. -/
theorem is_compatible_iff_spec (split1 split2 mask : Nat)
    (h1 : split1 &&& mask = split1) (h2 : split2 &&& mask = split2) :
    (is_compatible split1 split2 mask = true ↔ compatibleSpec split1 split2 mask) := by
  have hm1 : mask &&& split1 = split1 := by rw [Nat.and_comm]; exact h1
  have hm2 : mask &&& split2 = split2 := by rw [Nat.and_comm]; exact h2
  have hx1 : mask ^^^ split1 = ldiffNat mask split1 := xor_of_and_mask h1
  have hx2 : mask ^^^ split2 = ldiffNat mask split2 := xor_of_and_mask h2
  have e1 : split1 &&& split2 &&& mask = split1 &&& split2 := by
    rw [Nat.and_assoc, h2]
  have e2 : split1 &&& ldiffNat mask split2 &&& mask = split1 &&& ldiffNat mask split2 := by
    rw [Nat.and_assoc, ldiffNat_and_mask]
  have e3 : ldiffNat mask split1 &&& split2 &&& mask = ldiffNat mask split1 &&& split2 := by
    rw [Nat.and_assoc, h2]
  have e4 : ldiffNat mask split1 &&& ldiffNat mask split2 &&& mask =
      ldiffNat mask split1 &&& ldiffNat mask split2 := by
    rw [Nat.and_assoc, ldiffNat_and_mask]
  unfold is_compatible compatibleSpec
  simp only [hm1, hm2, hx1, hx2, e1, e2, e3, e4]
  split_ifs with hA hB hC hD
  · exact iff_of_true rfl (Or.inl hA.symm)
  · exact iff_of_true rfl (Or.inr (Or.inl hB.symm))
  · exact iff_of_true rfl (Or.inr (Or.inr (Or.inl hC.symm)))
  · exact iff_of_true rfl (Or.inr (Or.inr (Or.inr hD.symm)))
  · refine iff_of_false (by simp) fun hc => ?_
    rcases hc with h | h | h | h
    · exact hA h.symm
    · exact hB h.symm
    · exact hC h.symm
    · exact hD h.symm

/-- Witness for the amended C6 theorem at `split1 = 3`, `split2 = 6`, `mask = 7`. -/
theorem is_compatible_iff_spec_witness :
    (3 &&& 7 = 3) ∧ (6 &&& 7 = 6) ∧
      (is_compatible 3 6 7 = true ↔ compatibleSpec 3 6 7) :=
  ⟨by decide, by decide, is_compatible_iff_spec 3 6 7 (by decide) (by decide)⟩

/-- C1 counterexample: the split `3` over taxa mask `15` contains bit 0 and
survives the filter, but the key appended to the insertion list is its
complement `12`, not the split itself as the claim states. -/
theorem splitsToAdd_claim_counterexample :
    1 &&& (3 &&& 15) ≠ 0 ∧
      splitsToAdd [3] 15 false = [12] ∧
      (12 : Nat) ≠ 3 := by decide

/-- C1 amended: in `tree_from_splits` with `is_rooted=False`, every surviving
input split (not the full taxa mask, not a singleton, complement within the
taxa mask not a singleton) is canonicalized before insertion as follows: if
the lowest bit (bit 0) is in the masked split, its complement within the taxa
mask is used as the insertion key; otherwise the masked split itself is kept. -/
theorem splitsToAdd_canonicalization (ss : List Nat) (s taxa_mask : Nat)
    (hmem : s ∈ ss)
    (h1 : s &&& taxa_mask ≠ taxa_mask)
    (h2 : ((s &&& taxa_mask) - 1) &&& (s &&& taxa_mask) ≠ 0)
    (h3 : (ldiffNat taxa_mask (s &&& taxa_mask) - 1) &&&
        ldiffNat taxa_mask (s &&& taxa_mask) ≠ 0) :
    (if 1 &&& (s &&& taxa_mask) ≠ 0 then ldiffNat taxa_mask (s &&& taxa_mask)
      else s &&& taxa_mask) ∈ splitsToAdd ss taxa_mask false := by
  unfold splitsToAdd
  rw [List.mem_filterMap]
  refine ⟨s, hmem, ?_⟩
  simp [h1, h2, h3]

/-- Witness for the amended C1 theorem at split `3`, taxa mask `15`. -/
theorem splitsToAdd_canonicalization_witness :
    (3 &&& 15 ≠ 15) ∧
      ((if 1 &&& (3 &&& 15) ≠ 0 then ldiffNat 15 (3 &&& 15) else 3 &&& 15) ∈
        splitsToAdd [3] 15 false) :=
  ⟨by decide,
    splitsToAdd_canonicalization [3] 3 15 (by decide) (by decide) (by decide) (by decide)⟩

/-! ### SplitDistribution

The accumulator class `SplitDistribution` of treesplit.py.  Python dicts
keyed by splits are modelled as association lists (`List (Nat × _)`) with
first-match lookup and in-place update; insertion order is preserved exactly
as CPython dicts preserve it.  Python floats are modelled as `Rat` (the
numeric values occurring in the claims are exact).  The external
collaborators are reduced to the data `count_splits_on_tree` reads from
them: the taxon namespace to an identity tag, a tree to its rootedness,
weight, encoded split map, and the success of `calc_node_ages`. -/

/-- First-match association-list lookup (Python `d[k]` read). -/
def dlookup {α : Type} : List (Nat × α) → Nat → Option α
  | [], _ => none
  | (a, b) :: t, k => if a = k then some b else dlookup t k

/-- Association-list store (Python `d[k] = v`): replace the first binding of
`k`, or append a new binding. -/
def dset {α : Type} : List (Nat × α) → Nat → α → List (Nat × α)
  | [], k, v => [(k, v)]
  | (a, b) :: t, k, v => if a = k then (k, v) :: t else (a, b) :: dset t k v

theorem dlookup_dset_self {α : Type} (l : List (Nat × α)) (k : Nat) (v : α) :
    dlookup (dset l k v) k = some v := by
  induction l with
  | nil => simp [dset, dlookup]
  | cons p t ih =>
    obtain ⟨a, b⟩ := p
    by_cases h : a = k
    · simp [dset, dlookup, h]
    · simp [dset, dlookup, h, ih]

theorem dlookup_dset_ne {α : Type} (l : List (Nat × α)) (k k' : Nat) (v : α)
    (h : k' ≠ k) : dlookup (dset l k v) k' = dlookup l k' := by
  have hk : ¬ (k = k') := fun hh => h hh.symm
  induction l with
  | nil =>
    simp only [dset, dlookup]
    rw [if_neg hk]
  | cons p t ih =>
    obtain ⟨a, b⟩ := p
    by_cases ha : a = k
    · subst ha
      simp only [dset, if_pos rfl, dlookup]
      rw [if_neg hk, if_neg hk]
    · simp only [dset, if_neg ha, dlookup]
      by_cases ha' : a = k'
      · rw [if_pos ha', if_pos ha']
      · rw [if_neg ha', if_neg ha', ih]

theorem dlookup_map_snd {α β : Type} (l : List (Nat × α)) (s : Nat) (f : α → β) :
    dlookup (l.map fun p => (p.1, f p.2)) s = (dlookup l s).map f := by
  induction l with
  | nil => simp [dlookup]
  | cons p t ih =>
    obtain ⟨a, b⟩ := p
    by_cases h : a = s <;> simp [dlookup, h, ih]

/-- The data of one edge in an encoded tree, as read by
`count_splits_on_tree`: its `split_bitmask`, its `length`, and its head node
(`none` when `head_node is None`) with that node's `age`. -/
structure MEdge where
  split_bitmask : Nat
  length : Option Rat
  head_age : Option (Option Rat)
deriving DecidableEq

/-- The data of a tree as read by `count_splits_on_tree`: the identity tag of
its taxon namespace, whether `calc_node_ages` would succeed on it (the
ultrametricity check is an external collaborator), its `weight`, its
`is_rooted` flag, and its encoded `split_edge_map`. -/
structure MTree where
  namespace_tag : Nat
  calc_ages_ok : Bool
  weight : Option Rat
  is_rooted : Bool
  split_edge_map : List (Nat × MEdge)
deriving DecidableEq

/-- The state of a `SplitDistribution` (treesplit.py `__init__`). -/
structure SplitDistribution where
  taxon_namespace : Nat
  total_trees_counted : Nat
  tree_rooting_types_counted : List Bool
  sum_of_tree_weights : Rat
  splits : List Nat
  split_counts : List (Nat × Nat)
  weighted_split_counts : List (Nat × Rat)
  split_edge_lengths : List (Nat × List Rat)
  split_node_ages : List (Nat × List (Option Rat))
  ignore_edge_lengths : Bool
  ignore_node_ages : Bool
  error_on_mixed_rooting_types : Bool
  _is_rooted : Bool
  _split_freqs : Option (List (Nat × Rat))
  _weighted_split_freqs : Option (List (Nat × Rat))
  _trees_counted_for_freqs : Nat
  _trees_counted_for_weighted_freqs : Nat
  _split_edge_length_summaries : Option Unit
  _split_node_age_summaries : Option Unit
  _trees_counted_for_summaries : Nat
deriving DecidableEq

/-- `SplitDistribution.add_split_count(split, count)`: if unseen, append to
the ordered split list and initialize its count to 0, then add `count`.
(The `getD 0` default can never fire: the binding was just created.) -/
def add_split_count (sd : SplitDistribution) (split : Nat) (count : Nat) :
    SplitDistribution :=
  let sd :=
    if split ∈ sd.splits then sd
    else { sd with splits := sd.splits ++ [split],
                   split_counts := dset sd.split_counts split 0 }
  let newCount := (dlookup sd.split_counts split).getD 0 + count
  { sd with split_counts := dset sd.split_counts split newCount }

/-- `SplitDistribution.__init__(taxon_namespace, split_set)` with the default
attribute values from treesplit.py, then seeding from `split_set` with
count 1 each. -/
def mkSplitDistribution (tag : Nat) (split_set : List Nat) : SplitDistribution :=
  split_set.foldl (fun sd s => add_split_count sd s 1)
    { taxon_namespace := tag
      total_trees_counted := 0
      tree_rooting_types_counted := []
      sum_of_tree_weights := 0
      splits := []
      split_counts := []
      weighted_split_counts := []
      split_edge_lengths := []
      split_node_ages := []
      ignore_edge_lengths := false
      ignore_node_ages := true
      error_on_mixed_rooting_types := true
      _is_rooted := false
      _split_freqs := none
      _weighted_split_freqs := none
      _trees_counted_for_freqs := 0
      _trees_counted_for_weighted_freqs := 0
      _split_edge_length_summaries := none
      _split_node_age_summaries := none
      _trees_counted_for_summaries := 0 }

/-- `SplitDistribution.calc_freqs()`: rebuild the frequency dictionary
(count 1.0 for every split when no trees have been counted, else
count/total), tag the cache with the current tree total, and clear the
summary caches.  Returns the new dictionary and the updated state. -/
def calc_freqs (sd : SplitDistribution) : List (Nat × Rat) × SplitDistribution :=
  let fs : List (Nat × Rat) :=
    if sd.total_trees_counted = 0 then
      sd.split_counts.map fun p => (p.1, 1)
    else
      sd.split_counts.map fun p => (p.1, (p.2 : Rat) / (sd.total_trees_counted : Rat))
  (fs, { sd with _split_freqs := some fs,
                 _trees_counted_for_freqs := sd.total_trees_counted,
                 _split_edge_length_summaries := none,
                 _split_node_age_summaries := none })

/-- `SplitDistribution._get_split_frequencies()` (the `split_frequencies`
property): recompute via `calc_freqs` when there is no cached dictionary or
the cache was built at a different tree total, else return the cache. -/
def get_split_frequencies (sd : SplitDistribution) :
    List (Nat × Rat) × SplitDistribution :=
  match sd._split_freqs with
  | none => calc_freqs sd
  | some fs =>
    if sd._trees_counted_for_freqs ≠ sd.total_trees_counted then calc_freqs sd
    else (fs, sd)

/-- Outcome of running a Python method on a mutable object: normal return or
a raised exception, in both cases together with the object state left
behind. -/
inductive PyResult (α : Type) where
  | ok (val : α)
  | exn (val : α)
deriving DecidableEq

/-- Python `set.add` on a set modelled as a duplicate-free list. -/
def setInsertBool (l : List Bool) (b : Bool) : List Bool :=
  if b ∈ l then l else l ++ [b]

/-- The body of the `for split in tree.split_edge_map` loop of
`count_splits_on_tree`: bump the (raw split for rooted trees) count and
weighted count, and append the edge length / head node age samples unless
disabled. -/
def countEntry (sd : SplitDistribution) (is_rooted : Bool) (w : Rat)
    (kv : Nat × MEdge) : SplitDistribution :=
  let edge := kv.2
  let split := if is_rooted then edge.split_bitmask else kv.1
  let sd :=
    match dlookup sd.split_counts split with
    | some c => { sd with split_counts := dset sd.split_counts split (c + 1) }
    | none => { sd with splits := sd.splits ++ [split],
                        split_counts := dset sd.split_counts split 1 }
  let sd :=
    match dlookup sd.weighted_split_counts split with
    | some c => { sd with weighted_split_counts := dset sd.weighted_split_counts split (c + w) }
    | none => { sd with weighted_split_counts := dset sd.weighted_split_counts split w }
  let sd :=
    if !sd.ignore_edge_lengths then
      let sel := (dlookup sd.split_edge_lengths split).getD []
      let sel := match edge.length with
        | some l => sel ++ [l]
        | none => sel
      { sd with split_edge_lengths := dset sd.split_edge_lengths split sel }
    else sd
  if !sd.ignore_node_ages then
    let sna := (dlookup sd.split_node_ages split).getD []
    let sna := match edge.head_age with
      | some a => sna ++ [a]
      | none => sna
    { sd with split_node_ages := dset sd.split_node_ages split sna }
  else sd

/-- `SplitDistribution.count_splits_on_tree(tree, is_splits_encoded)`:
the namespace identity assert, the tree-total increment, the (fallible) node
age computation when age tracking is enabled, weight accumulation, rooting
bookkeeping, and the per-split accumulation loop.  `tree.update_splits()`
mutates the tree, not the distribution: the tree is given by its
already-encoded split map. -/
def count_splits_on_tree (sd0 : SplitDistribution) (tree : MTree) :
    PyResult SplitDistribution :=
  if tree.namespace_tag ≠ sd0.taxon_namespace then .exn sd0
  else
    let sd := { sd0 with total_trees_counted := sd0.total_trees_counted + 1 }
    if !sd.ignore_node_ages && !tree.calc_ages_ok then .exn sd
    else
      let weight_to_use : Rat := match tree.weight with
        | none => 1
        | some w => w
      let sd := { sd with sum_of_tree_weights := sd.sum_of_tree_weights + weight_to_use }
      let sd := { sd with tree_rooting_types_counted := setInsertBool sd.tree_rooting_types_counted tree.is_rooted }
      .ok (tree.split_edge_map.foldl (fun sd kv => countEntry sd tree.is_rooted weight_to_use kv) sd)

/-- C10: `count_splits_on_tree` is not atomic on error: `total_trees_counted`
is incremented before the node-age computation, so when the latter raises
(node-age tracking enabled, tree not ultrametric) the distribution is left
with the total incremented while `split_counts`, `weighted_split_counts`,
`sum_of_tree_weights` and the sample sequences are unchanged. -/
theorem count_splits_on_tree_not_atomic (sd : SplitDistribution) (tree : MTree)
    (hns : tree.namespace_tag = sd.taxon_namespace)
    (hages : sd.ignore_node_ages = false)
    (hfail : tree.calc_ages_ok = false) :
    count_splits_on_tree sd tree =
      .exn { sd with total_trees_counted := sd.total_trees_counted + 1 } ∧
    ∀ sd', count_splits_on_tree sd tree = .exn sd' →
      sd'.total_trees_counted = sd.total_trees_counted + 1 ∧
      sd'.split_counts = sd.split_counts ∧
      sd'.weighted_split_counts = sd.weighted_split_counts ∧
      sd'.sum_of_tree_weights = sd.sum_of_tree_weights ∧
      sd'.split_edge_lengths = sd.split_edge_lengths ∧
      sd'.split_node_ages = sd.split_node_ages := by
  have hmain : count_splits_on_tree sd tree =
      .exn { sd with total_trees_counted := sd.total_trees_counted + 1 } := by
    unfold count_splits_on_tree
    rw [if_neg (by simp [hns])]
    simp [hages, hfail]
  refine ⟨hmain, fun sd' h => ?_⟩
  rw [hmain] at h
  injection h with h'
  subst h'
  exact ⟨rfl, rfl, rfl, rfl, rfl, rfl⟩

/-- Concrete state and tree exercising the failing-node-age path of
`count_splits_on_tree`. -/
def sdAges : SplitDistribution :=
  { mkSplitDistribution 0 [] with ignore_node_ages := false }

/-- A tree on which `calc_node_ages` raises (not ultrametric). -/
def treeAges : MTree :=
  { namespace_tag := 0, calc_ages_ok := false, weight := none,
    is_rooted := true, split_edge_map := [] }

/-- Witness for `count_splits_on_tree_not_atomic` at a concrete state. -/
theorem count_splits_on_tree_not_atomic_witness :
    count_splits_on_tree sdAges treeAges =
      .exn { sdAges with total_trees_counted := sdAges.total_trees_counted + 1 } ∧
    ∀ sd', count_splits_on_tree sdAges treeAges = .exn sd' →
      sd'.total_trees_counted = sdAges.total_trees_counted + 1 ∧
      sd'.split_counts = sdAges.split_counts ∧
      sd'.weighted_split_counts = sdAges.weighted_split_counts ∧
      sd'.sum_of_tree_weights = sdAges.sum_of_tree_weights ∧
      sd'.split_edge_lengths = sdAges.split_edge_lengths ∧
      sd'.split_node_ages = sdAges.split_node_ages :=
  count_splits_on_tree_not_atomic sdAges treeAges rfl rfl rfl

/-- C9 counterexample: seed a split, read `split_frequencies` (building the
cache at tree total 0), record another split, read again: the second read
returns the stale cache, which does not assign 1.0 to the newly recorded
split 7 even though the total is still 0 and 7 is recorded. -/
def staleFreqState : SplitDistribution :=
  add_split_count
    (get_split_frequencies (add_split_count (mkSplitDistribution 0 []) 5 1)).2 7 1

theorem split_frequencies_stale_counterexample :
    staleFreqState.total_trees_counted = 0 ∧
    dlookup staleFreqState.split_counts 7 = some 1 ∧
    dlookup (get_split_frequencies staleFreqState).1 7 = none := by decide

/-- C9 amended: for a `SplitDistribution` with `total_trees_counted = 0` and
no valid frequency cache (none stored, or stored at a different tree total),
reading `split_frequencies` does not divide by zero: it rebuilds the map and
assigns frequency 1.0 to every recorded split.  (With a cache already built
at total 0, the stale cached map is returned instead and may miss splits
recorded after it was built.) -/
theorem split_frequencies_total_zero (sd : SplitDistribution)
    (h0 : sd.total_trees_counted = 0)
    (hcache : sd._split_freqs = none ∨
      sd._trees_counted_for_freqs ≠ sd.total_trees_counted) :
    ∀ s, (dlookup sd.split_counts s).isSome →
      dlookup (get_split_frequencies sd).1 s = some 1 := by
  intro s hs
  have hcalc : (get_split_frequencies sd).1 = (calc_freqs sd).1 := by
    unfold get_split_frequencies
    cases hsf : sd._split_freqs with
    | none => rfl
    | some fs =>
      rcases hcache with h | h
      · rw [hsf] at h; cases h
      · simp [h]
  rw [hcalc]
  unfold calc_freqs
  simp only [h0, if_pos rfl]
  rcases hlk : dlookup sd.split_counts s with _ | c
  · rw [hlk] at hs; cases hs
  · have := dlookup_map_snd sd.split_counts s (fun _ => (1 : Rat))
    rw [hlk] at this
    exact this

/-- Witness for `split_frequencies_total_zero` at a concrete seeded state. -/
theorem split_frequencies_total_zero_witness :
    dlookup (get_split_frequencies (add_split_count (mkSplitDistribution 0 []) 5 1)).1 5 =
      some 1 :=
  split_frequencies_total_zero (add_split_count (mkSplitDistribution 0 []) 5 1)
    rfl (Or.inl rfl) 5 (by decide)

/-- The accounting key used by `count_splits_on_tree` for one map entry:
the raw `edge.split_bitmask` for rooted trees, the map key otherwise. -/
def entryKey (is_rooted : Bool) (kv : Nat × MEdge) : Nat :=
  if is_rooted then kv.2.split_bitmask else kv.1

/-- The effect of the `try/except KeyError` increment on `split_counts`. -/
def bumpCounts (l : List (Nat × Nat)) (k : Nat) : List (Nat × Nat) :=
  match dlookup l k with
  | some c => dset l k (c + 1)
  | none => dset l k 1

theorem countEntry_split_counts (sd : SplitDistribution) (r : Bool) (w : Rat)
    (kv : Nat × MEdge) :
    (countEntry sd r w kv).split_counts = bumpCounts sd.split_counts (entryKey r kv) := by
  unfold countEntry bumpCounts entryKey
  rcases h1 : dlookup sd.split_counts (if r then kv.2.split_bitmask else kv.1) with _ | c <;>
    simp only [h1] <;>
    rcases h2 : dlookup sd.weighted_split_counts (if r then kv.2.split_bitmask else kv.1) with
      _ | c2 <;>
    simp only [h2] <;>
    split_ifs <;>
    rfl

theorem countEntry_meta (sd : SplitDistribution) (r : Bool) (w : Rat)
    (kv : Nat × MEdge) :
    (countEntry sd r w kv).total_trees_counted = sd.total_trees_counted ∧
    (countEntry sd r w kv).taxon_namespace = sd.taxon_namespace ∧
    (countEntry sd r w kv).ignore_node_ages = sd.ignore_node_ages ∧
    (countEntry sd r w kv).ignore_edge_lengths = sd.ignore_edge_lengths ∧
    (countEntry sd r w kv)._split_freqs = sd._split_freqs := by
  unfold countEntry
  rcases h1 : dlookup sd.split_counts (if r then kv.2.split_bitmask else kv.1) with _ | c <;>
    simp only [h1] <;>
    rcases h2 : dlookup sd.weighted_split_counts (if r then kv.2.split_bitmask else kv.1) with
      _ | c2 <;>
    simp only [h2] <;>
    split_ifs <;>
    exact ⟨rfl, rfl, rfl, rfl, rfl⟩

theorem dlookup_bumpCounts_self (l : List (Nat × Nat)) (k : Nat) :
    dlookup (bumpCounts l k) k = some ((dlookup l k).getD 0 + 1) := by
  unfold bumpCounts
  rcases h : dlookup l k with _ | c <;> simp [h, dlookup_dset_self]

theorem dlookup_bumpCounts_ne (l : List (Nat × Nat)) (k k' : Nat) (h : k' ≠ k) :
    dlookup (bumpCounts l k) k' = dlookup l k' := by
  unfold bumpCounts
  rcases h1 : dlookup l k with _ | c
  · exact dlookup_dset_ne l k k' 1 h
  · exact dlookup_dset_ne l k k' (c + 1) h

/-- Effect of the whole `for split in tree.split_edge_map` loop on
`split_counts`: each key of the (duplicate-free) map is incremented once. -/
theorem foldEntries_split_counts (r : Bool) (w : Rat) :
    ∀ (entries : List (Nat × MEdge)) (sd : SplitDistribution),
      (r = true → ∀ kv ∈ entries, kv.2.split_bitmask = kv.1) →
      (entries.map Prod.fst).Nodup →
      ∀ s,
        dlookup ((entries.foldl (fun sd kv => countEntry sd r w kv) sd).split_counts) s =
          if s ∈ entries.map Prod.fst then
            some ((dlookup sd.split_counts s).getD 0 + 1)
          else dlookup sd.split_counts s := by
  intro entries
  induction entries with
  | nil =>
    intro sd _ _ s
    simp
  | cons kv rest ih =>
    intro sd hr hnd s
    have hkey : entryKey r kv = kv.1 := by
      unfold entryKey
      by_cases hrr : r = true
      · rw [if_pos hrr]
        exact hr hrr kv (List.mem_cons_self kv rest)
      · rw [if_neg hrr]
    have hnd' : (rest.map Prod.fst).Nodup := (List.nodup_cons.mp hnd).2
    have hknr : kv.1 ∉ rest.map Prod.fst := (List.nodup_cons.mp hnd).1
    have hr' : r = true → ∀ kv' ∈ rest, kv'.2.split_bitmask = kv'.1 :=
      fun h kv' hm => hr h kv' (List.mem_cons_of_mem kv hm)
    rw [List.foldl_cons]
    rw [ih (countEntry sd r w kv) hr' hnd' s]
    rw [countEntry_split_counts, hkey]
    by_cases hsk : s = kv.1
    · subst hsk
      rw [if_neg hknr, dlookup_bumpCounts_self]
      simp
    · rw [dlookup_bumpCounts_ne _ _ _ hsk]
      by_cases hsr : s ∈ rest.map Prod.fst
      · rw [if_pos hsr, if_pos (by simp [hsr])]
      · rw [if_neg hsr, if_neg (by simp [hsk, hsr])]

theorem foldEntries_meta (r : Bool) (w : Rat) :
    ∀ (entries : List (Nat × MEdge)) (sd : SplitDistribution),
      (entries.foldl (fun sd kv => countEntry sd r w kv) sd).total_trees_counted =
          sd.total_trees_counted ∧
      (entries.foldl (fun sd kv => countEntry sd r w kv) sd).taxon_namespace =
          sd.taxon_namespace ∧
      (entries.foldl (fun sd kv => countEntry sd r w kv) sd).ignore_node_ages =
          sd.ignore_node_ages ∧
      (entries.foldl (fun sd kv => countEntry sd r w kv) sd)._split_freqs =
          sd._split_freqs := by
  intro entries
  induction entries with
  | nil => intro sd; exact ⟨rfl, rfl, rfl, rfl⟩
  | cons kv rest ih =>
    intro sd
    rw [List.foldl_cons]
    obtain ⟨m1, m2, m3, _, m5⟩ := countEntry_meta sd r w kv
    obtain ⟨i1, i2, i3, i4⟩ := ih (countEntry sd r w kv)
    exact ⟨i1.trans m1, i2.trans m2, i3.trans m3, i4.trans m5⟩

/-- The keys of a tree's split map. -/
def treeKeys (t : MTree) : List Nat := t.split_edge_map.map Prod.fst

/-- One successful `count_splits_on_tree` call: total goes up by one and
every key of the tree's map has its count incremented once. -/
theorem count_splits_on_tree_ok (sd : SplitDistribution) (t : MTree)
    (hns : t.namespace_tag = sd.taxon_namespace)
    (hign : sd.ignore_node_ages = true)
    (hroot : t.is_rooted = true → ∀ kv ∈ t.split_edge_map, kv.2.split_bitmask = kv.1)
    (hnd : (treeKeys t).Nodup) :
    ∃ sd', count_splits_on_tree sd t = .ok sd' ∧
      sd'.total_trees_counted = sd.total_trees_counted + 1 ∧
      sd'.taxon_namespace = sd.taxon_namespace ∧
      sd'.ignore_node_ages = true ∧
      sd'._split_freqs = sd._split_freqs ∧
      ∀ s, dlookup sd'.split_counts s =
        if s ∈ treeKeys t then some ((dlookup sd.split_counts s).getD 0 + 1)
        else dlookup sd.split_counts s := by
  unfold count_splits_on_tree
  rw [if_neg (by simp [hns])]
  rw [if_neg (by simp [hign])]
  set w : Rat := match t.weight with
    | none => 1
    | some w => w with hw
  refine ⟨_, rfl, ?_, ?_, ?_, ?_, ?_⟩
  · obtain ⟨m1, _, _, _⟩ := foldEntries_meta t.is_rooted w t.split_edge_map _
    rw [m1]
  · obtain ⟨_, m2, _, _⟩ := foldEntries_meta t.is_rooted w t.split_edge_map _
    rw [m2]
  · obtain ⟨_, _, m3, _⟩ := foldEntries_meta t.is_rooted w t.split_edge_map _
    rw [m3]
    exact hign
  · obtain ⟨_, _, _, m4⟩ := foldEntries_meta t.is_rooted w t.split_edge_map _
    rw [m4]
  · intro s
    rw [foldEntries_split_counts t.is_rooted w t.split_edge_map _ hroot hnd s]
    rfl

/-- Calling `count_splits_on_tree` once per tree of a list, propagating a
raised exception (the accumulation pattern of SplitDistribution clients). -/
def runCount (sd : SplitDistribution) : List MTree → PyResult SplitDistribution
  | [] => .ok sd
  | t :: ts =>
    match count_splits_on_tree sd t with
    | .ok sd' => runCount sd' ts
    | .exn sd' => .exn sd'

/-- In how many of the trees' split maps a split occurs. -/
def occCount (trees : List MTree) (s : Nat) : Nat :=
  (trees.filter fun t => decide (s ∈ treeKeys t)).length

theorem occCount_cons (t : MTree) (ts : List MTree) (s : Nat) :
    occCount (t :: ts) s =
      (if s ∈ treeKeys t then 1 else 0) + occCount ts s := by
  unfold occCount
  by_cases h : s ∈ treeKeys t
  · simp [h]
    omega
  · simp [h]

theorem runCount_ok (tag : Nat) :
    ∀ (trees : List MTree) (sd : SplitDistribution),
      sd.taxon_namespace = tag →
      sd.ignore_node_ages = true →
      (∀ t ∈ trees, t.namespace_tag = tag) →
      (∀ t ∈ trees, t.is_rooted = true → ∀ kv ∈ t.split_edge_map, kv.2.split_bitmask = kv.1) →
      (∀ t ∈ trees, (treeKeys t).Nodup) →
      ∃ sd', runCount sd trees = .ok sd' ∧
        sd'.total_trees_counted = sd.total_trees_counted + trees.length ∧
        sd'.taxon_namespace = tag ∧
        sd'.ignore_node_ages = true ∧
        sd'._split_freqs = sd._split_freqs ∧
        ∀ s, dlookup sd'.split_counts s =
          if 0 < occCount trees s then
            some ((dlookup sd.split_counts s).getD 0 + occCount trees s)
          else dlookup sd.split_counts s := by
  intro trees
  induction trees with
  | nil =>
    intro sd h1 h2 _ _ _
    refine ⟨sd, rfl, by simp, h1, h2, rfl, ?_⟩
    intro s
    simp [occCount]
  | cons t ts ih =>
    intro sd h1 h2 hns hroot hnd
    obtain ⟨sd1, hok, htot, hns1, hign1, hfrq1, hcnt1⟩ :=
      count_splits_on_tree_ok sd t (by rw [h1]; exact hns t (List.mem_cons_self t ts))
        h2 (hroot t (List.mem_cons_self t ts)) (hnd t (List.mem_cons_self t ts))
    obtain ⟨sd2, hok2, htot2, hns2, hign2, hfrq2, hcnt2⟩ :=
      ih sd1 (hns1.trans h1) hign1
        (fun t' ht' => hns t' (List.mem_cons_of_mem t ht'))
        (fun t' ht' => hroot t' (List.mem_cons_of_mem t ht'))
        (fun t' ht' => hnd t' (List.mem_cons_of_mem t ht'))
    refine ⟨sd2, ?_, ?_, hns2, hign2, hfrq2.trans hfrq1, ?_⟩
    · unfold runCount
      rw [hok]
      exact hok2
    · rw [htot2, htot]
      simp [List.length_cons]
      omega
    · intro s
      rw [hcnt2 s, occCount_cons]
      by_cases hmem : s ∈ treeKeys t
      · rw [if_pos hmem, hcnt1 s, if_pos hmem, if_pos (by omega : 0 < 1 + occCount ts s)]
        by_cases hocc : 0 < occCount ts s
        · rw [if_pos hocc]
          simp only [Option.getD_some, Option.some.injEq]
          omega
        · rw [if_neg hocc]
          have h0 : occCount ts s = 0 := by omega
          rw [h0]
      · rw [if_neg hmem, hcnt1 s, if_neg hmem]
        by_cases hocc : 0 < occCount ts s
        · rw [if_pos hocc, if_pos (by omega : 0 < 0 + occCount ts s)]
          norm_num
        · rw [if_neg hocc, if_neg (by omega : ¬ 0 < 0 + occCount ts s)]

/-- C5: for a fresh `SplitDistribution` on which `count_splits_on_tree` has
been called for `N > 0` trees (all sharing its taxon namespace, with
duplicate-free encoded split maps whose rooted entries carry their raw split
as key), every split occurring in exactly `k ≥ 1` of the trees' split maps
reads back from `split_frequencies` as exactly `k / N`; the map is recomputed
from the current counts because the tree total changed since the (empty)
cache was built. -/
theorem split_frequencies_k_over_n (tag : Nat) (trees : List MTree)
    (hne : trees ≠ [])
    (hns : ∀ t ∈ trees, t.namespace_tag = tag)
    (hroot : ∀ t ∈ trees, t.is_rooted = true →
      ∀ kv ∈ t.split_edge_map, kv.2.split_bitmask = kv.1)
    (hnd : ∀ t ∈ trees, (treeKeys t).Nodup) :
    ∃ sd, runCount (mkSplitDistribution tag []) trees = .ok sd ∧
      ∀ s, 0 < occCount trees s →
        dlookup (get_split_frequencies sd).1 s =
          some ((occCount trees s : Rat) / (trees.length : Rat)) := by
  obtain ⟨sd', hok, htot, hnsp, hign, hfrq, hcnt⟩ :=
    runCount_ok tag trees (mkSplitDistribution tag []) rfl rfl hns hroot hnd
  refine ⟨sd', hok, ?_⟩
  intro s hocc
  have hfrqnone : sd'._split_freqs = none := hfrq
  have hTot : sd'.total_trees_counted = trees.length := by
    have h0 : (mkSplitDistribution tag []).total_trees_counted = 0 := rfl
    omega
  have hlen : trees.length ≠ 0 := fun h => hne (List.length_eq_zero.mp h)
  have hget : (get_split_frequencies sd').1 = (calc_freqs sd').1 := by
    unfold get_split_frequencies
    rw [hfrqnone]
  rw [hget]
  unfold calc_freqs
  rw [if_neg (by rw [hTot]; exact hlen)]
  rw [dlookup_map_snd sd'.split_counts s
    (fun c => (c : Rat) / (sd'.total_trees_counted : Rat))]
  rw [hcnt s, if_pos hocc]
  have hbase : dlookup (mkSplitDistribution tag []).split_counts s = none := rfl
  rw [hbase]
  rw [hTot]
  simp

/-- Two concrete rooted encoded trees for the C5 witness: split 3 occurs in
both maps, split 5 only in the second. -/
def c5trees : List MTree :=
  [ { namespace_tag := 0, calc_ages_ok := true, weight := none, is_rooted := true,
      split_edge_map := [(3, { split_bitmask := 3, length := none, head_age := none })] },
    { namespace_tag := 0, calc_ages_ok := true, weight := none, is_rooted := true,
      split_edge_map := [(3, { split_bitmask := 3, length := none, head_age := none }),
                         (5, { split_bitmask := 5, length := none, head_age := none })] } ]

/-- Witness for `split_frequencies_k_over_n` on two concrete trees. -/
theorem split_frequencies_k_over_n_witness :
    ∃ sd, runCount (mkSplitDistribution 0 []) c5trees = .ok sd ∧
      ∀ s, 0 < occCount c5trees s →
        dlookup (get_split_frequencies sd).1 s =
          some ((occCount c5trees s : Rat) / (c5trees.length : Rat)) :=
  split_frequencies_k_over_n 0 c5trees (by decide) (by decide) (by decide) (by decide)

/-! ### Trees

Dendropy's tree/node/edge structure, reduced to what `encode_splits` and
`tree_from_splits` read and write.  A node and its edge are fused: `taxon` is
the node's taxon (as its index in the taxon namespace, whose bitmask is
`2 ^ index`), `length` is the edge length (`Option Int`: only additions of
lengths occur, so integers lose nothing), `split` is the edge's
`split_bitmask` attribute, and `children` the child list.  Child lists are a
separate mutually inductive type so that every function below is structurally
recursive and evaluates inside the kernel. -/

mutual
inductive PNode : Type where
  | mk (taxon : Option Nat) (length : Option Int) (split : Nat) (children : PForest)
inductive PForest : Type where
  | nil
  | cons (head : PNode) (tail : PForest)
end

mutual
def pnodeBeq : PNode → PNode → Bool
  | .mk t1 l1 s1 c1, .mk t2 l2 s2 c2 =>
    t1 == t2 && l1 == l2 && s1 == s2 && pforestBeq c1 c2
def pforestBeq : PForest → PForest → Bool
  | .nil, .nil => true
  | .cons a as, .cons b bs => pnodeBeq a b && pforestBeq as bs
  | _, _ => false
end

mutual
theorem pnodeBeq_eq : ∀ a b : PNode, pnodeBeq a b = true → a = b
  | .mk t1 l1 s1 c1, .mk t2 l2 s2 c2, h => by
    unfold pnodeBeq at h
    simp only [Bool.and_eq_true, beq_iff_eq] at h
    obtain ⟨⟨⟨ht, hl⟩, hs⟩, hc⟩ := h
    rw [ht, hl, hs, pforestBeq_eq c1 c2 hc]
theorem pforestBeq_eq : ∀ a b : PForest, pforestBeq a b = true → a = b
  | .nil, .nil, _ => rfl
  | .cons a as, .cons b bs, h => by
    unfold pforestBeq at h
    simp only [Bool.and_eq_true] at h
    rw [pnodeBeq_eq a b h.1, pforestBeq_eq as bs h.2]
  | .nil, .cons _ _, h => by cases h
  | .cons _ _, .nil, h => by cases h
end

mutual
theorem pnodeBeq_rfl : ∀ a : PNode, pnodeBeq a a = true
  | .mk t l s c => by
    unfold pnodeBeq
    simp [pforestBeq_rfl c]
theorem pforestBeq_rfl : ∀ a : PForest, pforestBeq a a = true
  | .nil => rfl
  | .cons a as => by
    unfold pforestBeq
    simp [pnodeBeq_rfl a, pforestBeq_rfl as]
end

instance : DecidableEq PNode := fun a b =>
  if h : pnodeBeq a b = true then .isTrue (pnodeBeq_eq a b h)
  else .isFalse fun he => h (he ▸ pnodeBeq_rfl a)

instance : DecidableEq PForest := fun a b =>
  if h : pforestBeq a b = true then .isTrue (pforestBeq_eq a b h)
  else .isFalse fun he => h (he ▸ pforestBeq_rfl a)

def PNode.taxon : PNode → Option Nat
  | .mk t _ _ _ => t

def PNode.length : PNode → Option Int
  | .mk _ l _ _ => l

def PNode.split : PNode → Nat
  | .mk _ _ s _ => s

def PNode.children : PNode → PForest
  | .mk _ _ _ c => c

def PForest.length : PForest → Nat
  | .nil => 0
  | .cons _ t => t.length + 1

def PForest.toList : PForest → List PNode
  | .nil => []
  | .cons h t => h :: t.toList

def PForest.ofList : List PNode → PForest
  | [] => .nil
  | h :: t => .cons h (PForest.ofList t)

def PForest.append : PForest → PForest → PForest
  | .nil, g => g
  | .cons h t, g => .cons h (t.append g)

/-- Bitwise OR of the `split` fields of a forest, accumulated left to right
(`cm |= child.edge.split_bitmask`). -/
def orSplits : PForest → Nat
  | .nil => 0
  | .cons c r => c.split ||| orSplits r

mutual
def PNode.size : PNode → Nat
  | .mk _ _ _ c => 1 + PForest.size c
def PForest.size : PForest → Nat
  | .nil => 0
  | .cons h t => PNode.size h + PForest.size t
end

def PNode.isLeaf : PNode → Bool
  | .mk _ _ _ .nil => true
  | _ => false

/-- The taxon-namespace bitmask of a node's taxon: `2 ^ index`, or 0 when the
node carries no taxon (`taxon_namespace.taxon_bitmask` lookup). -/
def taxonBit : Option Nat → Nat
  | some t => 2 ^ t
  | none => 0

/-- The Python statement `a.edge.length += b.edge.length` inside
`try: ... except: pass`: when either length is `None` the `TypeError` is
swallowed and the length stays as it was. -/
def addLen : Option Int → Option Int → Option Int
  | some a, some b => some (a + b)
  | a, _ => a

/-- The tree object as `encode_splits` and `tree_from_splits` see it: the
`is_rooted` flag, the `seed_node` (root), and the `split_edge_map`, kept as
its ordered key list (its values, the edges, are never read back by the
code under verification). -/
structure PyTree where
  is_rooted : Bool
  seed_node : Option PNode
  split_edge_map : List Nat
deriving DecidableEq

/-- Key insertion with Python-dict semantics (`d[k] = edge`): a repeated key
overwrites its value and keeps its first-insertion position. -/
def dictInsertKey (ks : List Nat) (k : Nat) : List Nat :=
  if k ∈ ks then ks else ks ++ [k]

/-- Modelled from the spec: `container.NormalizedBitmaskDict` (an external
collaborator from `dendropy.utility.container`, outside this repository
core) normalizes every key on insertion; per the `encode_splits` docstring,
"a normalized split_mask is where the split_bitmask is complemented if the
right-most bit is not '0' (or just the split_bitmask otherwise)", with the
complement taken within the dictionary's mask. -/
def normKey (mask k : Nat) : Nat :=
  if k &&& 1 = 1 then ldiffNat mask k else k

/-- Modelled from the spec: `Tree.deroot()` is an external collaborator
("collapse an unrooted bifurcating root", spec section 6): when the root has
exactly two children and the first internal one exists, that child's
children are spliced up into the root, its edge length merged into its
sibling's.  Only invoked by `encode_splits` on unrooted trees with
bifurcating roots; no theorem below exercises it. -/
def derootNode (nd : PNode) : PNode :=
  match nd with
  | .mk tax len sp (.cons a (.cons b .nil)) =>
    if !a.isLeaf then
      .mk tax len sp (PForest.append a.children
        (.cons (.mk b.taxon (addLen b.length a.length) b.split b.children) .nil))
    else if !b.isLeaf then
      .mk tax len sp (.cons (.mk a.taxon (addLen a.length b.length) a.split a.children)
        b.children)
    else nd
  | _ => nd

/-- The root-collapsing `while` loop at the start of `encode_splits` (and of
`delete_outdegree_one`): while the seed node has exactly one child and that
child is internal, merge the child's edge length into the root's and replace
the root's child list by the child's children.  The loop runs at most
`PNode.size` times; `fuel` keeps the recursion structural. -/
def rootCollapse : Nat → PNode → PNode
  | 0, n => n
  | fuel + 1, n =>
    match n with
    | .mk tax len sp (.cons c .nil) =>
      if c.isLeaf then .mk tax len sp (.cons c .nil)
      else rootCollapse fuel (.mk tax (addLen len c.length) sp c.children)
    | n => n

mutual
/-- The postorder pass of `encode_splits` on one node, as the node's parent
sees it.  Returns the node that ends up in the parent's child list — the
node itself with its split computed, or, when `delete` is set, the node is
not the root, and it has exactly one child, that child spliced through with
the edge lengths merged — together with the postorder sequence of
`split_map` keys recorded while visiting the subtree (a spliced-out edge
records key 0, exactly as the source assigns `edge.split_bitmask = cm` with
`cm` still 0 in the splice branch). -/
def encodeNode (delete : Bool) (isRoot : Bool) : PNode → PNode × List Nat
  | .mk tax len _ .nil =>
    let cm := taxonBit tax
    (.mk tax len cm .nil, [cm])
  | .mk tax len _ (.cons c .nil) =>
    let r := encodeNode delete false c
    if delete && !isRoot then
      (.mk r.1.taxon (addLen r.1.length len) r.1.split r.1.children, r.2 ++ [0])
    else
      (.mk tax len r.1.split (.cons r.1 .nil), r.2 ++ [r.1.split])
  | .mk tax len _ (.cons c1 (.cons c2 cs)) =>
    let r := encodeForest delete (.cons c1 (.cons c2 cs))
    (.mk tax len (orSplits r.1) r.1, r.2 ++ [orSplits r.1])
/-- The same pass over a whole child list, children in order. -/
def encodeForest (delete : Bool) : PForest → PForest × List Nat
  | .nil => (.nil, [])
  | .cons c rest =>
    let rc := encodeNode delete false c
    let rr := encodeForest delete rest
    (.cons rc.1 rr.1, rc.2 ++ rr.2)
end

/-- `encode_splits(tree, create_dict, delete_outdegree_one)` from
treesplit.py: reset the split map (when `create_dict`) *before* the
no-seed-node early return; optionally deroot unrooted bifurcating roots and
collapse root chains; run the postorder split computation (splicing
out-degree-one nodes when `delete_outdegree_one`); record the keys (when
`create_dict`); for unrooted trees rebuild the map with every key normalized
against the realized root split. -/
def encode_splits (t : PyTree) (create_dict delete : Bool) : PyTree :=
  let t1 := if create_dict then { t with split_edge_map := [] } else t
  match t1.seed_node with
  | none => t1
  | some sn0 =>
    let sn1 :=
      if delete then
        let sn := if !t1.is_rooted && (sn0.children.length == 2) then derootNode sn0 else sn0
        rootCollapse sn.size sn
      else sn0
    let r := encodeNode delete true sn1
    let m1 := if create_dict then r.2.foldl dictInsertKey t1.split_edge_map
              else t1.split_edge_map
    let m2 := if !t1.is_rooted then
                m1.foldl (fun acc k => dictInsertKey acc (normKey r.1.split k)) []
              else m1
    { t1 with seed_node := some r.1, split_edge_map := m2 }

/-! ### tree_from_splits

The greedy consensus builder (treesplit.py lines 36-124).  The leaf-to-root
pointer walk of the source is represented by the path of child indices from
the root down to the leaf holding the lowest bit of the split (the
`to_leaf_dict` entry), the walk up being a scan of the splits along that
path starting from the leaf; the tree is then rebuilt along the prefix of
the path above the attachment point.  A Python exception (the
`to_leaf_dict[lb]` KeyError, walking past the root, the
`assert cecm != split_to_add`, or the `split_edge_lengths[split_to_add]`
KeyError) is `none`. -/

/-- The star-tree child list: one leaf per taxon of the namespace, in
namespace order (`con_tree.seed_node.new_child(taxon=taxon)`). -/
def starForest (n : Nat) : PForest :=
  PForest.ofList ((List.range n).map fun i => .mk (some i) none 0 .nil)

mutual
/-- Locate the (unique, childless) leaf whose encoded split equals `lb`
inside a subtree; returns the child-index path to it.  This is the parent
chain of the `to_leaf_dict[lb]` node, read from the top. -/
def nodePath (lb : Nat) : PNode → Option (List Nat)
  | .mk _ _ sp .nil => if sp = lb then some [] else none
  | .mk _ _ _ (.cons c cs) => forestPath lb 0 (.cons c cs)
def forestPath (lb : Nat) : Nat → PForest → Option (List Nat)
  | _, .nil => none
  | i, .cons c r =>
    match nodePath lb c with
    | some p => some (i :: p)
    | none => forestPath lb (i + 1) r
end

def childAt : PForest → Nat → Option PNode
  | .nil, _ => none
  | .cons c _, 0 => some c
  | .cons _ r, i + 1 => childAt r i

def setAt : PForest → Nat → PNode → PForest
  | .nil, _, _ => .nil
  | .cons _ r, 0, x => .cons x r
  | .cons c r, i + 1, x => .cons c (setAt r i x)

/-- The `split_bitmask`s of the nodes along a child-index path, starting
with the given node. -/
def splitsAlong : PNode → List Nat → List Nat
  | nd, [] => [nd.split]
  | nd, i :: rest =>
    nd.split :: (match childAt nd.children i with
      | some c => splitsAlong c rest
      | none => [])

/-- The `while (split_to_add & parent_node.edge.split_bitmask) != split_to_add`
walk: index (from the start of the list) of the first entry that contains
`s`; `none` when the walk runs off the end (`parent_node` becomes `None`). -/
def firstSuperIdx : List Nat → Nat → Option Nat
  | [], _ => none
  | x :: r, s => if s &&& x = s then some 0 else (firstSuperIdx r s).map (· + 1)

/-- The `for child in parent_node.child_nodes()` gathering loop: accumulate
`new_edge.split_bitmask |= cecm` over the children overlapping `s`
(collected into `new_node_children`), keeping the others; `none` when the
`assert cecm != split_to_add` fails. -/
def gatherGo (s : Nat) : PForest → Nat → Option (Nat × List PNode × List PNode)
  | .nil, acc => some (acc, [], [])
  | .cons c r, acc =>
    if c.split &&& s ≠ 0 then
      if c.split = s then none
      else
        match gatherGo s r (acc ||| c.split) with
        | some (o, m, k) => some (o, c :: m, k)
        | none => none
    else
      match gatherGo s r acc with
      | some (o, m, k) => some (o, m, c :: k)
      | none => none

/-- `if split_edge_lengths: new_edge.length = split_edge_lengths[split_to_add]`:
`None` and the empty dict are falsy (edge length left unset); a missing key
raises KeyError (`none`). -/
def resolveLen (lens : Option (List (Nat × Option Int))) (s : Nat) :
    Option (Option Int) :=
  match lens with
  | none => some none
  | some l =>
    if l.isEmpty then some none
    else
      match dlookup l s with
      | some v => some v
      | none => none

/-- The attachment step at the located `parent_node`: skip when its split
already equals `s`; otherwise gather the overlapping children and, only if
the accumulated OR equals `s` exactly, detach them, reparent them under the
new node (which keeps their order), and append the new node to the
remaining children.  The boolean reports whether the insertion happened. -/
def doAttach (lens : Option (List (Nat × Option Int))) (nd : PNode) (s : Nat) :
    Option (PNode × Bool) :=
  if nd.split = s then some (nd, false)
  else
    match gatherGo s nd.children 0 with
    | none => none
    | some (o, moved, kept) =>
      if o = s then
        match resolveLen lens s with
        | none => none
        | some elen =>
          some (.mk nd.taxon nd.length nd.split
            (PForest.append (PForest.ofList kept)
              (.cons (.mk none elen o (PForest.ofList moved)) .nil)), true)
      else some (nd, false)

/-- Rebuild the tree along the first `d` steps of the path, applying
`doAttach` at depth `d`. -/
def rebuildAt (lens : Option (List (Nat × Option Int))) (s : Nat) :
    PNode → List Nat → Nat → Option (PNode × Bool)
  | nd, _, 0 => doAttach lens nd s
  | _, [], _ + 1 => none
  | nd, i :: rest, d + 1 =>
    match childAt nd.children i with
    | none => none
    | some c =>
      match rebuildAt lens s c rest d with
      | none => none
      | some (c', flag) =>
        some (.mk nd.taxon nd.length nd.split (setAt nd.children i c'), flag)

/-- One iteration of the `for split_to_add in splits_to_add` loop: skip
splits not under the current root split; find the leaf holding the lowest
bit, walk up to the first ancestor containing `s`, and attach there. -/
def addSplit (root : PNode) (lens : Option (List (Nat × Option Int))) (s : Nat) :
    Option (PNode × Bool) :=
  if s &&& root.split ≠ s then some (root, false)
  else
    match nodePath (lowest_bit_only s) root with
    | none => none
    | some path =>
      let nodes := splitsAlong root path
      match firstSuperIdx nodes.reverse s with
      | none => none
      | some k => rebuildAt lens s root path (nodes.length - 1 - k)

/-- `tree_from_splits(splits, taxon_namespace, split_edge_lengths, is_rooted)`
from treesplit.py: build the star tree over the `n`-taxon namespace, encode
it, filter and canonicalize the input splits (`splitsToAdd`), then greedily
insert each in order, recording each successful insertion in the tree's
split map (normalized keys for unrooted trees). -/
def tree_from_splits (splits : List Nat) (n : Nat)
    (split_edge_lengths : Option (List (Nat × Option Int))) (is_rooted : Bool) :
    Option PyTree :=
  let con0 : PyTree :=
    { is_rooted := is_rooted, seed_node := some (.mk none none 0 (starForest n)),
      split_edge_map := [] }
  let taxa_mask := 2 ^ n - 1
  let con1 := encode_splits con0 true true
  match con1.seed_node with
  | none => none
  | some root0 =>
    let sta := splitsToAdd splits taxa_mask is_rooted
    let res := sta.foldl
      (fun acc k =>
        match acc with
        | none => none
        | some rm =>
          match addSplit rm.1 split_edge_lengths k with
          | none => none
          | some ri =>
            some (ri.1,
              if ri.2 then
                if is_rooted then dictInsertKey rm.2 k
                else dictInsertKey rm.2 (normKey taxa_mask k)
              else rm.2))
      (some (root0, con1.split_edge_map))
    match res with
    | none => none
    | some rm =>
      some { is_rooted := is_rooted, seed_node := some rm.1, split_edge_map := rm.2 }

/-- C8 counterexample: on a tree with no seed node but with an existing
`split_edge_map`, `encode_splits` with `create_dict=True` (the default) is
not a no-op: `tree.split_edge_map = {}` runs *before* the
`if not tree.seed_node: return` early exit, so the existing map is lost. -/
def noSeedTree : PyTree :=
  { is_rooted := true, seed_node := none, split_edge_map := [3] }

theorem encode_splits_no_seed_counterexample :
    encode_splits noSeedTree true true ≠ noSeedTree ∧
    (encode_splits noSeedTree true true).split_edge_map = [] ∧
    noSeedTree.split_edge_map = [3] := by decide

/-- C8 amended: for a tree with no seed node, `encode_splits` with
`create_dict=False` leaves the tree unchanged; with `create_dict=True` its
only effect is resetting `split_edge_map` to the empty dictionary (which
happens before the early return). -/
theorem encode_splits_no_seed (t : PyTree) (d : Bool) (h : t.seed_node = none) :
    encode_splits t false d = t ∧
    encode_splits t true d = { t with split_edge_map := [] } := by
  constructor
  · simp [encode_splits, h]
  · simp [encode_splits, h]

/-- Witness for `encode_splits_no_seed` at a concrete seedless tree. -/
theorem encode_splits_no_seed_witness :
    encode_splits { is_rooted := false, seed_node := none, split_edge_map := [5] } false true =
      { is_rooted := false, seed_node := none, split_edge_map := [5] } ∧
    encode_splits { is_rooted := false, seed_node := none, split_edge_map := [5] } true true =
      { is_rooted := false, seed_node := none, split_edge_map := ([] : List Nat) } :=
  encode_splits_no_seed { is_rooted := false, seed_node := none, split_edge_map := [5] } true rfl

/-- The consensus tree over taxa {0..4} after inserting split 3 = {0,1} into
the rooted star: root (mask 31) with children C, D, E and the new node 3
over A, B. -/
def conT3 : PNode :=
  .mk none none 31
    (.cons (.mk (some 2) none 4 .nil)
      (.cons (.mk (some 3) none 8 .nil)
        (.cons (.mk (some 4) none 16 .nil)
          (.cons (.mk none none 3
            (.cons (.mk (some 0) none 1 .nil)
              (.cons (.mk (some 1) none 2 .nil) .nil))) .nil))))

/-- C2 counterexample: inserting the split 6 = {1,2} (incompatible with the
already-inserted 3 = {0,1}) into the 5-taxon rooted consensus gathers the
children 3 and 4 (OR = 7 ≠ 6) and is abandoned — and this failed insertion
leaves the tree bit-for-bit unchanged: the children were only collected into
`new_node_children`, never detached, because `remove_child`/`add_child` run
only inside the `if new_edge.split_bitmask == split_to_add` success branch. -/
theorem tree_from_splits_failed_insertion_counterexample :
    splitsToAdd [3, 6] 31 true = [3, 6] ∧
    tree_from_splits [3] 5 none true =
      some { is_rooted := true, seed_node := some conT3,
             split_edge_map := [1, 2, 4, 8, 16, 31, 3] } ∧
    addSplit conT3 none 6 = some (conT3, false) ∧
    tree_from_splits [3, 6] 5 none true = tree_from_splits [3] 5 none true := by decide

theorem pnode_eta (nd : PNode) :
    PNode.mk nd.taxon nd.length nd.split nd.children = nd := by
  cases nd
  rfl

theorem setAt_childAt_self :
    ∀ (cs : PForest) (i : Nat) (c : PNode), childAt cs i = some c → setAt cs i c = cs
  | .nil, _, _, h => by cases h
  | .cons hd tl, 0, c, h => by
    unfold childAt at h
    injection h with h2
    unfold setAt
    rw [h2]
  | .cons hd tl, i + 1, c, h => by
    unfold childAt at h
    unfold setAt
    rw [setAt_childAt_self tl i c h]

theorem doAttach_unchanged (lens : Option (List (Nat × Option Int)))
    (nd : PNode) (s : Nat) (nd' : PNode)
    (h : doAttach lens nd s = some (nd', false)) : nd' = nd := by
  unfold doAttach at h
  by_cases h1 : nd.split = s
  · rw [if_pos h1] at h
    injection h with h2
    exact (congrArg Prod.fst h2).symm
  · rw [if_neg h1] at h
    rcases hg : gatherGo s nd.children 0 with _ | ⟨o, m, k⟩
    · rw [hg] at h; cases h
    · rw [hg] at h
      dsimp only at h
      by_cases ho : o = s
      · rw [if_pos ho] at h
        rcases hr : resolveLen lens s with _ | elen
        · rw [hr] at h; dsimp only at h; cases h
        · rw [hr] at h
          dsimp only at h
          injection h with h2
          have hbad := congrArg Prod.snd h2
          simp at hbad
      · rw [if_neg ho] at h
        injection h with h2
        exact (congrArg Prod.fst h2).symm

theorem rebuildAt_unchanged (lens : Option (List (Nat × Option Int))) (s : Nat) :
    ∀ (d : Nat) (nd : PNode) (path : List Nat) (nd' : PNode),
      rebuildAt lens s nd path d = some (nd', false) → nd' = nd := by
  intro d
  induction d with
  | zero =>
    intro nd path nd' h
    simp only [rebuildAt] at h
    exact doAttach_unchanged lens nd s nd' h
  | succ d ih =>
    intro nd path nd' h
    rcases path with _ | ⟨i, rest⟩
    · simp [rebuildAt] at h
    · simp only [rebuildAt] at h
      rcases hc : childAt nd.children i with _ | c
      · rw [hc] at h; cases h
      · rw [hc] at h
        dsimp only at h
        rcases hr : rebuildAt lens s c rest d with _ | ⟨c', flag⟩
        · rw [hr] at h; cases h
        · rw [hr] at h
          dsimp only at h
          injection h with h2
          rw [Prod.mk.injEq] at h2
          obtain ⟨h3, h4⟩ := h2
          rw [h4] at hr
          rw [ih c rest c' hr] at h3
          rw [setAt_childAt_self nd.children i c hc] at h3
          rw [← h3]
          exact pnode_eta nd

/-- C2 amended: a failed insertion in `tree_from_splits` is side-effect-free
on the tree under construction.  The children overlapping the target split
are only collected into `new_node_children` before the check; they are
detached from the attachment point and reparented under the new node only
inside the success branch (`new_edge.split_bitmask == split_to_add`), so
whenever the loop body completes without inserting (the accumulated OR is a
proper superset of the target, the split is not under the root, or it is
already realized), the tree is returned exactly unchanged and no children
are dropped. -/
theorem addSplit_failed_no_side_effect (root : PNode)
    (lens : Option (List (Nat × Option Int))) (s : Nat) (r' : PNode)
    (h : addSplit root lens s = some (r', false)) : r' = root := by
  unfold addSplit at h
  by_cases h1 : s &&& root.split ≠ s
  · rw [if_pos h1] at h
    injection h with h2
    exact (congrArg Prod.fst h2).symm
  · rw [if_neg h1] at h
    rcases hp : nodePath (lowest_bit_only s) root with _ | path
    · rw [hp] at h; cases h
    · rw [hp] at h
      dsimp only at h
      rcases hf : firstSuperIdx (splitsAlong root path).reverse s with _ | k
      · rw [hf] at h; cases h
      · rw [hf] at h
        dsimp only at h
        exact rebuildAt_unchanged lens s _ root path r' h

/-- Witness for `addSplit_failed_no_side_effect`: the failed insertion of
split 6 into `conT3`. -/
theorem addSplit_failed_no_side_effect_witness :
    addSplit conT3 none 6 = some (conT3, false) ∧ conT3 = conT3 :=
  ⟨by decide, addSplit_failed_no_side_effect conT3 none 6 conT3 (by decide)⟩

/-! ### The encode_splits split invariant (C4) -/

mutual
/-- The C4 invariant as an executable check: every leaf's split is its
taxon's bitmask (0 when the leaf carries no taxon), every internal node's
split is the OR of its children's splits. -/
def splitsOkN : PNode → Bool
  | .mk tax _ sp .nil => sp == taxonBit tax
  | .mk _ _ sp (.cons c cs) => (sp == orSplits (.cons c cs)) && splitsOkF (.cons c cs)
def splitsOkF : PForest → Bool
  | .nil => true
  | .cons c r => splitsOkN c && splitsOkF r
end

mutual
/-- OR of the bitmasks of the taxa borne by the leaves of a subtree. -/
def leafTaxaOrN : PNode → Nat
  | .mk tax _ _ .nil => taxonBit tax
  | .mk _ _ _ (.cons c cs) => leafTaxaOrF (.cons c cs)
def leafTaxaOrF : PForest → Nat
  | .nil => 0
  | .cons c r => leafTaxaOrN c ||| leafTaxaOrF r
end

mutual
/-- OR of the bitmasks of the taxa borne by any node of a subtree
(leaves and internal nodes alike). -/
def allTaxaOrN : PNode → Nat
  | .mk tax _ _ cs => taxonBit tax ||| allTaxaOrF cs
def allTaxaOrF : PForest → Nat
  | .nil => 0
  | .cons c r => allTaxaOrN c ||| allTaxaOrF r
end

theorem splitsOkN_len_irrel (t : Option Nat) (l l' : Option Int) (s : Nat)
    (cs : PForest) : splitsOkN (.mk t l s cs) = splitsOkN (.mk t l' s cs) := by
  cases cs <;> rfl

theorem leafTaxaOrN_len_irrel (t : Option Nat) (l l' : Option Int) (s s' : Nat)
    (cs : PForest) : leafTaxaOrN (.mk t l s cs) = leafTaxaOrN (.mk t l' s' cs) := by
  cases cs <;> rfl

theorem leafTaxaOrN_taxon_irrel (t t' : Option Nat) (l l' : Option Int) (s s' : Nat)
    (c : PNode) (cs : PForest) :
    leafTaxaOrN (.mk t l s (.cons c cs)) = leafTaxaOrN (.mk t' l' s' (.cons c cs)) := rfl

theorem splitsOkN_internal (tax : Option Nat) (len : Option Int) :
    ∀ cs' : PForest, cs' ≠ .nil → splitsOkF cs' = true →
      splitsOkN (.mk tax len (orSplits cs') cs') = true
  | .nil, h, _ => absurd rfl h
  | .cons a b, _, hf => by
    unfold splitsOkN
    simp only [Bool.and_eq_true, beq_iff_eq]
    exact ⟨trivial, hf⟩

theorem leafTaxaOrN_internal (tax : Option Nat) (len : Option Int) (sp : Nat) :
    ∀ cs' : PForest, cs' ≠ .nil → leafTaxaOrN (.mk tax len sp cs') = leafTaxaOrF cs'
  | .nil, h => absurd rfl h
  | .cons _ _, _ => rfl

theorem orSplits_single (c : PNode) : orSplits (.cons c .nil) = c.split := by
  show c.split ||| orSplits .nil = c.split
  show c.split ||| 0 = c.split
  rw [Nat.or_zero]

theorem leafTaxaOrN_single (t : Option Nat) (l : Option Int) (s : Nat) (c : PNode) :
    leafTaxaOrN (.mk t l s (.cons c .nil)) = leafTaxaOrN c := by
  show leafTaxaOrF (.cons c .nil) = leafTaxaOrN c
  show leafTaxaOrN c ||| leafTaxaOrF .nil = leafTaxaOrN c
  show leafTaxaOrN c ||| 0 = leafTaxaOrN c
  rw [Nat.or_zero]

mutual
theorem encodeNode_invariant :
    ∀ (nd : PNode) (delete isRoot : Bool),
      splitsOkN (encodeNode delete isRoot nd).1 = true ∧
      (encodeNode delete isRoot nd).1.split = leafTaxaOrN nd ∧
      leafTaxaOrN (encodeNode delete isRoot nd).1 = leafTaxaOrN nd
  | .mk tax len sp .nil, delete, isRoot => by
    unfold encodeNode
    refine ⟨?_, rfl, rfl⟩
    unfold splitsOkN
    exact beq_self_eq_true _
  | .mk tax len sp (.cons c .nil), delete, isRoot => by
    obtain ⟨ih1, ih2, ih3⟩ := encodeNode_invariant c delete false
    unfold encodeNode
    dsimp only
    by_cases hd : (delete && !isRoot) = true
    · rw [if_pos hd]
      dsimp only
      rcases he : encodeNode delete false c with ⟨c', ks⟩
      rw [he] at ih1 ih2 ih3
      dsimp only at ih1 ih2 ih3 ⊢
      rcases c' with ⟨ct, cl, csp, ccs⟩
      dsimp only [PNode.taxon, PNode.length, PNode.split, PNode.children] at ih2 ⊢
      refine ⟨?_, ?_, ?_⟩
      · rw [splitsOkN_len_irrel ct (addLen cl len) cl csp ccs]
        exact ih1
      · rw [leafTaxaOrN_single]
        exact ih2
      · rw [leafTaxaOrN_len_irrel ct (addLen cl len) cl csp csp ccs, ih3,
          leafTaxaOrN_single]
    · rw [if_neg hd]
      dsimp only
      rcases he : encodeNode delete false c with ⟨c', ks⟩
      rw [he] at ih1 ih2 ih3
      dsimp only at ih1 ih2 ih3 ⊢
      refine ⟨?_, ?_, ?_⟩
      · simp [splitsOkN, splitsOkF, orSplits_single, ih1]
      · show c'.split = leafTaxaOrN (.mk tax len sp (.cons c .nil))
        rw [leafTaxaOrN_single]
        exact ih2
      · show leafTaxaOrN (.mk tax len (c'.split) (.cons c' .nil)) =
          leafTaxaOrN (.mk tax len sp (.cons c .nil))
        rw [leafTaxaOrN_single, leafTaxaOrN_single, ih3]
  | .mk tax len sp (.cons c1 (.cons c2 cs)), delete, isRoot => by
    obtain ⟨ih1, ih2, ih3⟩ := encodeForest_invariant (.cons c1 (.cons c2 cs)) delete
    have hcons : (encodeForest delete (.cons c1 (.cons c2 cs))).1 ≠ PForest.nil := by
      unfold encodeForest
      dsimp only
      exact fun h => PForest.noConfusion h
    unfold encodeNode
    dsimp only
    refine ⟨splitsOkN_internal tax len _ hcons ih1, ?_, ?_⟩
    · show orSplits (encodeForest delete (.cons c1 (.cons c2 cs))).1 =
        leafTaxaOrN (.mk tax len sp (.cons c1 (.cons c2 cs)))
      unfold leafTaxaOrN
      exact ih2
    · rw [leafTaxaOrN_internal tax len _ _ hcons]
      unfold leafTaxaOrN
      exact ih3
theorem encodeForest_invariant :
    ∀ (cs : PForest) (delete : Bool),
      splitsOkF (encodeForest delete cs).1 = true ∧
      orSplits (encodeForest delete cs).1 = leafTaxaOrF cs ∧
      leafTaxaOrF (encodeForest delete cs).1 = leafTaxaOrF cs
  | .nil, delete => by
    unfold encodeForest
    exact ⟨rfl, rfl, rfl⟩
  | .cons c rest, delete => by
    obtain ⟨n1, n2, n3⟩ := encodeNode_invariant c delete false
    obtain ⟨f1, f2, f3⟩ := encodeForest_invariant rest delete
    unfold encodeForest
    dsimp only
    rcases he : encodeNode delete false c with ⟨c', ks⟩
    rcases hf : encodeForest delete rest with ⟨rest', krest⟩
    rw [he] at n1 n2 n3
    rw [hf] at f1 f2 f3
    dsimp only at n1 n2 n3 f1 f2 f3 ⊢
    refine ⟨?_, ?_, ?_⟩
    · unfold splitsOkF
      simp only [Bool.and_eq_true]
      exact ⟨n1, f1⟩
    · unfold orSplits leafTaxaOrF
      rw [n2, f2]
    · unfold leafTaxaOrF
      rw [n3, f3]
end

theorem rootCollapse_leafTaxaOr :
    ∀ (fuel : Nat) (nd : PNode), leafTaxaOrN (rootCollapse fuel nd) = leafTaxaOrN nd := by
  intro fuel
  induction fuel with
  | zero => intro nd; rfl
  | succ f ih =>
    intro nd
    rcases nd with ⟨tax, len, sp, cs⟩
    rcases cs with _ | ⟨c, rest⟩
    · rfl
    · rcases rest with _ | ⟨c2, rest2⟩
      · unfold rootCollapse
        dsimp only
        by_cases hl : c.isLeaf = true
        · rw [if_pos hl]
        · rw [if_neg hl, ih, leafTaxaOrN_single]
          rcases c with ⟨ct, cl, csp, ccs⟩
          rcases ccs with _ | ⟨g, gs⟩
          · exact absurd rfl hl
          · rfl
      · rfl

/-- Reduction of `encode_splits` on a rooted tree with a seed node. -/
theorem encode_splits_rooted (sn : PNode) (m : List Nat) (cd del : Bool) :
    encode_splits ⟨true, some sn, m⟩ cd del =
      ⟨true,
       some (encodeNode del true (if del then rootCollapse sn.size sn else sn)).1,
       if cd then
         (encodeNode del true (if del then rootCollapse sn.size sn else sn)).2.foldl
           dictInsertKey []
       else m⟩ := by
  cases cd <;> cases del <;> simp [encode_splits]

/-- C4 counterexample: a rooted tree whose root itself bears taxon 2 over
two leaves with taxa 0 and 1.  All taxa present in the tree OR to 7, but
`encode_splits` computes the root split as the OR of the leaf bitmasks only,
3: the root split does not equal the OR of the bitmasks of all taxa present
in the tree. -/
def rootTaxonTree : PNode :=
  .mk (some 2) none 0
    (.cons (.mk (some 0) none 0 .nil) (.cons (.mk (some 1) none 0 .nil) .nil))

theorem encode_splits_root_split_counterexample :
    allTaxaOrN rootTaxonTree = 7 ∧
    ((encode_splits ⟨true, some rootTaxonTree, []⟩ true true).seed_node.map
      PNode.split) = some 3 ∧
    (3 : Nat) ≠ 7 := by decide

/-- C4 amended: for every rooted tree with a seed node, after
`encode_splits` every internal edge's `split_bitmask` is the OR of its child
edges' split bitmasks, every leaf edge's is its taxon's bitmask (0 for a
taxonless leaf), and the root edge's is the OR of the bitmasks of the taxa
borne by the leaves of the original tree (taxa attached to internal nodes,
the root included, do not contribute). -/
theorem encode_splits_splits_ok (t : PyTree) (sn : PNode) (cd del : Bool)
    (hroot : t.is_rooted = true) (hseed : t.seed_node = some sn) :
    ∃ sn', (encode_splits t cd del).seed_node = some sn' ∧
      splitsOkN sn' = true ∧ sn'.split = leafTaxaOrN sn := by
  obtain ⟨ir, seed, m⟩ := t
  dsimp only at hroot hseed
  subst hroot
  subst hseed
  rw [encode_splits_rooted]
  refine ⟨_, rfl, (encodeNode_invariant _ del true).1, ?_⟩
  rw [(encodeNode_invariant _ del true).2.1]
  cases del
  · rfl
  · exact rootCollapse_leafTaxaOr sn.size sn

/-- Witness for `encode_splits_splits_ok` on a rooted three-leaf tree with a
nested cherry. -/
def cherryTree : PNode :=
  .mk none none 0
    (.cons (.mk none none 0
        (.cons (.mk (some 0) none 0 .nil) (.cons (.mk (some 1) none 0 .nil) .nil)))
      (.cons (.mk (some 2) none 0 .nil) .nil))

theorem encode_splits_splits_ok_witness :
    ∃ sn', (encode_splits ⟨true, some cherryTree, []⟩ true true).seed_node = some sn' ∧
      splitsOkN sn' = true ∧ sn'.split = leafTaxaOrN cherryTree :=
  encode_splits_splits_ok ⟨true, some cherryTree, []⟩ cherryTree true true rfl rfl

/-! ### Round trip (C3): bit-level helpers -/

/-- `s &&& t = s` says the bits of `s` are a subset of those of `t`. -/
theorem and_eq_left_iff (s t : Nat) :
    s &&& t = s ↔ ∀ i, s.testBit i = true → t.testBit i = true := by
  constructor
  · intro h i hi
    have := congrArg (Nat.testBit · i) h
    simp only [Nat.testBit_and] at this
    rw [hi] at this
    simpa using this.symm
  · intro h
    apply Nat.eq_of_testBit_eq
    intro i
    rw [Nat.testBit_and]
    cases hs : s.testBit i
    · rfl
    · rw [h i hs]
      rfl

theorem sub_trans {a b c : Nat} (h1 : a &&& b = a) (h2 : b &&& c = b) :
    a &&& c = a := by
  rw [and_eq_left_iff] at *
  exact fun i hi => h2 i (h1 i hi)

theorem or_eq_zero_iff (a b : Nat) : a ||| b = 0 ↔ a = 0 ∧ b = 0 := by
  constructor
  · intro h
    constructor <;> apply Nat.eq_of_testBit_eq <;> intro i <;>
      have := congrArg (Nat.testBit · i) h <;>
      simp only [Nat.testBit_or, Nat.zero_testBit] at this ⊢
    · cases ha : a.testBit i
      · rfl
      · rw [ha] at this; simp at this
    · cases hb : b.testBit i
      · rfl
      · rw [hb] at this; simp at this
  · rintro ⟨rfl, rfl⟩
    rfl

theorem sub_or_left (a b : Nat) : a &&& (a ||| b) = a := by
  rw [and_eq_left_iff]
  intro i hi
  rw [Nat.testBit_or, hi]
  rfl

theorem sub_or_right (a b : Nat) : b &&& (a ||| b) = b := by
  rw [and_eq_left_iff]
  intro i hi
  rw [Nat.testBit_or, hi]
  simp

theorem or_sub_of_sub {a b c : Nat} (h1 : a &&& c = a) (h2 : b &&& c = b) :
    (a ||| b) &&& c = a ||| b := by
  rw [and_eq_left_iff] at *
  intro i hi
  rw [Nat.testBit_or] at hi
  rcases Bool.or_eq_true _ _ |>.mp hi with h | h
  · exact h1 i h
  · exact h2 i h

theorem two_pow_sub_iff (i : Nat) (t : Nat) :
    2 ^ i &&& t = 2 ^ i ↔ t.testBit i = true := by
  rw [and_eq_left_iff]
  constructor
  · intro h
    exact h i Nat.testBit_two_pow_self
  · intro h j hj
    rw [Nat.testBit_two_pow] at hj
    have : i = j := by simpa using hj
    rw [← this]
    exact h

theorem two_pow_disjoint {i j : Nat} (h : i ≠ j) : 2 ^ i &&& 2 ^ j = 0 := by
  apply Nat.eq_of_testBit_eq
  intro b
  rw [Nat.testBit_and, Nat.zero_testBit, Nat.testBit_two_pow, Nat.testBit_two_pow]
  by_cases hib : i = b
  · subst hib
    simp [h.symm]
  · simp [hib]

theorem two_pow_pred_and (t : Nat) : (2 ^ t - 1) &&& 2 ^ t = 0 := by
  apply Nat.eq_of_testBit_eq
  intro b
  rw [Nat.testBit_and, Nat.zero_testBit, Nat.testBit_two_pow_sub_one,
    Nat.testBit_two_pow]
  by_cases hb : b < t
  · simp [hb, Nat.ne_of_gt hb]
  · simp [hb]

theorem sub_two_pow {s : Nat} (t : Nat) (h : s &&& 2 ^ t = s) :
    s = 0 ∨ s = 2 ^ t := by
  rw [and_eq_left_iff] at h
  by_cases ht : s.testBit t = true
  · right
    apply Nat.eq_of_testBit_eq
    intro b
    rw [Nat.testBit_two_pow]
    by_cases hb : t = b
    · subst hb
      simp [ht]
    · simp only [hb, decide_False]
      cases hs : s.testBit b
      · rfl
      · have := h b hs
        rw [Nat.testBit_two_pow] at this
        simp [hb] at this
  · left
    apply Nat.eq_of_testBit_eq
    intro b
    rw [Nat.zero_testBit]
    cases hs : s.testBit b
    · rfl
    · have := h b hs
      rw [Nat.testBit_two_pow] at this
      have hb : t = b := by simpa using this
      subst hb
      rw [hs] at ht
      exact absurd rfl ht

/-- For `s ≠ 0`, `lowest_bit_only s` is `2 ^ i` for the least set bit `i`. -/
theorem lowest_bit_only_spec :
    ∀ s : Nat, s ≠ 0 → ∃ i, lowest_bit_only s = 2 ^ i ∧ s.testBit i = true := by
  intro s
  induction s using Nat.strong_induction_on with
  | _ s ih =>
    intro hs0
    rcases Nat.even_or_odd s with ⟨m, hm⟩ | ⟨m, hm⟩
    · -- s = 2 m, m ≠ 0
      have hm0 : m ≠ 0 := by omega
      obtain ⟨i, hlb, hbit⟩ := ih m (by omega) hm0
      refine ⟨i + 1, ?_, ?_⟩
      · unfold lowest_bit_only at hlb ⊢
        have h1 : s &&& (s - 1) = 2 * (m &&& (m - 1)) := by
          have hd : (s &&& (s - 1)) / 2 = m &&& (m - 1) := by
            rw [Nat.and_div_two]
            congr 1 <;> omega
          have hm2 : (s &&& (s - 1)) % 2 = 0 := by
            have : ¬ ((s &&& (s - 1)) % 2 = 1) := by
              rw [Nat.and_mod_two_eq_one]
              omega
            omega
          omega
        have h2 : s &&& (s - 1) ^^^ s = 2 * (m &&& (m - 1) ^^^ m) := by
          have hd : (s &&& (s - 1) ^^^ s) / 2 = m &&& (m - 1) ^^^ m := by
            rw [Nat.xor_div_two, h1]
            congr 1 <;> omega
          have hx2 : (s &&& (s - 1) ^^^ s) % 2 = 0 := by
            have hb : (s &&& (s - 1)) % 2 = 0 := by
              have : ¬ ((s &&& (s - 1)) % 2 = 1) := by
                rw [Nat.and_mod_two_eq_one]
                omega
              omega
            have : ¬ ((s &&& (s - 1) ^^^ s) % 2 = 1) := by
              rw [Nat.xor_mod_two_eq_one]
              omega
            omega
          omega
        rw [h2, hlb, pow_succ]
        ring
      · rw [Nat.testBit_add_one]
        have : s / 2 = m := by omega
        rw [this]
        exact hbit
    · -- s odd: lowest bit is bit 0
      refine ⟨0, ?_, ?_⟩
      · unfold lowest_bit_only
        have h1 : s &&& (s - 1) = 2 * ((s / 2) &&& (s / 2)) := by
          have hd : (s &&& (s - 1)) / 2 = (s / 2) &&& (s / 2) := by
            rw [Nat.and_div_two]
            congr 1
            omega
          have hm2 : (s &&& (s - 1)) % 2 = 0 := by
            have : ¬ ((s &&& (s - 1)) % 2 = 1) := by
              rw [Nat.and_mod_two_eq_one]
              omega
            omega
          omega
        rw [h1, Nat.and_self]
        have hd : (2 * (s / 2) ^^^ s) / 2 = 0 := by
          rw [Nat.xor_div_two]
          have : 2 * (s / 2) / 2 = s / 2 := by omega
          rw [this, Nat.xor_self]
        have hm2 : (2 * (s / 2) ^^^ s) % 2 = 1 := by
          rw [Nat.xor_mod_two_eq_one]
          omega
        omega
      · rw [Nat.testBit_zero]
        simp
        omega

/-! ### Round trip (C3): structural predicates on trees -/

/-- The splits of the members of a forest, in order. -/
def forestSplits : PForest → List Nat
  | .nil => []
  | .cons c r => c.split :: forestSplits r

/-- Right-fold OR of a list of masks. -/
def orList (l : List Nat) : Nat := l.foldr (fun a b => a ||| b) 0

theorem orSplits_eq_orList : ∀ cs : PForest, orSplits cs = orList (forestSplits cs)
  | .nil => rfl
  | .cons c r => by
    show c.split ||| orSplits r = orList (c.split :: forestSplits r)
    rw [orSplits_eq_orList r]
    rfl

theorem orList_testBit (l : List Nat) (b : Nat) :
    (orList l).testBit b = l.any (fun x => x.testBit b) := by
  induction l with
  | nil => simp [orList]
  | cons x r ih =>
    show ((x ||| orList r).testBit b) = _
    rw [Nat.testBit_or, ih]
    simp

theorem mem_sub_orList (l : List Nat) (x : Nat) (h : x ∈ l) :
    x &&& orList l = x := by
  rw [and_eq_left_iff]
  intro i hi
  rw [orList_testBit]
  rw [List.any_eq_true]
  exact ⟨x, h, hi⟩

/-- Disjointness of a mask from every split in a forest. -/
def disjWithF (s : Nat) : PForest → Bool
  | .nil => true
  | .cons c r => (c.split &&& s == 0) && disjWithF s r

/-- Pairwise disjointness of the splits of a forest. -/
def pairDisjF : PForest → Bool
  | .nil => true
  | .cons c r => disjWithF c.split r && pairDisjF r

theorem disjWithF_iff (s : Nat) :
    ∀ cs : PForest, disjWithF s cs = true ↔ ∀ x ∈ forestSplits cs, x &&& s = 0
  | .nil => by simp [disjWithF, forestSplits]
  | .cons c r => by
    show ((c.split &&& s == 0) && disjWithF s r) = true ↔ _
    rw [Bool.and_eq_true, beq_iff_eq, disjWithF_iff s r]
    show _ ↔ ∀ x ∈ c.split :: forestSplits r, x &&& s = 0
    simp only [List.mem_cons]
    constructor
    · rintro ⟨h1, h2⟩ x hx
      rcases hx with hx | hx
      · exact hx ▸ h1
      · exact h2 x hx
    · intro h
      exact ⟨h c.split (Or.inl rfl), fun x hx => h x (Or.inr hx)⟩

theorem pairDisjF_iff :
    ∀ cs : PForest, pairDisjF cs = true ↔
      (forestSplits cs).Pairwise (fun a b => a &&& b = 0)
  | .nil => by simp [pairDisjF, forestSplits]
  | .cons c r => by
    show (disjWithF c.split r && pairDisjF r) = true ↔ _
    rw [Bool.and_eq_true, pairDisjF_iff r, disjWithF_iff]
    show _ ↔ List.Pairwise _ (c.split :: forestSplits r)
    rw [List.pairwise_cons]
    constructor
    · rintro ⟨h1, h2⟩
      exact ⟨fun x hx => by rw [Nat.and_comm]; exact h1 x hx, h2⟩
    · rintro ⟨h1, h2⟩
      exact ⟨fun x hx => by rw [Nat.and_comm]; exact h1 x hx, h2⟩

mutual
/-- Well-formedness of an (encoded) tree for the consensus argument: every
leaf bears a taxon and carries its bitmask as split; every internal node's
split is the OR of its children's splits and its children's splits are
pairwise disjoint. -/
def wfN : PNode → Bool
  | .mk tax _ sp .nil => tax.isSome && (sp == taxonBit tax)
  | .mk _ _ sp (.cons c cs) =>
    (sp == orSplits (.cons c cs)) && pairDisjF (.cons c cs) && wfF (.cons c cs)
def wfF : PForest → Bool
  | .nil => true
  | .cons c r => wfN c && wfF r
end

mutual
/-- The postorder list of edge `split_bitmask`s of a subtree. -/
def edgeKeysN : PNode → List Nat
  | .mk _ _ sp .nil => [sp]
  | .mk _ _ sp (.cons c cs) => edgeKeysF (.cons c cs) ++ [sp]
def edgeKeysF : PForest → List Nat
  | .nil => []
  | .cons c r => edgeKeysN c ++ edgeKeysF r
end

mutual
/-- Every internal node (the root included) has at least two children. -/
def noUnaryN : PNode → Bool
  | .mk _ _ _ .nil => true
  | .mk _ _ _ (.cons _ .nil) => false
  | .mk _ _ _ (.cons c1 (.cons c2 cs)) => noUnaryF (.cons c1 (.cons c2 cs))
def noUnaryF : PForest → Bool
  | .nil => true
  | .cons c r => noUnaryN c && noUnaryF r
end

mutual
/-- The taxa of the leaves of a subtree, in left-to-right order. -/
def leafTaxaN : PNode → List (Option Nat)
  | .mk tax _ _ .nil => [tax]
  | .mk _ _ _ (.cons c cs) => leafTaxaF (.cons c cs)
def leafTaxaF : PForest → List (Option Nat)
  | .nil => []
  | .cons c r => leafTaxaN c ++ leafTaxaF r
end

theorem wfF_iff : ∀ cs : PForest, wfF cs = true ↔ ∀ c ∈ cs.toList, wfN c = true
  | .nil => by simp [wfF, PForest.toList]
  | .cons c r => by
    rw [show wfF (.cons c r) = (wfN c && wfF r) from rfl, Bool.and_eq_true, wfF_iff r]
    show _ ↔ ∀ x ∈ c :: r.toList, wfN x = true
    simp only [List.mem_cons]
    constructor
    · rintro ⟨h1, h2⟩ x hx
      rcases hx with rfl | hx
      · exact h1
      · exact h2 x hx
    · intro h
      exact ⟨h c (Or.inl rfl), fun x hx => h x (Or.inr hx)⟩

theorem noUnaryF_iff :
    ∀ cs : PForest, noUnaryF cs = true ↔ ∀ c ∈ cs.toList, noUnaryN c = true
  | .nil => by simp [noUnaryF, PForest.toList]
  | .cons c r => by
    rw [show noUnaryF (.cons c r) = (noUnaryN c && noUnaryF r) from rfl,
      Bool.and_eq_true, noUnaryF_iff r]
    show _ ↔ ∀ x ∈ c :: r.toList, noUnaryN x = true
    simp only [List.mem_cons]
    constructor
    · rintro ⟨h1, h2⟩ x hx
      rcases hx with rfl | hx
      · exact h1
      · exact h2 x hx
    · intro h
      exact ⟨h c (Or.inl rfl), fun x hx => h x (Or.inr hx)⟩

theorem edgeKeysF_mem :
    ∀ (cs : PForest) (x : Nat), x ∈ edgeKeysF cs ↔ ∃ c ∈ cs.toList, x ∈ edgeKeysN c
  | .nil, x => by simp [edgeKeysF, PForest.toList]
  | .cons c r, x => by
    rw [show edgeKeysF (.cons c r) = edgeKeysN c ++ edgeKeysF r from rfl]
    rw [List.mem_append, edgeKeysF_mem r x]
    show _ ↔ ∃ y ∈ c :: r.toList, x ∈ edgeKeysN y
    simp only [List.mem_cons]
    constructor
    · rintro (h | ⟨y, hy, hx⟩)
      · exact ⟨c, Or.inl rfl, h⟩
      · exact ⟨y, Or.inr hy, hx⟩
    · rintro ⟨y, (rfl | hy), hx⟩
      · exact Or.inl hx
      · exact Or.inr ⟨y, hy, hx⟩

theorem forestSplits_toList : ∀ cs : PForest, forestSplits cs = cs.toList.map PNode.split
  | .nil => rfl
  | .cons c r => by
    show c.split :: forestSplits r = _
    rw [forestSplits_toList r]
    rfl

theorem childAt_toList : ∀ (cs : PForest) (j : Nat), childAt cs j = cs.toList.get? j
  | .nil, j => by cases j <;> rfl
  | .cons c r, 0 => rfl
  | .cons c r, j + 1 => by
    show childAt r j = _
    rw [childAt_toList r j]
    rfl

theorem setAt_toList :
    ∀ (cs : PForest) (j : Nat) (x : PNode), (setAt cs j x).toList = cs.toList.set j x
  | .nil, j, x => by cases j <;> rfl
  | .cons c r, 0, x => rfl
  | .cons c r, j + 1, x => by
    show c :: (setAt r j x).toList = _
    rw [setAt_toList r j x]
    rfl

theorem ofList_toList (l : List PNode) : (PForest.ofList l).toList = l := by
  induction l with
  | nil => rfl
  | cons c r ih =>
    show c :: (PForest.ofList r).toList = c :: r
    rw [ih]

theorem append_toList : ∀ a b : PForest, (a.append b).toList = a.toList ++ b.toList
  | .nil, b => rfl
  | .cons c r, b => by
    show c :: (r.append b).toList = (c :: r.toList) ++ b.toList
    rw [append_toList r b]
    rfl

/-- Compatibility of two splits in the laminar-family sense. -/
def Compat (s r : Nat) : Prop := s &&& r = 0 ∨ s &&& r = s ∨ s &&& r = r

theorem and_disjoint_of_subs {a A b B : Nat} (ha : a &&& A = a) (hb : b &&& B = b)
    (hAB : A &&& B = 0) : a &&& b = 0 := by
  apply Nat.eq_of_testBit_eq
  intro i
  rw [Nat.testBit_and, Nat.zero_testBit]
  cases hia : a.testBit i
  · rfl
  · cases hib : b.testBit i
    · rfl
    · rw [and_eq_left_iff] at ha hb
      have hA := ha i hia
      have hB := hb i hib
      have := congrArg (Nat.testBit · i) hAB
      simp only [Nat.testBit_and, Nat.zero_testBit] at this
      rw [hA, hB] at this
      simp at this

theorem leafTaxaF_mem :
    ∀ (cs : PForest) (x : Option Nat),
      x ∈ leafTaxaF cs ↔ ∃ c ∈ cs.toList, x ∈ leafTaxaN c
  | .nil, x => by simp [leafTaxaF, PForest.toList]
  | .cons c r, x => by
    rw [show leafTaxaF (.cons c r) = leafTaxaN c ++ leafTaxaF r from rfl]
    rw [List.mem_append, leafTaxaF_mem r x]
    show _ ↔ ∃ y ∈ c :: r.toList, x ∈ leafTaxaN y
    simp only [List.mem_cons]
    constructor
    · rintro (h | ⟨y, hy, hx⟩)
      · exact ⟨c, Or.inl rfl, h⟩
      · exact ⟨y, Or.inr hy, hx⟩
    · rintro ⟨y, (rfl | hy), hx⟩
      · exact Or.inl hx
      · exact Or.inr ⟨y, hy, hx⟩

mutual
/-- Bit `b` is in the leaf-taxa OR of a subtree iff taxon `b` is at one of
its leaves (all leaves bearing taxa). -/
theorem leafOr_testBit_N :
    ∀ nd : PNode, (∀ x ∈ leafTaxaN nd, x.isSome = true) →
      ∀ b, (leafTaxaOrN nd).testBit b = true ↔ some b ∈ leafTaxaN nd
  | .mk tax len sp .nil, hsome, b => by
    show (taxonBit tax).testBit b = true ↔ some b ∈ [tax]
    rcases tax with _ | t
    · have := hsome none (by show none ∈ [(none : Option Nat)]; simp)
      cases this
    · show (2 ^ t).testBit b = true ↔ _
      rw [Nat.testBit_two_pow]
      simp [eq_comm]
  | .mk tax len sp (.cons c cs), hsome, b => by
    show (leafTaxaOrF (.cons c cs)).testBit b = true ↔ some b ∈ leafTaxaF (.cons c cs)
    exact leafOr_testBit_F (.cons c cs) hsome b
theorem leafOr_testBit_F :
    ∀ cs : PForest, (∀ x ∈ leafTaxaF cs, x.isSome = true) →
      ∀ b, (leafTaxaOrF cs).testBit b = true ↔ some b ∈ leafTaxaF cs
  | .nil, _, b => by
    show (0 : Nat).testBit b = true ↔ some b ∈ ([] : List (Option Nat))
    simp [Nat.zero_testBit]
  | .cons c r, hsome, b => by
    show (leafTaxaOrN c ||| leafTaxaOrF r).testBit b = true ↔
      some b ∈ leafTaxaN c ++ leafTaxaF r
    rw [Nat.testBit_or, List.mem_append, Bool.or_eq_true]
    rw [leafOr_testBit_N c (fun x hx => hsome x (by
      show x ∈ leafTaxaN c ++ leafTaxaF r
      exact List.mem_append_left _ hx)) b]
    rw [leafOr_testBit_F r (fun x hx => hsome x (by
      show x ∈ leafTaxaN c ++ leafTaxaF r
      exact List.mem_append_right _ hx)) b]
end

mutual
/-- Every edge key of a well-formed subtree is a subset of its root split. -/
theorem keySub_N :
    ∀ nd : PNode, wfN nd = true → ∀ x ∈ edgeKeysN nd, x &&& nd.split = x
  | .mk tax len sp .nil, hwf, x, hx => by
    have : x = sp := by simpa using (show x ∈ [sp] from hx)
    subst this
    exact Nat.and_self x
  | .mk tax len sp (.cons c cs), hwf, x, hx => by
    have hwf' := hwf
    rw [show wfN (.mk tax len sp (.cons c cs)) =
      ((sp == orSplits (.cons c cs)) && pairDisjF (.cons c cs) && wfF (.cons c cs))
      from rfl] at hwf'
    simp only [Bool.and_eq_true, beq_iff_eq] at hwf'
    obtain ⟨⟨hsp, _⟩, hwfF⟩ := hwf'
    rw [show edgeKeysN (.mk tax len sp (.cons c cs)) =
      edgeKeysF (.cons c cs) ++ [sp] from rfl] at hx
    rw [List.mem_append] at hx
    show x &&& sp = x
    rcases hx with hx | hx
    · have := keySub_F (.cons c cs) hwfF x hx
      rw [hsp]
      exact this
    · have : x = sp := by simpa using hx
      subst this
      exact Nat.and_self x
theorem keySub_F :
    ∀ cs : PForest, wfF cs = true → ∀ x ∈ edgeKeysF cs, x &&& orSplits cs = x
  | .nil, _, x, hx => by cases hx
  | .cons c r, hwf, x, hx => by
    rw [show wfF (.cons c r) = (wfN c && wfF r) from rfl, Bool.and_eq_true] at hwf
    rw [show edgeKeysF (.cons c r) = edgeKeysN c ++ edgeKeysF r from rfl,
      List.mem_append] at hx
    show x &&& (c.split ||| orSplits r) = x
    rcases hx with hx | hx
    · exact sub_trans (keySub_N c hwf.1 x hx) (sub_or_left _ _)
    · exact sub_trans (keySub_F r hwf.2 x hx) (sub_or_right _ _)
end

mutual
/-- Any two edge keys of a well-formed subtree are compatible. -/
theorem compat_N :
    ∀ nd : PNode, wfN nd = true →
      ∀ a ∈ edgeKeysN nd, ∀ b ∈ edgeKeysN nd, Compat a b
  | .mk tax len sp .nil, hwf, a, ha, b, hb => by
    have ha' : a = sp := by simpa using (show a ∈ [sp] from ha)
    have hb' : b = sp := by simpa using (show b ∈ [sp] from hb)
    subst ha'
    subst hb'
    exact Or.inr (Or.inl (Nat.and_self _))
  | .mk tax len sp (.cons c cs), hwf, a, ha, b, hb => by
    have hwf' := hwf
    rw [show wfN (.mk tax len sp (.cons c cs)) =
      ((sp == orSplits (.cons c cs)) && pairDisjF (.cons c cs) && wfF (.cons c cs))
      from rfl] at hwf'
    simp only [Bool.and_eq_true, beq_iff_eq] at hwf'
    obtain ⟨⟨hsp, hpd⟩, hwfF⟩ := hwf'
    rw [show edgeKeysN (.mk tax len sp (.cons c cs)) =
      edgeKeysF (.cons c cs) ++ [sp] from rfl, List.mem_append] at ha hb
    have hsubF : ∀ x ∈ edgeKeysF (.cons c cs), x &&& sp = x := by
      intro x hx
      rw [hsp]
      exact keySub_F (.cons c cs) hwfF x hx
    rcases ha with ha | ha <;> rcases hb with hb | hb
    · exact compat_F (.cons c cs) hwfF hpd a ha b hb
    · have hb' : b = sp := by simpa using hb
      subst hb'
      exact Or.inr (Or.inl (hsubF a ha))
    · have ha' : a = sp := by simpa using ha
      subst ha'
      have := hsubF b hb
      rw [Nat.and_comm] at this
      exact Or.inr (Or.inr this)
    · have ha' : a = sp := by simpa using ha
      have hb' : b = sp := by simpa using hb
      subst ha'
      subst hb'
      exact Or.inr (Or.inl (Nat.and_self _))
theorem compat_F :
    ∀ cs : PForest, wfF cs = true → pairDisjF cs = true →
      ∀ a ∈ edgeKeysF cs, ∀ b ∈ edgeKeysF cs, Compat a b
  | .nil, _, _, a, ha, _, _ => by cases ha
  | .cons c r, hwf, hpd, a, ha, b, hb => by
    rw [show wfF (.cons c r) = (wfN c && wfF r) from rfl, Bool.and_eq_true] at hwf
    rw [show pairDisjF (.cons c r) = (disjWithF c.split r && pairDisjF r) from rfl,
      Bool.and_eq_true] at hpd
    rw [show edgeKeysF (.cons c r) = edgeKeysN c ++ edgeKeysF r from rfl,
      List.mem_append] at ha hb
    have hcross : ∀ x ∈ edgeKeysN c, ∀ y ∈ edgeKeysF r, x &&& y = 0 := by
      intro x hx y hy
      obtain ⟨m, hm, hym⟩ := (edgeKeysF_mem r y).mp hy
      have hy' : y &&& m.split = y :=
        keySub_N m ((wfF_iff r).mp hwf.2 m hm) y hym
      have hx' : x &&& c.split = x := keySub_N c hwf.1 x hx
      have hdm : m.split &&& c.split = 0 := by
        rw [disjWithF_iff] at hpd
        exact hpd.1 m.split (by
          rw [forestSplits_toList]
          exact List.mem_map_of_mem PNode.split hm)
      have : x &&& y &&& (c.split &&& m.split) = x &&& y := by
        rw [and_eq_left_iff] at hx' hy' ⊢
        intro i hi
        rw [Nat.testBit_and] at hi ⊢
        have h1 := Bool.and_eq_true _ _ |>.mp hi
        rw [hx' i h1.1, hy' i h1.2]
        rfl
      rw [Nat.and_comm c.split m.split, hdm, Nat.and_zero] at this
      exact this.symm
    rcases ha with ha | ha <;> rcases hb with hb | hb
    · exact compat_N c hwf.1 a ha b hb
    · exact Or.inl (hcross a ha b hb)
    · have := hcross b hb a ha
      rw [Nat.and_comm] at this
      exact Or.inl this
    · exact compat_F r hwf.2 hpd.2 a ha b hb
end

def oneChild (cs : PForest) : Bool := cs.toList.length == 1

theorem noUnaryN_mk (t : Option Nat) (l : Option Int) (sp : Nat) :
    ∀ cs : PForest, noUnaryN (.mk t l sp cs) = (!oneChild cs && noUnaryF cs)
  | .nil => rfl
  | .cons c .nil => rfl
  | .cons c (.cons d r) => by
    show noUnaryF (.cons c (.cons d r)) =
      (!oneChild (.cons c (.cons d r)) && noUnaryF (.cons c (.cons d r)))
    rw [show oneChild (.cons c (.cons d r)) = false from rfl]
    rw [Bool.not_false, Bool.true_and]

theorem wfN_mk (t : Option Nat) (l : Option Int) (sp : Nat) :
    ∀ cs : PForest, cs ≠ .nil →
      wfN (.mk t l sp cs) = ((sp == orSplits cs) && pairDisjF cs && wfF cs)
  | .nil, h => absurd rfl h
  | .cons _ _, _ => rfl

theorem edgeKeysN_mk (t : Option Nat) (l : Option Int) (sp : Nat) :
    ∀ cs : PForest, cs ≠ .nil → edgeKeysN (.mk t l sp cs) = edgeKeysF cs ++ [sp]
  | .nil, h => absurd rfl h
  | .cons _ _, _ => rfl

theorem leafTaxaN_mk (t : Option Nat) (l : Option Int) (sp : Nat) :
    ∀ cs : PForest, cs ≠ .nil → leafTaxaN (.mk t l sp cs) = leafTaxaF cs
  | .nil, h => absurd rfl h
  | .cons _ _, _ => rfl

theorem split_mem_keysN : ∀ nd : PNode, nd.split ∈ edgeKeysN nd
  | .mk t l sp .nil => by
    show sp ∈ [sp]
    simp
  | .mk t l sp (.cons c r) => by
    show sp ∈ edgeKeysF (.cons c r) ++ [sp]
    simp

mutual
/-- In a well-formed tree no recorded split is zero. -/
theorem key_nonzero_N : ∀ nd : PNode, wfN nd = true → ∀ x ∈ edgeKeysN nd, x ≠ 0
  | .mk t l sp .nil, hwf, x, hx => by
    have hx' : x = sp := by simpa using (show x ∈ [sp] from hx)
    subst hx'
    rw [show wfN (.mk t l x .nil) = (t.isSome && (x == taxonBit t)) from rfl,
      Bool.and_eq_true, beq_iff_eq] at hwf
    obtain ⟨hsome, hsp⟩ := hwf
    rcases t with _ | v
    · cases hsome
    · rw [hsp]
      show (2 : Nat) ^ v ≠ 0
      exact pow_ne_zero v (by norm_num)
  | .mk t l sp (.cons c r), hwf, x, hx => by
    rw [wfN_mk t l sp _ (fun h => PForest.noConfusion h)] at hwf
    simp only [Bool.and_eq_true, beq_iff_eq] at hwf
    obtain ⟨⟨hsp, _⟩, hwfF⟩ := hwf
    rw [edgeKeysN_mk t l sp _ (fun h => PForest.noConfusion h), List.mem_append] at hx
    rcases hx with hx | hx
    · exact key_nonzero_F (.cons c r) hwfF x hx
    · have hx' : x = sp := by simpa using hx
      subst hx'
      rw [hsp, show orSplits (.cons c r) = c.split ||| orSplits r from rfl]
      intro h0
      rw [or_eq_zero_iff] at h0
      have hcwf : wfN c = true := ((wfF_iff _).mp hwfF) c (by
        show c ∈ c :: r.toList
        simp)
      exact key_nonzero_N c hcwf c.split (split_mem_keysN c) h0.1
theorem key_nonzero_F : ∀ cs : PForest, wfF cs = true → ∀ x ∈ edgeKeysF cs, x ≠ 0
  | .nil, _, x, hx => by cases hx
  | .cons c r, hwf, x, hx => by
    rw [show wfF (.cons c r) = (wfN c && wfF r) from rfl, Bool.and_eq_true] at hwf
    rw [show edgeKeysF (.cons c r) = edgeKeysN c ++ edgeKeysF r from rfl,
      List.mem_append] at hx
    rcases hx with hx | hx
    · exact key_nonzero_N c hwf.1 x hx
    · exact key_nonzero_F r hwf.2 x hx
end

theorem taxaOr_disjoint {u v : Nat} {A B : List (Option Nat)}
    (hu : ∀ b, u.testBit b = true ↔ some b ∈ A)
    (hv : ∀ b, v.testBit b = true ↔ some b ∈ B)
    (hd : ∀ b, some b ∈ A → some b ∈ B → False) : u &&& v = 0 := by
  apply Nat.eq_of_testBit_eq
  intro i
  rw [Nat.testBit_and, Nat.zero_testBit]
  cases h1 : u.testBit i
  · rfl
  · cases h2 : v.testBit i
    · rfl
    · exact ((hd i ((hu i).mp h1) ((hv i).mp h2)).elim : _)

theorem encodeForest_toList_length :
    ∀ (cs : PForest) (del : Bool),
      (encodeForest del cs).1.toList.length = cs.toList.length
  | .nil, del => rfl
  | .cons c r, del => by
    show ((encodeForest del (.cons c r)).1).toList.length = r.toList.length + 1
    unfold encodeForest
    dsimp only
    show ((encodeNode del false c).1 :: (encodeForest del r).1.toList).length = _
    rw [List.length_cons, encodeForest_toList_length r del]

mutual
/-- `encode_splits`'s postorder pass on a tree whose leaves all bear
pairwise-distinct taxa and whose nodes all have out-degree ≠ 1 produces a
well-formed tree with the same leaf taxa, no out-degree-one nodes, and a
recorded key list that is exactly the tree's postorder edge-key list. -/
theorem encN_good :
    ∀ (nd : PNode) (del isRoot : Bool),
      noUnaryN nd = true →
      (∀ x ∈ leafTaxaN nd, x.isSome = true) →
      (leafTaxaN nd).Nodup →
      wfN (encodeNode del isRoot nd).1 = true ∧
      (encodeNode del isRoot nd).2 = edgeKeysN (encodeNode del isRoot nd).1 ∧
      noUnaryN (encodeNode del isRoot nd).1 = true ∧
      leafTaxaN (encodeNode del isRoot nd).1 = leafTaxaN nd
  | .mk tax len sp .nil, del, isRoot, hnu, hsome, hnd => by
    have he : encodeNode del isRoot (.mk tax len sp .nil)
        = (.mk tax len (taxonBit tax) .nil, [taxonBit tax]) := rfl
    rw [he]
    have htax : tax.isSome = true := hsome tax (by
      show tax ∈ [tax]
      simp)
    refine ⟨?_, rfl, rfl, rfl⟩
    show (tax.isSome && (taxonBit tax == taxonBit tax)) = true
    rw [htax, beq_self_eq_true]
    rfl
  | .mk tax len sp (.cons c .nil), del, isRoot, hnu, hsome, hnd => by
    rw [show noUnaryN (.mk tax len sp (.cons c .nil)) = false from rfl] at hnu
    exact Bool.noConfusion hnu
  | .mk tax len sp (.cons c1 (.cons c2 cs)), del, isRoot, hnu, hsome, hnd => by
    have hnuF : noUnaryF (.cons c1 (.cons c2 cs)) = true := hnu
    have hsomeF : ∀ x ∈ leafTaxaF (.cons c1 (.cons c2 cs)), x.isSome = true := hsome
    have hndF : (leafTaxaF (.cons c1 (.cons c2 cs))).Nodup := hnd
    obtain ⟨f1, f2, f3, f4, f5, f6⟩ :=
      encF_good (.cons c1 (.cons c2 cs)) del hnuF hsomeF hndF
    have hlen2 : (encodeForest del (.cons c1 (.cons c2 cs))).1.toList.length
        = cs.toList.length + 2 := by
      rw [encodeForest_toList_length]
      rfl
    rcases hef : encodeForest del (.cons c1 (.cons c2 cs)) with ⟨F2, K2⟩
    rw [hef] at f1 f2 f3 f4 f5 f6 hlen2
    dsimp only at f1 f2 f3 f4 f5 f6 hlen2
    have he : encodeNode del isRoot (.mk tax len sp (.cons c1 (.cons c2 cs)))
        = (.mk tax len (orSplits F2) F2, K2 ++ [orSplits F2]) := by
      unfold encodeNode
      rw [hef]
    rw [he]
    dsimp only
    have hFne : F2 ≠ .nil := by
      intro h
      rw [h] at hlen2
      exact absurd hlen2 (by simp [PForest.toList])
    refine ⟨?_, ?_, ?_, ?_⟩
    · rw [wfN_mk _ _ _ _ hFne]
      simp only [Bool.and_eq_true, beq_self_eq_true]
      exact ⟨⟨trivial, f2⟩, f1⟩
    · rw [edgeKeysN_mk _ _ _ _ hFne, f3]
    · rw [noUnaryN_mk]
      have h1 : oneChild F2 = false := by
        show (F2.toList.length == 1) = false
        rw [hlen2]
        simp only [beq_eq_false_iff_ne]
        omega
      rw [h1, f4]
      rfl
    · rw [leafTaxaN_mk _ _ _ _ hFne, f5]
      rfl
theorem encF_good :
    ∀ (cs : PForest) (del : Bool),
      noUnaryF cs = true →
      (∀ x ∈ leafTaxaF cs, x.isSome = true) →
      (leafTaxaF cs).Nodup →
      wfF (encodeForest del cs).1 = true ∧
      pairDisjF (encodeForest del cs).1 = true ∧
      (encodeForest del cs).2 = edgeKeysF (encodeForest del cs).1 ∧
      noUnaryF (encodeForest del cs).1 = true ∧
      leafTaxaF (encodeForest del cs).1 = leafTaxaF cs ∧
      forestSplits (encodeForest del cs).1 = cs.toList.map leafTaxaOrN
  | .nil, del => by
    intro _ _ _
    exact ⟨rfl, rfl, rfl, rfl, rfl, rfl⟩
  | .cons c r, del => by
    intro hnu hsome hnd
    have hnu' : (noUnaryN c && noUnaryF r) = true := hnu
    rw [Bool.and_eq_true] at hnu'
    have hsc : ∀ x ∈ leafTaxaN c, x.isSome = true := fun x hx =>
      hsome x (show x ∈ leafTaxaN c ++ leafTaxaF r from List.mem_append_left _ hx)
    have hsr : ∀ x ∈ leafTaxaF r, x.isSome = true := fun x hx =>
      hsome x (show x ∈ leafTaxaN c ++ leafTaxaF r from List.mem_append_right _ hx)
    have hnd' : (leafTaxaN c ++ leafTaxaF r).Nodup := hnd
    rw [List.nodup_append] at hnd'
    obtain ⟨hndc, hndr, hdisj⟩ := hnd'
    obtain ⟨n1, n2, n3, n4⟩ := encN_good c del false hnu'.1 hsc hndc
    obtain ⟨e1, e2, e3, e4, e5, e6⟩ := encF_good r del hnu'.2 hsr hndr
    obtain ⟨i1, i2, i3⟩ := encodeNode_invariant c del false
    rcases hec : encodeNode del false c with ⟨e, kc⟩
    rcases her : encodeForest del r with ⟨F3, kr⟩
    rw [hec] at n1 n2 n3 n4 i1 i2 i3
    rw [her] at e1 e2 e3 e4 e5 e6
    dsimp only at n1 n2 n3 n4 i1 i2 i3 e1 e2 e3 e4 e5 e6
    have he : encodeForest del (.cons c r) = (.cons e F3, kc ++ kr) := by
      unfold encodeForest
      rw [hec, her]
    rw [he]
    dsimp only
    refine ⟨?_, ?_, ?_, ?_, ?_, ?_⟩
    · show (wfN e && wfF F3) = true
      rw [n1, e1]
      rfl
    · show (disjWithF e.split F3 && pairDisjF F3) = true
      rw [e2, Bool.and_true]
      rw [disjWithF_iff]
      intro x hx
      rw [e6] at hx
      rw [List.mem_map] at hx
      obtain ⟨m, hm, rfl⟩ := hx
      rw [i2]
      refine taxaOr_disjoint (leafOr_testBit_N m ?_) (leafOr_testBit_N c hsc) ?_
      · intro x hx
        exact hsr x ((leafTaxaF_mem r x).mpr ⟨m, hm, hx⟩)
      · intro b hbm hbc
        exact hdisj hbc ((leafTaxaF_mem r (some b)).mpr ⟨m, hm, hbm⟩)
    · show kc ++ kr = edgeKeysN e ++ edgeKeysF F3
      rw [n2, e3]
    · show (noUnaryN e && noUnaryF F3) = true
      rw [n3, e4]
      rfl
    · show leafTaxaN e ++ leafTaxaF F3 = leafTaxaF (.cons c r)
      rw [n4, e5]
      rfl
    · show e.split :: forestSplits F3 = (c :: r.toList).map leafTaxaOrN
      rw [i2, e6]
      rfl
end

mutual
/-- Re-encoding a well-formed tree with no out-degree-one nodes is the
identity on the tree and records exactly its postorder edge keys. -/
theorem reencN :
    ∀ (nd : PNode) (del isRoot : Bool), wfN nd = true → noUnaryN nd = true →
      encodeNode del isRoot nd = (nd, edgeKeysN nd)
  | .mk tax len sp .nil, del, isRoot, hwf, _ => by
    rw [show wfN (.mk tax len sp .nil) = (tax.isSome && (sp == taxonBit tax)) from rfl,
      Bool.and_eq_true, beq_iff_eq] at hwf
    have he : encodeNode del isRoot (.mk tax len sp .nil)
        = (.mk tax len (taxonBit tax) .nil, [taxonBit tax]) := rfl
    rw [he, ← hwf.2]
    rfl
  | .mk tax len sp (.cons c .nil), del, isRoot, hwf, hnu => by
    rw [show noUnaryN (.mk tax len sp (.cons c .nil)) = false from rfl] at hnu
    exact Bool.noConfusion hnu
  | .mk tax len sp (.cons c1 (.cons c2 cs)), del, isRoot, hwf, hnu => by
    rw [wfN_mk _ _ _ _ (fun h => PForest.noConfusion h)] at hwf
    simp only [Bool.and_eq_true, beq_iff_eq] at hwf
    obtain ⟨⟨hsp, _⟩, hwfF⟩ := hwf
    have hnuF : noUnaryF (.cons c1 (.cons c2 cs)) = true := hnu
    have hf := reencF (.cons c1 (.cons c2 cs)) del hwfF hnuF
    unfold encodeNode
    rw [hf]
    dsimp only
    rw [← hsp]
    rw [edgeKeysN_mk _ _ _ _ (fun h => PForest.noConfusion h)]
theorem reencF :
    ∀ (cs : PForest) (del : Bool), wfF cs = true → noUnaryF cs = true →
      encodeForest del cs = (cs, edgeKeysF cs)
  | .nil, del, _, _ => rfl
  | .cons c r, del, hwf, hnu => by
    rw [show wfF (.cons c r) = (wfN c && wfF r) from rfl, Bool.and_eq_true] at hwf
    have hnu' : (noUnaryN c && noUnaryF r) = true := hnu
    rw [Bool.and_eq_true] at hnu'
    unfold encodeForest
    rw [reencN c del false hwf.1 hnu'.1, reencF r del hwf.2 hnu'.2]
    rfl
end

theorem rootCollapse_noop :
    ∀ (fuel : Nat) (nd : PNode), noUnaryN nd = true → rootCollapse fuel nd = nd
  | 0, _, _ => rfl
  | fuel + 1, .mk t l sp .nil, _ => rfl
  | fuel + 1, .mk t l sp (.cons c .nil), hnu => by
    rw [show noUnaryN (.mk t l sp (.cons c .nil)) = false from rfl] at hnu
    exact Bool.noConfusion hnu
  | fuel + 1, .mk t l sp (.cons c1 (.cons c2 cs)), _ => rfl

theorem nodePath_leaf_eq (lb : Nat) (t : Option Nat) (l : Option Int) (sp : Nat) :
    nodePath lb (.mk t l sp .nil) = if sp = lb then some [] else none := rfl

mutual
/-- When the leaf walk of `tree_from_splits` finds its leaf, the leaf's
split is one of the subtree's edge keys. -/
theorem nodePath_key (lb : Nat) :
    ∀ (nd : PNode) (p : List Nat), nodePath lb nd = some p → lb ∈ edgeKeysN nd
  | .mk t l sp .nil, p, h => by
    rw [nodePath_leaf_eq] at h
    by_cases hsp : sp = lb
    · subst hsp
      show sp ∈ [sp]
      simp
    · rw [if_neg hsp] at h
      cases h
  | .mk t l sp (.cons c cs), p, h => by
    have h' : forestPath lb 0 (.cons c cs) = some p := h
    rw [edgeKeysN_mk _ _ _ _ (fun hh => PForest.noConfusion hh)]
    exact List.mem_append_left _ (nodePath_keyF lb (.cons c cs) 0 p h')
theorem nodePath_keyF (lb : Nat) :
    ∀ (cs : PForest) (k : Nat) (p : List Nat),
      forestPath lb k cs = some p → lb ∈ edgeKeysF cs
  | .nil, k, p, h => by cases h
  | .cons c r, k, p, h => by
    unfold forestPath at h
    rw [show edgeKeysF (.cons c r) = edgeKeysN c ++ edgeKeysF r from rfl]
    rcases hc : nodePath lb c with _ | p'
    · rw [hc] at h
      dsimp only at h
      exact List.mem_append_right _ (nodePath_keyF lb r (k + 1) p h)
    · exact List.mem_append_left _ (nodePath_key lb c p' hc)
end

mutual
/-- In a well-formed tree, every taxon bit under a node's split is realized
by a leaf that the leaf walk can find. -/
theorem nodePath_exists (i : Nat) :
    ∀ nd : PNode, wfN nd = true → nd.split.testBit i = true →
      ∃ p, nodePath (2 ^ i) nd = some p
  | .mk t l sp .nil, hwf, hbit => by
    rw [show wfN (.mk t l sp .nil) = (t.isSome && (sp == taxonBit t)) from rfl,
      Bool.and_eq_true, beq_iff_eq] at hwf
    obtain ⟨hsome, hsp⟩ := hwf
    rcases t with _ | v
    · cases hsome
    · have hbit' : ((2 : Nat) ^ v).testBit i = true := by
        have hred : (PNode.mk (some v) l sp .nil).split = sp := rfl
        rw [hred, hsp] at hbit
        exact hbit
      rw [Nat.testBit_two_pow] at hbit'
      have hv : v = i := by simpa using hbit'
      subst hv
      refine ⟨[], ?_⟩
      rw [nodePath_leaf_eq, if_pos (show sp = 2 ^ v by rw [hsp]; rfl)]
  | .mk t l sp (.cons c cs), hwf, hbit => by
    rw [wfN_mk _ _ _ _ (fun hh => PForest.noConfusion hh)] at hwf
    simp only [Bool.and_eq_true, beq_iff_eq] at hwf
    obtain ⟨⟨hsp, _⟩, hwfF⟩ := hwf
    rw [hsp] at hbit
    obtain ⟨p, hp⟩ := forestPath_exists i (.cons c cs) hwfF hbit 0
    exact ⟨p, hp⟩
theorem forestPath_exists (i : Nat) :
    ∀ cs : PForest, wfF cs = true → (orSplits cs).testBit i = true →
      ∀ k, ∃ p, forestPath (2 ^ i) k cs = some p
  | .nil, _, hbit, k => by
    rw [show orSplits .nil = 0 from rfl, Nat.zero_testBit] at hbit
    cases hbit
  | .cons c r, hwf, hbit, k => by
    rw [show wfF (.cons c r) = (wfN c && wfF r) from rfl, Bool.and_eq_true] at hwf
    rw [show orSplits (.cons c r) = c.split ||| orSplits r from rfl,
      Nat.testBit_or, Bool.or_eq_true] at hbit
    rcases hbit with hc | hr
    · obtain ⟨p, hp⟩ := nodePath_exists i c hwf.1 hc
      refine ⟨k :: p, ?_⟩
      unfold forestPath
      rw [hp]
    · rcases hcp : nodePath (2 ^ i) c with _ | p'
      · obtain ⟨p, hp⟩ := forestPath_exists i r hwf.2 hr (k + 1)
        refine ⟨p, ?_⟩
        unfold forestPath
        rw [hcp]
        exact hp
      · refine ⟨k :: p', ?_⟩
        unfold forestPath
        rw [hcp]
end

theorem forestPath_decomp (lb : Nat) :
    ∀ (cs : PForest) (k : Nat) (q : List Nat), forestPath lb k cs = some q →
      ∃ j c p, q = (k + j) :: p ∧ childAt cs j = some c ∧ nodePath lb c = some p
  | .nil, k, q, h => by cases h
  | .cons c r, k, q, h => by
    unfold forestPath at h
    rcases hc : nodePath lb c with _ | p'
    · rw [hc] at h
      dsimp only at h
      obtain ⟨j, c', p, hq, hch, hnp⟩ := forestPath_decomp lb r (k + 1) q h
      refine ⟨j + 1, c', p, ?_, hch, hnp⟩
      rw [hq]
      congr 1
      omega
    · rw [hc] at h
      dsimp only at h
      have hq : q = k :: p' := by
        injection h with h'
        exact h'.symm
      exact ⟨0, c, p', by rw [hq, Nat.add_zero], rfl, hc⟩

theorem splitsAlong_get0 :
    ∀ (nd : PNode) (path : List Nat), (splitsAlong nd path).get? 0 = some nd.split
  | _, [] => rfl
  | _, _ :: _ => rfl

theorem splitsAlong_cons (nd : PNode) (i : Nat) (rest : List Nat) (c : PNode)
    (hc : childAt nd.children i = some c) :
    splitsAlong nd (i :: rest) = nd.split :: splitsAlong c rest := by
  conv_lhs => unfold splitsAlong
  rw [hc]

theorem splitsAlong_ne_nil (nd : PNode) (path : List Nat) : splitsAlong nd path ≠ [] := by
  cases path <;> exact fun h => List.noConfusion h

theorem firstSuperIdx_spec (s : Nat) :
    ∀ (L : List Nat) (k : Nat), firstSuperIdx L s = some k →
      (∃ t, L.get? k = some t ∧ s &&& t = s) ∧
      (∀ j t, j < k → L.get? j = some t → s &&& t ≠ s)
  | [], k, h => by cases h
  | x :: r, k, h => by
    unfold firstSuperIdx at h
    by_cases hx : s &&& x = s
    · rw [if_pos hx] at h
      injection h with h'
      subst h'
      exact ⟨⟨x, rfl, hx⟩, fun j t hj => absurd hj (Nat.not_lt_zero j)⟩
    · rw [if_neg hx] at h
      rcases hf : firstSuperIdx r s with _ | k'
      · rw [hf] at h
        cases h
      · rw [hf] at h
        have hk : k = k' + 1 := by
          rw [Option.map_some'] at h
          injection h with h'
          exact h'.symm
        obtain ⟨⟨t, ht, hst⟩, hbelow⟩ := firstSuperIdx_spec s r k' hf
        subst hk
        refine ⟨⟨t, ht, hst⟩, ?_⟩
        intro j t' hj hget
        cases j with
        | zero =>
          rw [show (x :: r).get? 0 = some x from rfl] at hget
          injection hget with hg
          subst hg
          exact hx
        | succ j' => exact hbelow j' t' (by omega) hget
  termination_by L => L.length

theorem firstSuperIdx_exists (s : Nat) :
    ∀ (L : List Nat) (j : Nat) (t : Nat), L.get? j = some t → s &&& t = s →
      ∃ k, firstSuperIdx L s = some k
  | [], j, t, h, _ => by
    rw [List.get?_nil] at h
    cases h
  | x :: r, j, t, h, hst => by
    unfold firstSuperIdx
    by_cases hx : s &&& x = s
    · exact ⟨0, by rw [if_pos hx]⟩
    · rw [if_neg hx]
      cases j with
      | zero =>
        rw [show (x :: r).get? 0 = some x from rfl] at h
        injection h with h'
        subst h'
        exact absurd hst hx
      | succ j' =>
        obtain ⟨k, hk⟩ := firstSuperIdx_exists s r j' t h hst
        exact ⟨k + 1, by rw [hk]; rfl⟩
  termination_by L => L.length

theorem sub_antisymm {a b : Nat} (h1 : a &&& b = a) (h2 : b &&& a = b) : a = b := by
  rw [and_eq_left_iff] at h1 h2
  apply Nat.eq_of_testBit_eq
  intro i
  cases ha : a.testBit i
  · cases hb : b.testBit i
    · rfl
    · exact (h2 i hb).symm.trans ha |>.symm ▸ rfl
  · exact (h1 i ha).symm

theorem foldl_or_split :
    ∀ (L : List PNode) (acc : Nat),
      L.foldl (fun a c => a ||| c.split) acc = acc ||| orList (L.map PNode.split)
  | [], acc => by
    show acc = acc ||| 0
    rw [Nat.or_zero]
  | c :: r, acc => by
    show r.foldl (fun a c => a ||| c.split) (acc ||| c.split)
      = acc ||| orList (c.split :: r.map PNode.split)
    rw [foldl_or_split r (acc ||| c.split)]
    show _ = acc ||| (c.split ||| orList (r.map PNode.split))
    rw [Nat.or_assoc]

/-- The children overlapping the split being inserted (collected into
`new_node_children`). -/
def movedL (s : Nat) (cs : PForest) : List PNode :=
  cs.toList.filter (fun c => c.split &&& s != 0)

/-- The children left on the attachment node. -/
def keptL (s : Nat) (cs : PForest) : List PNode :=
  cs.toList.filter (fun c => c.split &&& s == 0)

theorem mem_movedL (s : Nat) (cs : PForest) (c : PNode) :
    c ∈ movedL s cs ↔ c ∈ cs.toList ∧ c.split &&& s ≠ 0 := by
  unfold movedL
  rw [List.mem_filter]
  simp [bne_iff_ne]

theorem mem_keptL (s : Nat) (cs : PForest) (c : PNode) :
    c ∈ keptL s cs ↔ c ∈ cs.toList ∧ c.split &&& s = 0 := by
  unfold keptL
  rw [List.mem_filter]
  simp

theorem mem_moved_or_kept (s : Nat) (cs : PForest) (c : PNode) (h : c ∈ cs.toList) :
    c ∈ movedL s cs ∨ c ∈ keptL s cs := by
  by_cases h0 : c.split &&& s = 0
  · exact Or.inr ((mem_keptL s cs c).mpr ⟨h, h0⟩)
  · exact Or.inl ((mem_movedL s cs c).mpr ⟨h, h0⟩)

/-- The gathering loop of `tree_from_splits` when the `assert` never fires:
it accumulates the OR of the overlapping children, moving them and keeping
the rest, in order. -/
theorem gatherGo_eq (s : Nat) :
    ∀ (cs : PForest) (acc : Nat), (∀ c ∈ cs.toList, c.split ≠ s) →
      gatherGo s cs acc =
        some ((movedL s cs).foldl (fun a c => a ||| c.split) acc,
          movedL s cs, keptL s cs)
  | .nil, acc, _ => rfl
  | .cons c r, acc, hne => by
    have hne' : ∀ x ∈ r.toList, x.split ≠ s := fun x hx => hne x (by
      show x ∈ c :: r.toList
      exact List.mem_cons_of_mem _ hx)
    have hcne : c.split ≠ s := hne c (by
      show c ∈ c :: r.toList
      simp)
    unfold gatherGo
    by_cases hov : c.split &&& s ≠ 0
    · rw [if_pos hov, if_neg hcne, gatherGo_eq s r (acc ||| c.split) hne']
      have hm : movedL s (.cons c r) = c :: movedL s r := by
        show (c :: r.toList).filter _ = _
        rw [List.filter_cons, if_pos (by simpa using hov)]
        rfl
      have hk : keptL s (.cons c r) = keptL s r := by
        show (c :: r.toList).filter _ = _
        rw [List.filter_cons, if_neg (by simpa using hov)]
        rfl
      rw [hm, hk]
      rfl
    · push_neg at hov
      rw [if_neg (by rw [hov]; exact fun hh => hh rfl), gatherGo_eq s r acc hne']
      have hm : movedL s (.cons c r) = movedL s r := by
        show (c :: r.toList).filter _ = _
        rw [List.filter_cons, if_neg (by simpa using hov)]
        rfl
      have hk : keptL s (.cons c r) = c :: keptL s r := by
        show (c :: r.toList).filter _ = _
        rw [List.filter_cons, if_pos (by simpa using hov)]
        rfl
      rw [hm, hk]

theorem orList_append (a b : List Nat) : orList (a ++ b) = orList a ||| orList b := by
  unfold orList
  rw [List.foldr_append]
  induction a with
  | nil => simp
  | cons x r ih =>
    show x ||| List.foldr _ (List.foldr _ 0 b) r = (x ||| List.foldr _ 0 r) ||| _
    rw [ih, Nat.or_assoc]

/-- The attachment step of `tree_from_splits` at a node strictly containing
the split to add, none of whose children contains it: it succeeds, moving
exactly the overlapping children under the new node, and the rebuilt node is
well formed with the new split recorded alongside the old keys. -/
theorem doAttach_success
    (lens : Option (List (Nat × Option Int))) (s : Nat) (tax : Option Nat)
    (len : Option Int) (sp : Nat) (cs : PForest)
    (hwf : wfN (.mk tax len sp cs) = true)
    (hnu : noUnaryN (.mk tax len sp cs) = true)
    (hlen : (resolveLen lens s).isSome = true)
    (hcne : cs ≠ .nil)
    (hsup : s &&& sp = s) (hne : sp ≠ s)
    (hnosub : ∀ c ∈ cs.toList, s &&& c.split ≠ s)
    (hcompat : ∀ c ∈ cs.toList, Compat s c.split)
    (hs0 : s ≠ 0) :
    ∃ nd', doAttach lens (.mk tax len sp cs) s = some (nd', true) ∧
      wfN nd' = true ∧ noUnaryN nd' = true ∧ nd'.split = sp ∧
      (∀ x, x ∈ edgeKeysN nd' ↔ x ∈ edgeKeysN (.mk tax len sp cs) ∨ x = s) := by
  rw [wfN_mk _ _ _ _ hcne] at hwf
  simp only [Bool.and_eq_true, beq_iff_eq] at hwf
  obtain ⟨⟨hsp, hpd⟩, hwfF⟩ := hwf
  rw [noUnaryN_mk, Bool.and_eq_true] at hnu
  have hchsub : ∀ c ∈ cs.toList, c.split &&& s ≠ 0 → c.split &&& s = c.split := by
    intro c hc h0
    rcases hcompat c hc with h | h | h
    · rw [Nat.and_comm] at h
      exact absurd h h0
    · exact absurd h (hnosub c hc)
    · rw [Nat.and_comm] at h
      exact h
  have hchne : ∀ c ∈ cs.toList, c.split ≠ s := by
    intro c hc heq
    exact hnosub c hc (by rw [heq, Nat.and_self])
  have hg := gatherGo_eq s cs 0 hchne
  have horl : orList ((movedL s cs).map PNode.split) = s := by
    apply sub_antisymm
    · rw [and_eq_left_iff]
      intro i hi
      rw [orList_testBit, List.any_eq_true] at hi
      obtain ⟨x, hx, hxb⟩ := hi
      rw [List.mem_map] at hx
      obtain ⟨c, hc, rfl⟩ := hx
      obtain ⟨hcl, hov⟩ := (mem_movedL s cs c).mp hc
      have hcs := hchsub c hcl hov
      rw [and_eq_left_iff] at hcs
      exact hcs i hxb
    · rw [and_eq_left_iff]
      intro i hi
      have hspi : sp.testBit i = true := by
        rw [and_eq_left_iff] at hsup
        exact hsup i hi
      rw [hsp, orSplits_eq_orList, orList_testBit, List.any_eq_true] at hspi
      obtain ⟨x, hx, hxb⟩ := hspi
      rw [forestSplits_toList, List.mem_map] at hx
      obtain ⟨c, hc, rfl⟩ := hx
      have hov : c.split &&& s ≠ 0 := by
        intro h0
        have := congrArg (Nat.testBit · i) h0
        simp only [Nat.testBit_and, Nat.zero_testBit] at this
        rw [hxb, hi] at this
        exact Bool.noConfusion this
      rw [orList_testBit, List.any_eq_true]
      exact ⟨c.split, List.mem_map_of_mem _ ((mem_movedL s cs c).mpr ⟨hc, hov⟩), hxb⟩
  have hfold : (movedL s cs).foldl (fun a c => a ||| c.split) 0 = s := by
    rw [foldl_or_split, Nat.zero_or, horl]
  have hmne : movedL s cs ≠ [] := by
    intro h
    rw [h] at horl
    exact hs0 (by simpa [orList] using horl.symm)
  have hm1 : ∀ c, movedL s cs ≠ [c] := by
    intro c h
    have hcm : c ∈ movedL s cs := by
      rw [h]
      simp
    obtain ⟨hcl, _⟩ := (mem_movedL s cs c).mp hcm
    apply hchne c hcl
    rw [h] at horl
    simpa [orList] using horl
  have hkne : keptL s cs ≠ [] := by
    intro h
    apply hne
    apply sub_antisymm ?_ hsup
    rw [and_eq_left_iff]
    intro i hi
    rw [hsp, orSplits_eq_orList, orList_testBit, List.any_eq_true] at hi
    obtain ⟨x, hx, hxb⟩ := hi
    rw [forestSplits_toList, List.mem_map] at hx
    obtain ⟨c, hc, rfl⟩ := hx
    rcases mem_moved_or_kept s cs c hc with hcm | hck
    · have hcs := hchsub c hc ((mem_movedL s cs c).mp hcm).2
      rw [and_eq_left_iff] at hcs
      exact hcs i hxb
    · rw [h] at hck
      cases hck
  rcases hres : resolveLen lens s with _ | elen
  · rw [hres] at hlen
    cases hlen
  · have hda : doAttach lens (.mk tax len sp cs) s =
        some (.mk tax len sp
          (PForest.append (PForest.ofList (keptL s cs))
            (.cons (.mk none elen s (PForest.ofList (movedL s cs))) .nil)), true) := by
      unfold doAttach
      rw [if_neg (show ¬((PNode.mk tax len sp cs).split = s) from hne)]
      rw [show (PNode.mk tax len sp cs).children = cs from rfl, hg]
      dsimp only
      rw [if_pos hfold, hres]
      dsimp only
      rw [hfold]
      rfl
    refine ⟨_, hda, ?_, ?_, rfl, ?_⟩
    case _ =>
      -- well-formedness of the rebuilt node
      have htl : (PForest.append (PForest.ofList (keptL s cs))
          (.cons (.mk none elen s (PForest.ofList (movedL s cs))) .nil)).toList
          = keptL s cs ++ [.mk none elen s (PForest.ofList (movedL s cs))] := by
        rw [append_toList, ofList_toList]
        rfl
      have hCSne : PForest.append (PForest.ofList (keptL s cs))
          (.cons (.mk none elen s (PForest.ofList (movedL s cs))) .nil) ≠ .nil := by
        intro h
        rw [h] at htl
        exact absurd htl.symm (by simp [PForest.toList])
      have hfs : forestSplits (PForest.append (PForest.ofList (keptL s cs))
          (.cons (.mk none elen s (PForest.ofList (movedL s cs))) .nil))
          = (keptL s cs).map PNode.split ++ [s] := by
        rw [forestSplits_toList, htl, List.map_append]
        rfl
      have hkept0 : ∀ c ∈ keptL s cs, c.split &&& s = 0 := fun c hc =>
        ((mem_keptL s cs c).mp hc).2
      have hksub : ((keptL s cs).map PNode.split).Sublist (forestSplits cs) := by
        rw [forestSplits_toList]
        exact (List.filter_sublist _).map PNode.split
      have hmsub : ((movedL s cs).map PNode.split).Sublist (forestSplits cs) := by
        rw [forestSplits_toList]
        exact (List.filter_sublist _).map PNode.split
      have hpw := (pairDisjF_iff cs).mp hpd
      have hMne : PForest.ofList (movedL s cs) ≠ .nil := by
        intro h
        apply hmne
        rw [← ofList_toList (movedL s cs), h]
        rfl
      have hnewwf : wfN (.mk none elen s (PForest.ofList (movedL s cs))) = true := by
        rw [wfN_mk _ _ _ _ hMne]
        simp only [Bool.and_eq_true, beq_iff_eq]
        refine ⟨⟨?_, ?_⟩, ?_⟩
        · rw [orSplits_eq_orList, forestSplits_toList, ofList_toList, horl]
        · rw [pairDisjF_iff, forestSplits_toList, ofList_toList]
          exact hpw.sublist hmsub
        · rw [wfF_iff]
          intro c hc
          rw [ofList_toList] at hc
          exact (wfF_iff cs).mp hwfF c ((mem_movedL s cs c).mp hc).1
      rw [wfN_mk _ _ _ _ hCSne]
      simp only [Bool.and_eq_true, beq_iff_eq]
      refine ⟨⟨?_, ?_⟩, ?_⟩
      · -- sp equals the OR of the rebuilt children
        rw [orSplits_eq_orList, hfs, orList_append]
        have hs1 : orList ((keptL s cs).map PNode.split) &&& sp
            = orList ((keptL s cs).map PNode.split) := by
          rw [and_eq_left_iff]
          intro i hi
          rw [orList_testBit, List.any_eq_true] at hi
          obtain ⟨x, hx, hxb⟩ := hi
          have hx' : x ∈ forestSplits cs := hksub.mem hx
          have := mem_sub_orList (forestSplits cs) x hx'
          rw [← orSplits_eq_orList, ← hsp, and_eq_left_iff] at this
          exact this i hxb
        have hsingle : orList [s] = s := by simp [orList]
        apply sub_antisymm
        · rw [and_eq_left_iff]
          intro i hi
          rw [hsp, orSplits_eq_orList, orList_testBit, List.any_eq_true] at hi
          obtain ⟨x, hx, hxb⟩ := hi
          rw [forestSplits_toList, List.mem_map] at hx
          obtain ⟨c, hc, rfl⟩ := hx
          rw [Nat.testBit_or, Bool.or_eq_true]
          rcases mem_moved_or_kept s cs c hc with hcm | hck
          · right
            have hcs := hchsub c hc ((mem_movedL s cs c).mp hcm).2
            rw [and_eq_left_iff] at hcs
            rw [hsingle]
            exact hcs i hxb
          · left
            rw [orList_testBit, List.any_eq_true]
            exact ⟨c.split, List.mem_map_of_mem _ hck, hxb⟩
        · rw [hsingle]
          exact or_sub_of_sub hs1 hsup
      · rw [pairDisjF_iff, hfs]
        rw [List.pairwise_append]
        refine ⟨hpw.sublist hksub, by simp, ?_⟩
        intro a ha b hb
        rw [List.mem_map] at ha
        obtain ⟨c, hc, rfl⟩ := ha
        have hb' : b = s := by simpa using hb
        subst hb'
        exact hkept0 c hc
      · rw [wfF_iff]
        intro c hc
        rw [htl, List.mem_append] at hc
        rcases hc with hc | hc
        · exact (wfF_iff cs).mp hwfF c ((mem_keptL s cs c).mp hc).1
        · have hc' : c = .mk none elen s (PForest.ofList (movedL s cs)) := by
            simpa using hc
          rw [hc']
          exact hnewwf
    case _ =>
      -- no out-degree-one nodes in the rebuilt node
      have htl : (PForest.append (PForest.ofList (keptL s cs))
          (.cons (.mk none elen s (PForest.ofList (movedL s cs))) .nil)).toList
          = keptL s cs ++ [.mk none elen s (PForest.ofList (movedL s cs))] := by
        rw [append_toList, ofList_toList]
        rfl
      rw [noUnaryN_mk, Bool.and_eq_true]
      constructor
      · have h1 : oneChild (PForest.append (PForest.ofList (keptL s cs))
            (.cons (.mk none elen s (PForest.ofList (movedL s cs))) .nil)) = false := by
          show (_ == 1) = false
          rw [htl, List.length_append]
          rw [beq_eq_false_iff_ne]
          intro hh
          simp only [List.length_singleton] at hh
          exact hkne (List.length_eq_zero.mp (by omega))
        rw [h1]
        rfl
      · rw [noUnaryF_iff]
        intro c hc
        rw [htl, List.mem_append] at hc
        rcases hc with hc | hc
        · exact (noUnaryF_iff cs).mp hnu.2 c ((mem_keptL s cs c).mp hc).1
        · have hc' : c = .mk none elen s (PForest.ofList (movedL s cs)) := by
            simpa using hc
          rw [hc', noUnaryN_mk, Bool.and_eq_true]
          constructor
          · have h2 : oneChild (PForest.ofList (movedL s cs)) = false := by
              show (_ == 1) = false
              rw [ofList_toList, beq_eq_false_iff_ne]
              intro hh
              obtain ⟨c', hc'⟩ := List.length_eq_one.mp hh
              exact hm1 c' hc'
            rw [h2]
            rfl
          · rw [noUnaryF_iff]
            intro m hmm
            rw [ofList_toList] at hmm
            exact (noUnaryF_iff cs).mp hnu.2 m ((mem_movedL s cs m).mp hmm).1
    case _ =>
      -- edge-key set: old keys plus the inserted split
      intro x
      have htl : (PForest.append (PForest.ofList (keptL s cs))
          (.cons (.mk none elen s (PForest.ofList (movedL s cs))) .nil)).toList
          = keptL s cs ++ [.mk none elen s (PForest.ofList (movedL s cs))] := by
        rw [append_toList, ofList_toList]
        rfl
      have hCSne : PForest.append (PForest.ofList (keptL s cs))
          (.cons (.mk none elen s (PForest.ofList (movedL s cs))) .nil) ≠ .nil := by
        intro h
        rw [h] at htl
        exact absurd htl.symm (by simp [PForest.toList])
      have hMne : PForest.ofList (movedL s cs) ≠ .nil := by
        intro h
        apply hmne
        rw [← ofList_toList (movedL s cs), h]
        rfl
      have hnew_keys : ∀ y,
          y ∈ edgeKeysN (.mk none elen s (PForest.ofList (movedL s cs))) ↔
            (∃ m ∈ movedL s cs, y ∈ edgeKeysN m) ∨ y = s := by
        intro y
        rw [edgeKeysN_mk _ _ _ _ hMne, List.mem_append, edgeKeysF_mem, ofList_toList]
        constructor
        · rintro (h | h)
          · exact Or.inl h
          · exact Or.inr (by simpa using h)
        · rintro (h | h)
          · exact Or.inl h
          · subst h
            exact Or.inr (by simp)
      rw [edgeKeysN_mk _ _ _ _ hCSne, edgeKeysN_mk _ _ _ _ hcne]
      rw [List.mem_append, List.mem_append]
      constructor
      · rintro (h | h)
        · rw [edgeKeysF_mem, htl] at h
          obtain ⟨m, hm', hx⟩ := h
          rw [List.mem_append] at hm'
          rcases hm' with hm' | hm'
          · exact Or.inl (Or.inl ((edgeKeysF_mem cs x).mpr
              ⟨m, ((mem_keptL s cs m).mp hm').1, hx⟩))
          · have hm'' : m = .mk none elen s (PForest.ofList (movedL s cs)) := by
              simpa using hm'
            rw [hm''] at hx
            rcases (hnew_keys x).mp hx with ⟨m2, hm2, hx2⟩ | hxs
            · exact Or.inl (Or.inl ((edgeKeysF_mem cs x).mpr
                ⟨m2, ((mem_movedL s cs m2).mp hm2).1, hx2⟩))
            · exact Or.inr hxs
        · exact Or.inl (Or.inr h)
      · rintro ((h | h) | h)
        · rw [edgeKeysF_mem] at h
          obtain ⟨m, hm', hx⟩ := h
          rcases mem_moved_or_kept s cs m hm' with hmm | hmk
          · refine Or.inl ?_
            rw [edgeKeysF_mem, htl]
            refine ⟨.mk none elen s (PForest.ofList (movedL s cs)), ?_, ?_⟩
            · rw [List.mem_append]
              right
              simp
            · exact (hnew_keys x).mpr (Or.inl ⟨m, hmm, hx⟩)
          · refine Or.inl ?_
            rw [edgeKeysF_mem, htl]
            refine ⟨m, ?_, hx⟩
            rw [List.mem_append]
            exact Or.inl hmk
        · exact Or.inr h
        · refine Or.inl ?_
          rw [edgeKeysF_mem, htl]
          refine ⟨.mk none elen s (PForest.ofList (movedL s cs)), ?_, ?_⟩
          · rw [List.mem_append]
            right
            simp
          · exact (hnew_keys x).mpr (Or.inr h)

theorem childAt_mem : ∀ (cs : PForest) (i : Nat) (c : PNode),
    childAt cs i = some c → c ∈ cs.toList
  | .nil, _, _, h => by cases h
  | .cons h r, 0, c, hc => by
    injection hc with hc'
    rw [← hc']
    show h ∈ h :: r.toList
    simp
  | .cons h r, i + 1, c, hc => by
    show c ∈ h :: r.toList
    exact List.mem_cons_of_mem _ (childAt_mem r i c hc)

theorem setAt_ne_nil : ∀ (cs : PForest) (i : Nat) (x : PNode),
    cs ≠ .nil → setAt cs i x ≠ .nil
  | .nil, _, _, h => absurd rfl h
  | .cons c r, 0, x, _ => fun h => PForest.noConfusion h
  | .cons c r, i + 1, x, _ => fun h => PForest.noConfusion h

theorem forestSplits_setAt : ∀ (cs : PForest) (i : Nat) (c x : PNode),
    childAt cs i = some c → x.split = c.split →
    forestSplits (setAt cs i x) = forestSplits cs
  | .nil, _, _, _, hc, _ => by cases hc
  | .cons h r, 0, c, x, hc, hx => by
    injection hc with hc'
    show x.split :: forestSplits r = h.split :: forestSplits r
    rw [hx, ← hc']
  | .cons h r, i + 1, c, x, hc, hx => by
    show h.split :: forestSplits (setAt r i x) = h.split :: forestSplits r
    rw [forestSplits_setAt r i c x hc hx]

theorem edgeKeysF_setAt (s : Nat) : ∀ (cs : PForest) (i : Nat) (c x : PNode),
    childAt cs i = some c →
    (∀ y, y ∈ edgeKeysN x ↔ y ∈ edgeKeysN c ∨ y = s) →
    ∀ y, y ∈ edgeKeysF (setAt cs i x) ↔ y ∈ edgeKeysF cs ∨ y = s
  | .nil, _, _, _, hc, _, _ => by cases hc
  | .cons h r, 0, c, x, hc, hx, y => by
    injection hc with hc'
    subst hc'
    show y ∈ edgeKeysN x ++ edgeKeysF r ↔ y ∈ edgeKeysN h ++ edgeKeysF r ∨ y = s
    rw [List.mem_append, List.mem_append, hx]
    constructor
    · rintro ((h1 | h1) | h1)
      · exact Or.inl (Or.inl h1)
      · exact Or.inr h1
      · exact Or.inl (Or.inr h1)
    · rintro ((h1 | h1) | h1)
      · exact Or.inl (Or.inl h1)
      · exact Or.inr h1
      · exact Or.inl (Or.inr h1)
  | .cons h r, i + 1, c, x, hc, hx, y => by
    show y ∈ edgeKeysN h ++ edgeKeysF (setAt r i x) ↔
      y ∈ edgeKeysN h ++ edgeKeysF r ∨ y = s
    rw [List.mem_append, List.mem_append, edgeKeysF_setAt s r i c x hc hx y]
    constructor
    · rintro (h1 | h1 | h1)
      · exact Or.inl (Or.inl h1)
      · exact Or.inl (Or.inr h1)
      · exact Or.inr h1
    · rintro ((h1 | h1) | h1)
      · exact Or.inl h1
      · exact Or.inr (Or.inl h1)
      · exact Or.inr (Or.inr h1)

theorem uniq_bit : ∀ {L : List Nat}, L.Pairwise (fun a b => a &&& b = 0) →
    ∀ x ∈ L, ∀ y ∈ L, ∀ i, x.testBit i = true → y.testBit i = true → x = y := by
  intro L hpw
  induction hpw with
  | nil => intro x hx; cases hx
  | @cons a l hhead htail ih =>
    intro x hx y hy i hxi hyi
    rcases List.mem_cons.mp hx with hxa | hx2
    · rcases List.mem_cons.mp hy with hya | hy2
      · rw [hxa, hya]
      · have h0 := hhead y hy2
        have hbit := congrArg (Nat.testBit · i) h0
        simp only [Nat.testBit_and, Nat.zero_testBit] at hbit
        have hai : a.testBit i = true := by
          rw [← hxa]
          exact hxi
        rw [hai, hyi] at hbit
        exact Bool.noConfusion hbit
    · rcases List.mem_cons.mp hy with hya | hy2
      · have h0 := hhead x hx2
        have hbit := congrArg (Nat.testBit · i) h0
        simp only [Nat.testBit_and, Nat.zero_testBit] at hbit
        have hai : a.testBit i = true := by
          rw [← hya]
          exact hyi
        rw [hai, hxi] at hbit
        exact Bool.noConfusion hbit
      · exact ih x hx2 y hy2 i hxi hyi

/-- The walk-up-and-rebuild step of `tree_from_splits`: starting from a
well-formed subtree that contains the split `s` at depth `d` of the leaf
path but not below it, and none of whose recorded keys equals `s`, the
rebuild succeeds and its only effect on the key set is adding `s`. -/
theorem rebuildAt_success
    (lens : Option (List (Nat × Option Int))) (s i : Nat)
    (hlen : (resolveLen lens s).isSome = true)
    (hs0 : s ≠ 0) (hs2 : s ≠ 2 ^ i) (hsi : s.testBit i = true) :
    ∀ (d : Nat) (nd : PNode) (path : List Nat),
      wfN nd = true → noUnaryN nd = true →
      (∀ x ∈ edgeKeysN nd, Compat s x) →
      s ∉ edgeKeysN nd →
      nodePath (2 ^ i) nd = some path →
      (∃ t, (splitsAlong nd path).get? d = some t ∧ s &&& t = s) →
      (∀ t, (splitsAlong nd path).get? (d + 1) = some t → s &&& t ≠ s) →
      ∃ nd', rebuildAt lens s nd path d = some (nd', true) ∧
        wfN nd' = true ∧ noUnaryN nd' = true ∧ nd'.split = nd.split ∧
        (∀ x, x ∈ edgeKeysN nd' ↔ x ∈ edgeKeysN nd ∨ x = s)
  | 0, nd, path, hwf, hnu, hcompat, hnkey, hpath, hattach, hbelow => by
    rcases path with _ | ⟨j, rest⟩
    · -- empty path: the walk found the leaf itself, so s ⊆ 2^i, impossible
      rcases nd with ⟨t, l, sp, cs⟩
      rcases cs with _ | ⟨c1, cr⟩
      · rw [nodePath_leaf_eq] at hpath
        by_cases hspi : sp = 2 ^ i
        · obtain ⟨tt, htt, hts⟩ := hattach
          have htt' := (splitsAlong_get0 (.mk t l sp .nil) []).symm.trans htt
          injection htt' with htt2
          rw [← htt2] at hts
          have hts' : s &&& 2 ^ i = s := by
            rw [← hspi]
            exact hts
          rcases sub_two_pow i hts' with h | h
          · exact absurd h hs0
          · exact absurd h hs2
        · rw [if_neg hspi] at hpath
          cases hpath
      · have hpath' : forestPath (2 ^ i) 0 (.cons c1 cr) = some [] := hpath
        obtain ⟨j', cp, p, hq, _, _⟩ := forestPath_decomp _ _ _ _ hpath'
        cases hq
    · -- attach at this (internal) node
      rcases nd with ⟨t, l, sp, cs⟩
      rcases cs with _ | ⟨c1, cr⟩
      · rw [nodePath_leaf_eq] at hpath
        by_cases hspi : sp = 2 ^ i
        · rw [if_pos hspi] at hpath
          injection hpath with hp'
          cases hp'
        · rw [if_neg hspi] at hpath
          cases hpath
      · have hwf' := hwf
        rw [wfN_mk _ _ _ _ (fun hh => PForest.noConfusion hh)] at hwf'
        simp only [Bool.and_eq_true, beq_iff_eq] at hwf'
        obtain ⟨⟨hsp, hpd⟩, hwfF⟩ := hwf'
        have hpath' : forestPath (2 ^ i) 0 (.cons c1 cr) = some (j :: rest) := hpath
        obtain ⟨j', cp, p, hq, hch, hnp⟩ := forestPath_decomp _ _ _ _ hpath'
        injection hq with hq1 hq2
        have hj' : j = j' := by omega
        subst hj'
        subst hq2
        have hsa : splitsAlong (.mk t l sp (.cons c1 cr)) (j :: rest)
            = sp :: splitsAlong cp rest := splitsAlong_cons _ j rest cp hch
        -- s is contained in this node's split
        obtain ⟨tt, htt, hts⟩ := hattach
        have htt' := (splitsAlong_get0 (.mk t l sp (.cons c1 cr)) (j :: rest)).symm.trans htt
        injection htt' with htt2
        have hsup : s &&& sp = s := by
          rw [← htt2] at hts
          exact hts
        have hne : sp ≠ s := by
          intro h
          exact hnkey (h ▸ split_mem_keysN (.mk t l sp (.cons c1 cr)))
        -- the path child does not contain s, hence no child does
        have hnosubcp : s &&& cp.split ≠ s := by
          apply hbelow cp.split
          rw [hsa]
          show (splitsAlong cp rest).get? 0 = some cp.split
          rw [splitsAlong_get0]
        have hcpwf : wfN cp = true :=
          (wfF_iff _).mp hwfF cp (childAt_mem _ _ _ hch)
        have hbiti : cp.split.testBit i = true := by
          have h2i : 2 ^ i ∈ edgeKeysN cp := nodePath_key _ cp rest hnp
          have hsub := keySub_N cp hcpwf _ h2i
          rw [and_eq_left_iff] at hsub
          apply hsub i
          rw [Nat.testBit_two_pow]
          simp
        have hnosub : ∀ c ∈ (PForest.cons c1 cr).toList, s &&& c.split ≠ s := by
          intro ch hch' hcontra
          have hchbit : ch.split.testBit i = true := by
            rw [and_eq_left_iff] at hcontra
            exact hcontra i hsi
          have hpw := (pairDisjF_iff _).mp hpd
          have hmem1 : ch.split ∈ forestSplits (.cons c1 cr) := by
            rw [forestSplits_toList]
            exact List.mem_map_of_mem _ hch'
          have hmem2 : cp.split ∈ forestSplits (.cons c1 cr) := by
            rw [forestSplits_toList]
            exact List.mem_map_of_mem _ (childAt_mem _ _ _ hch)
          have heq := uniq_bit hpw ch.split hmem1 cp.split hmem2 i hchbit hbiti
          rw [heq] at hcontra
          exact hnosubcp hcontra
        have hcompatc : ∀ c ∈ (PForest.cons c1 cr).toList, Compat s c.split := by
          intro ch hch'
          apply hcompat
          rw [edgeKeysN_mk _ _ _ _ (fun hh => PForest.noConfusion hh)]
          exact List.mem_append_left _
            ((edgeKeysF_mem _ _).mpr ⟨ch, hch', split_mem_keysN ch⟩)
        obtain ⟨nd', hda, hw', hn', hs', hk'⟩ :=
          doAttach_success lens s t l sp (.cons c1 cr) hwf hnu hlen
            (fun hh => PForest.noConfusion hh) hsup hne hnosub hcompatc hs0
        exact ⟨nd', hda, hw', hn', hs', hk'⟩
  | d + 1, nd, path, hwf, hnu, hcompat, hnkey, hpath, hattach, hbelow => by
    rcases path with _ | ⟨j, rest⟩
    · obtain ⟨tt, htt, _⟩ := hattach
      rw [show (splitsAlong nd []).get? (d + 1) = none from rfl] at htt
      cases htt
    · rcases nd with ⟨t, l, sp, cs⟩
      rcases cs with _ | ⟨c1, cr⟩
      · rw [nodePath_leaf_eq] at hpath
        by_cases hspi : sp = 2 ^ i
        · rw [if_pos hspi] at hpath
          injection hpath with hp'
          cases hp'
        · rw [if_neg hspi] at hpath
          cases hpath
      · have hcne2 : PForest.cons c1 cr ≠ .nil := fun hh => PForest.noConfusion hh
        have hwf' := hwf
        rw [wfN_mk _ _ _ _ hcne2] at hwf'
        simp only [Bool.and_eq_true, beq_iff_eq] at hwf'
        obtain ⟨⟨hsp, hpd⟩, hwfF⟩ := hwf'
        have hnu' := hnu
        rw [noUnaryN_mk, Bool.and_eq_true] at hnu'
        have hpath' : forestPath (2 ^ i) 0 (.cons c1 cr) = some (j :: rest) := hpath
        obtain ⟨j', cp, p, hq, hch, hnp⟩ := forestPath_decomp _ _ _ _ hpath'
        injection hq with hq1 hq2
        have hj' : j = j' := by omega
        subst hj'
        subst hq2
        have hsa : splitsAlong (.mk t l sp (.cons c1 cr)) (j :: rest)
            = sp :: splitsAlong cp rest := splitsAlong_cons _ j rest cp hch
        have hmemkeys : ∀ x ∈ edgeKeysN cp, x ∈ edgeKeysN (.mk t l sp (.cons c1 cr)) := by
          intro x hx
          rw [edgeKeysN_mk _ _ _ _ hcne2]
          exact List.mem_append_left _
            ((edgeKeysF_mem _ _).mpr ⟨cp, childAt_mem _ _ _ hch, hx⟩)
        have hcpwf : wfN cp = true :=
          (wfF_iff _).mp hwfF cp (childAt_mem _ _ _ hch)
        have hcpnu : noUnaryN cp = true :=
          (noUnaryF_iff _).mp hnu'.2 cp (childAt_mem _ _ _ hch)
        have hattach' : ∃ tt, (splitsAlong cp rest).get? d = some tt ∧ s &&& tt = s := by
          obtain ⟨tt, htt, hts⟩ := hattach
          rw [hsa] at htt
          exact ⟨tt, htt, hts⟩
        have hbelow' : ∀ tt, (splitsAlong cp rest).get? (d + 1) = some tt →
            s &&& tt ≠ s := by
          intro tt htt
          apply hbelow tt
          rw [hsa]
          exact htt
        obtain ⟨cp', hrb, hw', hn', hsplit', hkeys'⟩ :=
          rebuildAt_success lens s i hlen hs0 hs2 hsi d cp rest hcpwf hcpnu
            (fun x hx => hcompat x (hmemkeys x hx))
            (fun hx => hnkey (hmemkeys s hx))
            hnp hattach' hbelow'
        have hreb : rebuildAt lens s (.mk t l sp (.cons c1 cr)) (j :: rest) (d + 1)
            = some (.mk t l sp (setAt (.cons c1 cr) j cp'), true) := by
          unfold rebuildAt
          rw [show (PNode.mk t l sp (.cons c1 cr)).children = PForest.cons c1 cr from rfl]
          rw [hch]
          dsimp only
          rw [hrb]
          rfl
        have hsne : setAt (.cons c1 cr) j cp' ≠ .nil :=
          setAt_ne_nil _ j cp' hcne2
        refine ⟨_, hreb, ?_, ?_, rfl, ?_⟩
        · rw [wfN_mk _ _ _ _ hsne]
          simp only [Bool.and_eq_true, beq_iff_eq]
          have hor : orSplits (setAt (.cons c1 cr) j cp') = orSplits (.cons c1 cr) := by
            rw [orSplits_eq_orList, forestSplits_setAt _ j cp cp' hch hsplit',
              ← orSplits_eq_orList]
          refine ⟨⟨?_, ?_⟩, ?_⟩
          · rw [hor]
            exact hsp
          · rw [pairDisjF_iff, forestSplits_setAt _ j cp cp' hch hsplit']
            exact (pairDisjF_iff _).mp hpd
          · rw [wfF_iff]
            intro m hm
            rw [setAt_toList] at hm
            rcases List.mem_or_eq_of_mem_set hm with hm | hm
            · exact (wfF_iff _).mp hwfF m hm
            · rw [hm]
              exact hw'
        · rw [noUnaryN_mk, Bool.and_eq_true]
          constructor
          · have h1 : oneChild (setAt (.cons c1 cr) j cp') = oneChild (.cons c1 cr) := by
              show (_ == 1) = (_ == 1)
              rw [setAt_toList, List.length_set]
            rw [h1]
            exact hnu'.1
          · rw [noUnaryF_iff]
            intro m hm
            rw [setAt_toList] at hm
            rcases List.mem_or_eq_of_mem_set hm with hm | hm
            · exact (noUnaryF_iff _).mp hnu'.2 m hm
            · rw [hm]
              exact hn'
        · intro x
          rw [edgeKeysN_mk _ _ _ _ hsne, edgeKeysN_mk _ _ _ _ hcne2]
          rw [List.mem_append, List.mem_append,
            edgeKeysF_setAt s _ j cp cp' hch hkeys' x]
          constructor
          · rintro ((h1 | h1) | h1)
            · exact Or.inl (Or.inl h1)
            · exact Or.inr h1
            · exact Or.inl (Or.inr h1)
          · rintro ((h1 | h1) | h1)
            · exact Or.inl (Or.inl h1)
            · exact Or.inr h1
            · exact Or.inl (Or.inr h1)

/-- One successful iteration of the insertion loop of `tree_from_splits`:
inserting a nontrivial split compatible with the tree, contained in the root
split and not yet recorded, succeeds and adds exactly that key. -/
theorem addSplit_success
    (root : PNode) (lens : Option (List (Nat × Option Int))) (s : Nat)
    (hwf : wfN root = true) (hnu : noUnaryN root = true)
    (hcompat : ∀ x ∈ edgeKeysN root, Compat s x)
    (hnkey : s ∉ edgeKeysN root)
    (hsub : s &&& root.split = s)
    (hs0 : s ≠ 0) (hsingle : (s - 1) &&& s ≠ 0)
    (hlen : (resolveLen lens s).isSome = true) :
    ∃ root', addSplit root lens s = some (root', true) ∧
      wfN root' = true ∧ noUnaryN root' = true ∧ root'.split = root.split ∧
      (∀ x, x ∈ edgeKeysN root' ↔ x ∈ edgeKeysN root ∨ x = s) := by
  obtain ⟨i, hlb, hsi⟩ := lowest_bit_only_spec s hs0
  have hs2 : s ≠ 2 ^ i := by
    intro h
    apply hsingle
    rw [h]
    exact two_pow_pred_and i
  have hbit_root : root.split.testBit i = true := by
    rw [and_eq_left_iff] at hsub
    exact hsub i hsi
  have hsub' : s &&& root.split = s := by
    rw [and_eq_left_iff]
    intro b hb
    rw [and_eq_left_iff] at hsub
    exact hsub b hb
  obtain ⟨path, hpath⟩ := nodePath_exists i root hwf hbit_root
  have hlenpos : 1 ≤ (splitsAlong root path).length := by
    rcases hll : splitsAlong root path with _ | ⟨a, b⟩
    · exact absurd hll (splitsAlong_ne_nil root path)
    · simp
  have hroot_rev : (splitsAlong root path).reverse.get?
      ((splitsAlong root path).length - 1) = some root.split := by
    rw [List.get?_reverse (show (splitsAlong root path).length - 1
      < (splitsAlong root path).length by omega)]
    have harith : (splitsAlong root path).length - 1
        - ((splitsAlong root path).length - 1) = 0 := by omega
    rw [harith, splitsAlong_get0]
  obtain ⟨k, hk⟩ := firstSuperIdx_exists s (splitsAlong root path).reverse
    ((splitsAlong root path).length - 1) root.split hroot_rev hsub'
  obtain ⟨⟨tt, htt, hts⟩, hbelowrev⟩ := firstSuperIdx_spec s _ k hk
  have hklen : k < (splitsAlong root path).length := by
    by_contra hh
    rw [List.get?_eq_none.mpr (by rw [List.length_reverse]; omega)] at htt
    cases htt
  have hattach : ∃ tt, (splitsAlong root path).get?
      ((splitsAlong root path).length - 1 - k) = some tt ∧ s &&& tt = s := by
    refine ⟨tt, ?_, hts⟩
    rw [List.get?_reverse hklen] at htt
    exact htt
  have hbelow : ∀ t', (splitsAlong root path).get?
      ((splitsAlong root path).length - 1 - k + 1) = some t' → s &&& t' ≠ s := by
    intro t' hb
    rcases k with _ | k'
    · rw [List.get?_eq_none.mpr (by omega)] at hb
      cases hb
    · apply hbelowrev k' t' (by omega)
      rw [List.get?_reverse (show k' < (splitsAlong root path).length by omega)]
      have harith : (splitsAlong root path).length - 1 - k'
          = (splitsAlong root path).length - 1 - (k' + 1) + 1 := by omega
      rw [harith]
      exact hb
  obtain ⟨root', hrb, h1, h2, h3, h4⟩ :=
    rebuildAt_success lens s i hlen hs0 hs2 hsi
      ((splitsAlong root path).length - 1 - k) root path
      hwf hnu hcompat hnkey hpath hattach hbelow
  refine ⟨root', ?_, h1, h2, h3, h4⟩
  unfold addSplit
  rw [if_neg (show ¬(s &&& root.split ≠ s) from fun h => h hsub), hlb, hpath]
  dsimp only
  rw [hk]
  exact hrb

theorem mem_dictInsertKey (m : List Nat) (k x : Nat) :
    x ∈ dictInsertKey m k ↔ x ∈ m ∨ x = k := by
  unfold dictInsertKey
  by_cases hk : k ∈ m
  · rw [if_pos hk]
    constructor
    · exact Or.inl
    · rintro (h | rfl)
      · exact h
      · exact hk
  · rw [if_neg hk, List.mem_append]
    simp

theorem mem_foldl_dictInsertKey :
    ∀ (L : List Nat) (m : List Nat) (x : Nat),
      x ∈ L.foldl dictInsertKey m ↔ x ∈ m ∨ x ∈ L
  | [], m, x => by simp
  | k :: L', m, x => by
    show x ∈ L'.foldl dictInsertKey (dictInsertKey m k) ↔ _
    rw [mem_foldl_dictInsertKey L' (dictInsertKey m k) x, mem_dictInsertKey]
    constructor
    · rintro ((h | h) | h)
      · exact Or.inl h
      · exact Or.inr (by rw [h]; simp)
      · exact Or.inr (List.mem_cons_of_mem _ h)
    · rintro (h | h)
      · exact Or.inl (Or.inl h)
      · rcases List.mem_cons.mp h with rfl | h
        · exact Or.inl (Or.inr rfl)
        · exact Or.inr h

theorem nodup_dictInsertKey (m : List Nat) (k : Nat) (hm : m.Nodup) :
    (dictInsertKey m k).Nodup := by
  unfold dictInsertKey
  by_cases hk : k ∈ m
  · rw [if_pos hk]
    exact hm
  · rw [if_neg hk, List.nodup_append]
    refine ⟨hm, by simp, ?_⟩
    intro a ha hak
    have : a = k := by simpa using hak
    subst this
    exact hk ha

theorem nodup_foldl_dictInsertKey :
    ∀ (L : List Nat) (m : List Nat), m.Nodup → (L.foldl dictInsertKey m).Nodup
  | [], m, hm => hm
  | k :: L', m, hm =>
    nodup_foldl_dictInsertKey L' (dictInsertKey m k) (nodup_dictInsertKey m k hm)

/-- The insertion loop of `tree_from_splits` (rooted case) over a list of
pairwise-compatible, nontrivial, unrecorded splits below the root split:
every insertion succeeds, the tree stays well formed with the same root
split, the key set grows by exactly the inserted splits, and the recorded
map gets exactly those keys. -/
theorem foldl_addSplit_success (lens : Option (List (Nat × Option Int))) :
    ∀ (L : List Nat) (root : PNode) (m : List Nat),
      wfN root = true → noUnaryN root = true →
      (∀ s ∈ L, ∀ x ∈ edgeKeysN root, Compat s x) →
      (∀ s ∈ L, ∀ x ∈ L, Compat s x) →
      (∀ s ∈ L, s ∉ edgeKeysN root) →
      L.Nodup →
      (∀ s ∈ L, s &&& root.split = s) →
      (∀ s ∈ L, s ≠ 0 ∧ (s - 1) &&& s ≠ 0) →
      (∀ s ∈ L, (resolveLen lens s).isSome = true) →
      ∃ root',
        L.foldl
          (fun acc k =>
            match acc with
            | none => none
            | some rm =>
              match addSplit rm.1 lens k with
              | none => none
              | some ri => some (ri.1, if ri.2 then dictInsertKey rm.2 k else rm.2))
          (some (root, m)) = some (root', L.foldl dictInsertKey m) ∧
        wfN root' = true ∧ noUnaryN root' = true ∧ root'.split = root.split ∧
        (∀ x, x ∈ edgeKeysN root' ↔ x ∈ edgeKeysN root ∨ x ∈ L)
  | [], root, m, hwf, hnu, _, _, _, _, _, _, _ =>
    ⟨root, rfl, hwf, hnu, rfl, fun x => by simp⟩
  | s :: L', root, m, hwf, hnu, hcK, hcL, hnk, hnd, hsub, hnt, hlen => by
    have hmem : s ∈ s :: L' := by simp
    obtain ⟨root1, hadd, hw1, hn1, hsp1, hk1⟩ :=
      addSplit_success root lens s hwf hnu (hcK s hmem) (hnk s hmem) (hsub s hmem)
        (hnt s hmem).1 (hnt s hmem).2 (hlen s hmem)
    have hnd' : L'.Nodup := (List.nodup_cons.mp hnd).2
    have hsL : s ∉ L' := (List.nodup_cons.mp hnd).1
    have htail : ∀ x ∈ L', x ∈ s :: L' := fun x hx => List.mem_cons_of_mem _ hx
    obtain ⟨root2, hfold, hw2, hn2, hsp2, hk2⟩ :=
      foldl_addSplit_success lens L' root1 (dictInsertKey m s) hw1 hn1
        (by
          intro t ht x hx
          rcases (hk1 x).mp hx with hx' | rfl
          · exact hcK t (htail t ht) x hx'
          · exact hcL t (htail t ht) x hmem)
        (fun t ht x hx => hcL t (htail t ht) x (htail x hx))
        (by
          intro t ht hx
          rcases (hk1 t).mp hx with hx' | rfl
          · exact hnk t (htail t ht) hx'
          · exact hsL ht)
        hnd'
        (by
          intro t ht
          rw [hsp1]
          exact hsub t (htail t ht))
        (fun t ht => hnt t (htail t ht))
        (fun t ht => hlen t (htail t ht))
    refine ⟨root2, ?_, hw2, hn2, hsp2.trans hsp1, ?_⟩
    · show L'.foldl _ (match addSplit root lens s with
        | none => none
        | some ri => some (ri.1, if ri.2 then dictInsertKey m s else m)) = _
      rw [hadd]
      exact hfold
    · intro x
      rw [hk2 x, hk1 x, List.mem_cons]
      constructor
      · rintro ((h | h) | h)
        · exact Or.inl h
        · exact Or.inr (Or.inl h)
        · exact Or.inr (Or.inr h)
      · rintro (h | h | h)
        · exact Or.inl (Or.inl h)
        · exact Or.inl (Or.inr h)
        · exact Or.inr h

theorem pred_and_eq_zero_pow : ∀ x : Nat, x ≠ 0 → (x - 1) &&& x = 0 → ∃ i, x = 2 ^ i := by
  intro x
  induction x using Nat.strong_induction_on with
  | _ x ih =>
    intro hx h
    rcases Nat.even_or_odd x with ⟨m, hm⟩ | ⟨m, hm⟩
    · have hm0 : m ≠ 0 := by omega
      have hstep := congrArg (· / 2) h
      simp only at hstep
      rw [Nat.and_div_two] at hstep
      have e1 : (x - 1) / 2 = m - 1 := by omega
      have e2 : x / 2 = m := by omega
      rw [e1, e2] at hstep
      have h0 : (0 : Nat) / 2 = 0 := rfl
      rw [h0] at hstep
      obtain ⟨i, hi⟩ := ih m (by omega) hm0 hstep
      refine ⟨i + 1, ?_⟩
      rw [pow_succ]
      omega
    · rcases eq_or_ne x 1 with h1 | h1
      · exact ⟨0, by simpa using h1⟩
      · exfalso
        have hx2 : x / 2 ≠ 0 := by omega
        have hstep := congrArg (· / 2) h
        simp only at hstep
        rw [Nat.and_div_two] at hstep
        have e1 : (x - 1) / 2 = x / 2 := by omega
        have h0 : (0 : Nat) / 2 = 0 := rfl
        rw [e1, h0, Nat.and_self] at hstep
        exact hx2 hstep

mutual
/-- Every taxon borne by a leaf of a well-formed tree appears (as its
bitmask) among the tree's edge keys. -/
theorem leaf_key_N : ∀ nd : PNode, wfN nd = true →
    ∀ b, some b ∈ leafTaxaN nd → 2 ^ b ∈ edgeKeysN nd
  | .mk t l sp .nil, hwf, b, hb => by
    rw [show wfN (.mk t l sp .nil) = (t.isSome && (sp == taxonBit t)) from rfl,
      Bool.and_eq_true, beq_iff_eq] at hwf
    have hb' : some b = t := by simpa using (show some b ∈ [t] from hb)
    have hb'' := hb'.symm
    subst hb''
    have : sp = 2 ^ b := hwf.2
    rw [← this]
    show sp ∈ [sp]
    simp
  | .mk t l sp (.cons c cs), hwf, b, hb => by
    rw [wfN_mk _ _ _ _ (fun hh => PForest.noConfusion hh)] at hwf
    simp only [Bool.and_eq_true, beq_iff_eq] at hwf
    rw [edgeKeysN_mk _ _ _ _ (fun hh => PForest.noConfusion hh)]
    exact List.mem_append_left _ (leaf_key_F (.cons c cs) hwf.2 b hb)
theorem leaf_key_F : ∀ cs : PForest, wfF cs = true →
    ∀ b, some b ∈ leafTaxaF cs → 2 ^ b ∈ edgeKeysF cs
  | .nil, _, b, hb => by cases hb
  | .cons c r, hwf, b, hb => by
    rw [show wfF (.cons c r) = (wfN c && wfF r) from rfl, Bool.and_eq_true] at hwf
    rw [show edgeKeysF (.cons c r) = edgeKeysN c ++ edgeKeysF r from rfl]
    have hb' : some b ∈ leafTaxaN c ++ leafTaxaF r := hb
    rw [List.mem_append] at hb'
    rcases hb' with hb' | hb'
    · exact List.mem_append_left _ (leaf_key_N c hwf.1 b hb')
    · exact List.mem_append_right _ (leaf_key_F r hwf.2 b hb')
end

theorem encodeNode_multi (tax : Option Nat) (len : Option Int) (sp : Nat) :
    ∀ (cs : PForest), 2 ≤ cs.toList.length → ∀ (del isRoot : Bool),
      encodeNode del isRoot (.mk tax len sp cs)
        = (.mk tax len (orSplits (encodeForest del cs).1) (encodeForest del cs).1,
           (encodeForest del cs).2 ++ [orSplits (encodeForest del cs).1])
  | .nil, h, _, _ => by
    exact absurd h (by simp [PForest.toList])
  | .cons c .nil, h, _, _ => by
    exact absurd h (by simp [PForest.toList])
  | .cons c1 (.cons c2 cs), _, del, isRoot => by
    unfold encodeNode
    rfl

theorem encodeForest_star :
    ∀ (l : List Nat) (del : Bool),
      encodeForest del (PForest.ofList (l.map fun i => .mk (some i) none 0 .nil))
        = (PForest.ofList (l.map fun i => .mk (some i) none (2 ^ i) .nil),
           l.map (2 ^ ·))
  | [], del => rfl
  | i :: r, del => by
    show encodeForest del (.cons (.mk (some i) none 0 .nil)
      (PForest.ofList (r.map fun i => .mk (some i) none 0 .nil))) = _
    unfold encodeForest
    rw [encodeForest_star r del]
    rfl

theorem orList_pows (n : Nat) : orList ((List.range n).map (2 ^ ·)) = 2 ^ n - 1 := by
  apply Nat.eq_of_testBit_eq
  intro b
  rw [orList_testBit, Nat.testBit_two_pow_sub_one]
  by_cases hbn : b < n
  · rw [decide_eq_true hbn]
    rw [List.any_eq_true]
    refine ⟨2 ^ b, List.mem_map_of_mem _ (List.mem_range.mpr hbn), ?_⟩
    rw [Nat.testBit_two_pow]
    simp
  · rw [decide_eq_false hbn]
    rw [List.any_eq_false]
    intro x hx
    rw [List.mem_map] at hx
    obtain ⟨j, hj, rfl⟩ := hx
    rw [Nat.testBit_two_pow]
    simp only [decide_eq_true_eq]
    intro hjb
    exact hbn (hjb ▸ List.mem_range.mp hj)

/-- The encoded star tree's children: one leaf per taxon carrying its own
bitmask. -/
def starEnc (n : Nat) : PForest :=
  PForest.ofList ((List.range n).map fun i => .mk (some i) none (2 ^ i) .nil)

/-- The consensus root right after the star tree over `n` taxa is encoded. -/
def starRoot (n : Nat) : PNode := .mk none none (2 ^ n - 1) (starEnc n)

theorem starEnc_toList (n : Nat) :
    (starEnc n).toList = (List.range n).map fun i => .mk (some i) none (2 ^ i) .nil :=
  ofList_toList _

theorem starEnc_splits (n : Nat) :
    forestSplits (starEnc n) = (List.range n).map (2 ^ ·) := by
  rw [forestSplits_toList, starEnc_toList, List.map_map]
  rfl

theorem orSplits_starEnc (n : Nat) : orSplits (starEnc n) = 2 ^ n - 1 := by
  rw [orSplits_eq_orList, starEnc_splits, orList_pows]

theorem starEnc_length (n : Nat) : (starEnc n).toList.length = n := by
  rw [starEnc_toList, List.length_map, List.length_range]

theorem starEnc_ne_nil (n : Nat) (hn : 2 ≤ n) : starEnc n ≠ .nil := by
  intro h
  have hl := starEnc_length n
  rw [h] at hl
  rw [show (PForest.nil).toList = [] from rfl] at hl
  simp at hl
  omega

theorem wf_starRoot (n : Nat) (hn : 2 ≤ n) : wfN (starRoot n) = true := by
  rw [show starRoot n = .mk none none (2 ^ n - 1) (starEnc n) from rfl]
  rw [wfN_mk _ _ _ _ (starEnc_ne_nil n hn)]
  simp only [Bool.and_eq_true, beq_iff_eq]
  refine ⟨⟨?_, ?_⟩, ?_⟩
  · rw [orSplits_starEnc]
  · rw [pairDisjF_iff, starEnc_splits]
    refine List.Pairwise.map _ ?_ (List.pairwise_lt_range n)
    intro a b hab
    exact two_pow_disjoint (by omega)
  · rw [wfF_iff]
    intro c hc
    rw [starEnc_toList, List.mem_map] at hc
    obtain ⟨i, hi, rfl⟩ := hc
    show ((some i).isSome && (2 ^ i == taxonBit (some i))) = true
    rw [show taxonBit (some i) = 2 ^ i from rfl, beq_self_eq_true]
    rfl

theorem noUnary_starRoot (n : Nat) (hn : 2 ≤ n) : noUnaryN (starRoot n) = true := by
  rw [show starRoot n = .mk none none (2 ^ n - 1) (starEnc n) from rfl, noUnaryN_mk]
  have h1 : oneChild (starEnc n) = false := by
    show (_ == 1) = false
    rw [starEnc_length, beq_eq_false_iff_ne]
    omega
  rw [h1, Bool.not_false, Bool.true_and]
  rw [noUnaryF_iff]
  intro c hc
  rw [starEnc_toList, List.mem_map] at hc
  obtain ⟨i, hi, rfl⟩ := hc
  rfl

theorem edgeKeysF_leaves :
    ∀ L : List Nat,
      edgeKeysF (PForest.ofList (L.map fun i => .mk (some i) none (2 ^ i) .nil))
        = L.map (2 ^ ·)
  | [] => rfl
  | i :: r => by
    show edgeKeysN (.mk (some i) none (2 ^ i) .nil)
      ++ edgeKeysF (PForest.ofList (r.map fun i => .mk (some i) none (2 ^ i) .nil))
      = 2 ^ i :: r.map (2 ^ ·)
    rw [edgeKeysF_leaves r]
    rfl

theorem keys_starRoot (n : Nat) (hn : 2 ≤ n) :
    ∀ x, x ∈ edgeKeysN (starRoot n) ↔ (∃ i < n, x = 2 ^ i) ∨ x = 2 ^ n - 1 := by
  intro x
  rw [show starRoot n = .mk none none (2 ^ n - 1) (starEnc n) from rfl,
    edgeKeysN_mk _ _ _ _ (starEnc_ne_nil n hn), List.mem_append]
  rw [show starEnc n
    = PForest.ofList ((List.range n).map fun i => .mk (some i) none (2 ^ i) .nil)
    from rfl, edgeKeysF_leaves]
  constructor
  · rintro (h | h)
    · rw [List.mem_map] at h
      obtain ⟨i, hi, rfl⟩ := h
      exact Or.inl ⟨i, List.mem_range.mp hi, rfl⟩
    · exact Or.inr (by simpa using h)
  · rintro (⟨i, hi, rfl⟩ | h)
    · exact Or.inl (List.mem_map_of_mem _ (List.mem_range.mpr hi))
    · subst h
      exact Or.inr (by simp)

theorem con1_star (n : Nat) (hn : 2 ≤ n) :
    encode_splits ⟨true, some (.mk none none 0 (starForest n)), []⟩ true true
      = ⟨true, some (starRoot n),
         (((List.range n).map (2 ^ ·)) ++ [2 ^ n - 1]).foldl dictInsertKey []⟩ := by
  have hnu0 : noUnaryN (.mk none none 0 (starForest n)) = true := by
    rw [noUnaryN_mk]
    have hl : (starForest n).toList.length = n := by
      show (PForest.ofList _).toList.length = n
      rw [ofList_toList, List.length_map, List.length_range]
    have h1 : oneChild (starForest n) = false := by
      show (_ == 1) = false
      rw [hl, beq_eq_false_iff_ne]
      omega
    rw [h1, Bool.not_false, Bool.true_and]
    rw [noUnaryF_iff]
    intro c hc
    rw [show (starForest n).toList
      = (List.range n).map fun i => .mk (some i) none 0 .nil from ofList_toList _,
      List.mem_map] at hc
    obtain ⟨i, hi, rfl⟩ := hc
    rfl
  have h0 : encode_splits ⟨true, some (.mk none none 0 (starForest n)), []⟩ true true
      = ⟨true,
         some (encodeNode true true (rootCollapse
           (PNode.size (.mk none none 0 (starForest n)))
           (.mk none none 0 (starForest n)))).1,
         (encodeNode true true (rootCollapse
           (PNode.size (.mk none none 0 (starForest n)))
           (.mk none none 0 (starForest n)))).2.foldl dictInsertKey []⟩ := rfl
  rw [h0, rootCollapse_noop _ _ hnu0]
  have hml : 2 ≤ (starForest n).toList.length := by
    rw [show (starForest n).toList
      = (List.range n).map fun i => .mk (some i) none 0 .nil from ofList_toList _,
      List.length_map, List.length_range]
    omega
  rw [encodeNode_multi none none 0 (starForest n) hml true true]
  have hef : encodeForest true (starForest n)
      = (starEnc n, (List.range n).map (2 ^ ·)) := encodeForest_star (List.range n) true
  rw [hef]
  dsimp only
  rw [orSplits_starEnc]
  rfl

theorem splitsToAdd_cons_rooted (s : Nat) (L : List Nat) (mask : Nat)
    (hs : s &&& mask = s) :
    splitsToAdd (s :: L) mask true =
      if s ≠ mask ∧ (s - 1) &&& s ≠ 0 then s :: splitsToAdd L mask true
      else splitsToAdd L mask true := by
  show List.filterMap _ (s :: L) = _
  rw [List.filterMap_cons]
  dsimp only
  rw [hs]
  by_cases hc : s ≠ mask ∧ (s - 1) &&& s ≠ 0
  · rw [if_pos hc, if_pos hc, if_neg (show ¬¬((true : Bool) = true) from fun hh => hh rfl)]
    rfl
  · rw [if_neg hc, if_neg hc]
    rfl

theorem mem_splitsToAdd_rooted :
    ∀ (L : List Nat) (mask : Nat), (∀ s ∈ L, s &&& mask = s) →
      ∀ x, x ∈ splitsToAdd L mask true ↔ x ∈ L ∧ x ≠ mask ∧ (x - 1) &&& x ≠ 0
  | [], mask, _, x => by simp [splitsToAdd]
  | s :: L, mask, h, x => by
    rw [splitsToAdd_cons_rooted s L mask (h s (by simp))]
    have IH := mem_splitsToAdd_rooted L mask
      (fun t ht => h t (List.mem_cons_of_mem _ ht)) x
    by_cases hc : s ≠ mask ∧ (s - 1) &&& s ≠ 0
    · rw [if_pos hc, List.mem_cons, IH]
      constructor
      · rintro (rfl | ⟨hxl, hx2⟩)
        · exact ⟨by simp, hc⟩
        · exact ⟨List.mem_cons_of_mem _ hxl, hx2⟩
      · rintro ⟨hxl, hx2⟩
        rcases List.mem_cons.mp hxl with rfl | hxl
        · exact Or.inl rfl
        · exact Or.inr ⟨hxl, hx2⟩
    · rw [if_neg hc, IH]
      constructor
      · rintro ⟨hxl, hx2⟩
        exact ⟨List.mem_cons_of_mem _ hxl, hx2⟩
      · rintro ⟨hxl, hx2⟩
        rcases List.mem_cons.mp hxl with rfl | hxl
        · exact absurd hx2 hc
        · exact ⟨hxl, hx2⟩

theorem nodup_splitsToAdd_rooted :
    ∀ (L : List Nat) (mask : Nat), (∀ s ∈ L, s &&& mask = s) → L.Nodup →
      (splitsToAdd L mask true).Nodup
  | [], mask, _, _ => by simp [splitsToAdd]
  | s :: L, mask, h, hnd => by
    rw [splitsToAdd_cons_rooted s L mask (h s (by simp))]
    have hnd' := List.nodup_cons.mp hnd
    have IH := nodup_splitsToAdd_rooted L mask
      (fun t ht => h t (List.mem_cons_of_mem _ ht)) hnd'.2
    by_cases hc : s ≠ mask ∧ (s - 1) &&& s ≠ 0
    · rw [if_pos hc, List.nodup_cons]
      refine ⟨?_, IH⟩
      intro hmem
      exact hnd'.1 ((mem_splitsToAdd_rooted L mask
        (fun t ht => h t (List.mem_cons_of_mem _ ht)) s).mp hmem).1
    · rw [if_neg hc]
      exact IH

theorem tree_from_splits_rooted_eq (splits : List Nat) (n : Nat)
    (lens : Option (List (Nat × Option Int))) :
    tree_from_splits splits n lens true =
      match (encode_splits ⟨true, some (.mk none none 0 (starForest n)), []⟩
          true true).seed_node with
      | none => none
      | some root0 =>
        match (splitsToAdd splits (2 ^ n - 1) true).foldl
            (fun acc k =>
              match acc with
              | none => none
              | some rm =>
                match addSplit rm.1 lens k with
                | none => none
                | some ri => some (ri.1, if ri.2 then dictInsertKey rm.2 k else rm.2))
            (some (root0,
              (encode_splits ⟨true, some (.mk none none 0 (starForest n)), []⟩
                true true).split_edge_map)) with
        | none => none
        | some rm => some ⟨true, some rm.1, rm.2⟩ := rfl

/-- Re-encoding a rooted tree whose root is well formed with no
out-degree-one nodes replaces the map by exactly the tree's edge keys and
leaves the tree itself unchanged. -/
theorem encode_splits_reencode (root : PNode) (m : List Nat)
    (hw : wfN root = true) (hnu2 : noUnaryN root = true) :
    encode_splits ⟨true, some root, m⟩ true true
      = ⟨true, some root, (edgeKeysN root).foldl dictInsertKey []⟩ := by
  rw [show encode_splits ⟨true, some root, m⟩ true true
    = ⟨true, some (encodeNode true true (rootCollapse root.size root)).1,
       (encodeNode true true (rootCollapse root.size root)).2.foldl dictInsertKey []⟩
    from rfl, rootCollapse_noop _ _ hnu2, reencN root true true hw hnu2]

/-- C3: the round-trip property of `tree_from_splits` against
`encode_splits`, in its corrected form: for a rooted tree with at least two
taxa, no out-degree-one nodes, and leaves bearing exactly the namespace's
taxa (each exactly once), encoding the tree, collecting its split map keys,
and rebuilding with `tree_from_splits` (rooted, with edge lengths available
for every collected split) yields a tree whose re-encoded split set equals
the original split set. -/
theorem tree_from_splits_roundtrip
    (T : PNode) (n : Nat) (lens : Option (List (Nat × Option Int)))
    (hn : 2 ≤ n)
    (hnuT : noUnaryN T = true)
    (hperm : (leafTaxaN T).Perm ((List.range n).map some))
    (hlens : ∀ s ∈ (encode_splits ⟨true, some T, []⟩ true true).split_edge_map,
      (resolveLen lens s).isSome = true) :
    ∃ ct : PyTree,
      tree_from_splits ((encode_splits ⟨true, some T, []⟩ true true).split_edge_map)
          n lens true = some ct ∧
      (∀ x, x ∈ (encode_splits ct true true).split_edge_map ↔
        x ∈ (encode_splits ⟨true, some T, []⟩ true true).split_edge_map) := by
  -- leaf-taxa facts from the permutation hypothesis
  have hsome : ∀ x ∈ leafTaxaN T, x.isSome = true := by
    intro x hx
    have hx' : x ∈ (List.range n).map some := hperm.mem_iff.mp hx
    rw [List.mem_map] at hx'
    obtain ⟨b, _, rfl⟩ := hx'
    rfl
  have hndT : (leafTaxaN T).Nodup := by
    rw [hperm.nodup_iff]
    exact List.Nodup.map (Option.some_injective _) (List.nodup_range n)
  have hmemT : ∀ b, some b ∈ leafTaxaN T ↔ b < n := by
    intro b
    rw [hperm.mem_iff, List.mem_map]
    constructor
    · rintro ⟨c, hc, hcb⟩
      have hcb' : c = b := by injection hcb
      subst hcb'
      exact List.mem_range.mp hc
    · intro hb
      exact ⟨b, List.mem_range.mpr hb, rfl⟩
  -- the encoding of T
  have hEred : encode_splits ⟨true, some T, []⟩ true true
      = ⟨true, some (encodeNode true true T).1,
         (encodeNode true true T).2.foldl dictInsertKey []⟩ := by
    rw [show encode_splits ⟨true, some T, []⟩ true true
      = ⟨true, some (encodeNode true true (rootCollapse T.size T)).1,
         (encodeNode true true (rootCollapse T.size T)).2.foldl dictInsertKey []⟩
      from rfl, rootCollapse_noop T.size T hnuT]
  obtain ⟨hEwf, hEkeys, hEnu, hEtaxa⟩ := encN_good T true true hnuT hsome hndT
  obtain ⟨_, hEsplit0, _⟩ := encodeNode_invariant T true true
  rcases hE : encodeNode true true T with ⟨Eroot, Ekeys⟩
  rw [hE] at hEkeys hEnu hEtaxa hEwf hEsplit0 hEred
  dsimp only at hEkeys hEnu hEtaxa hEwf hEsplit0 hEred
  have hmask : leafTaxaOrN T = 2 ^ n - 1 := by
    apply Nat.eq_of_testBit_eq
    intro b
    rw [Nat.testBit_two_pow_sub_one]
    by_cases hb : b < n
    · rw [decide_eq_true hb]
      exact (leafOr_testBit_N T hsome b).mpr ((hmemT b).mpr hb)
    · rw [decide_eq_false hb, ← Bool.not_eq_true]
      intro hh
      exact hb ((hmemT b).mp ((leafOr_testBit_N T hsome b).mp hh))
  have hEsplit : Eroot.split = 2 ^ n - 1 := by rw [hEsplit0, hmask]
  have hEmem : ∀ x,
      x ∈ (encode_splits ⟨true, some T, []⟩ true true).split_edge_map
        ↔ x ∈ edgeKeysN Eroot := by
    intro x
    rw [hEred]
    dsimp only
    rw [mem_foldl_dictInsertKey, hEkeys]
    simp
  have hss_sub : ∀ s ∈ edgeKeysN Eroot, s &&& (2 ^ n - 1) = s := by
    intro s hs
    rw [← hEsplit]
    exact keySub_N Eroot hEwf s hs
  have hssN : ((encode_splits ⟨true, some T, []⟩ true true).split_edge_map).Nodup := by
    rw [hEred]
    dsimp only
    exact nodup_foldl_dictInsertKey _ [] (by simp)
  -- unfold the consensus construction
  rw [tree_from_splits_rooted_eq, con1_star n hn]
  dsimp only
  have hLsub0 : ∀ s ∈ (encode_splits ⟨true, some T, []⟩ true true).split_edge_map,
      s &&& (2 ^ n - 1) = s := fun s hs => hss_sub s ((hEmem s).mp hs)
  have hmemsta : ∀ x,
      x ∈ splitsToAdd ((encode_splits ⟨true, some T, []⟩ true true).split_edge_map)
          (2 ^ n - 1) true
        ↔ x ∈ (encode_splits ⟨true, some T, []⟩ true true).split_edge_map
            ∧ x ≠ 2 ^ n - 1 ∧ (x - 1) &&& x ≠ 0 :=
    mem_splitsToAdd_rooted _ _ hLsub0
  obtain ⟨croot, hfold, hcwf, hcnu, hcsp, hckeys⟩ :=
    foldl_addSplit_success lens
      (splitsToAdd ((encode_splits ⟨true, some T, []⟩ true true).split_edge_map)
        (2 ^ n - 1) true)
      (starRoot n)
      ((((List.range n).map (2 ^ ·)) ++ [2 ^ n - 1]).foldl dictInsertKey [])
      (wf_starRoot n hn) (noUnary_starRoot n hn)
      (by
        intro s hs x hx
        rcases (keys_starRoot n hn x).mp hx with ⟨i, hi, rfl⟩ | rfl
        · have hsub2 : (s &&& 2 ^ i) &&& 2 ^ i = s &&& 2 ^ i := by
            rw [Nat.and_assoc, Nat.and_self]
          rcases sub_two_pow i hsub2 with h | h
          · exact Or.inl h
          · exact Or.inr (Or.inr h)
        · exact Or.inr (Or.inl (hLsub0 s ((hmemsta s).mp hs).1)))
      (by
        intro s hs x hx
        exact compat_N Eroot hEwf s ((hEmem s).mp ((hmemsta s).mp hs).1)
          x ((hEmem x).mp ((hmemsta x).mp hx).1))
      (by
        intro s hs hmem
        obtain ⟨hsss, hsm, hsnt⟩ := (hmemsta s).mp hs
        rcases (keys_starRoot n hn s).mp hmem with ⟨i, hi, rfl⟩ | rfl
        · exact hsnt (two_pow_pred_and i)
        · exact hsm rfl)
      (nodup_splitsToAdd_rooted _ _ hLsub0 hssN)
      (by
        intro s hs
        show s &&& (starRoot n).split = s
        exact hLsub0 s ((hmemsta s).mp hs).1)
      (by
        intro s hs
        obtain ⟨_, _, hsnt⟩ := (hmemsta s).mp hs
        refine ⟨?_, hsnt⟩
        intro h0
        subst h0
        exact hsnt (by rfl))
      (fun s hs => hlens s ((hmemsta s).mp hs).1)
  rw [hfold]
  dsimp only
  refine ⟨_, rfl, ?_⟩
  intro x
  rw [encode_splits_reencode croot _ hcwf hcnu]
  dsimp only
  rw [mem_foldl_dictInsertKey]
  simp only [List.not_mem_nil, false_or]
  rw [hckeys x, hEmem x]
  constructor
  · rintro (hstar | hsta)
    · rcases (keys_starRoot n hn x).mp hstar with ⟨i, hi, rfl⟩ | rfl
      · apply leaf_key_N Eroot hEwf i
        rw [hEtaxa]
        exact (hmemT i).mpr hi
      · rw [← hEsplit]
        exact split_mem_keysN Eroot
    · exact (hEmem x).mp ((hmemsta x).mp hsta).1
  · intro hx
    by_cases hxm : x = 2 ^ n - 1
    · exact Or.inl ((keys_starRoot n hn x).mpr (Or.inr hxm))
    · by_cases hxs : (x - 1) &&& x ≠ 0
      · exact Or.inr ((hmemsta x).mpr ⟨(hEmem x).mpr hx, hxm, hxs⟩)
      · push_neg at hxs
        have hx0 : x ≠ 0 := key_nonzero_N Eroot hEwf x hx
        obtain ⟨i, rfl⟩ := pred_and_eq_zero_pow x hx0 hxs
        have hisub := hss_sub _ hx
        have hilt : i < n := by
          have hbit : (2 ^ n - 1).testBit i = true := by
            rw [and_eq_left_iff] at hisub
            apply hisub i
            rw [Nat.testBit_two_pow]
            simp
          rw [Nat.testBit_two_pow_sub_one] at hbit
          simpa using hbit
        exact Or.inl ((keys_starRoot n hn _).mpr (Or.inl ⟨i, hilt, rfl⟩))

/-- C3 counterexample: the three-leaf tree ((0,1),2) over a four-taxon
namespace.  Its encoded split set is {1,2,3,4,7}, but `tree_from_splits`
builds its star tree with a leaf for every namespace taxon, so the rebuilt
tree's re-encoded split set additionally contains 8 (taxon 3's leaf): the
round trip is not the identity on split sets when the tree does not use
every taxon of its namespace. -/
theorem tree_from_splits_roundtrip_counterexample :
    (tree_from_splits
        ((encode_splits ⟨true, some cherryTree, []⟩ true true).split_edge_map)
        4 none true).map
      (fun ct => (encode_splits ct true true).split_edge_map.contains 8) = some true
    ∧ ((encode_splits ⟨true, some cherryTree, []⟩ true true).split_edge_map.contains 8)
        = false := by decide

theorem tree_from_splits_roundtrip_witness :
    ∃ ct : PyTree,
      tree_from_splits
          ((encode_splits ⟨true, some cherryTree, []⟩ true true).split_edge_map)
          3 none true = some ct ∧
      (∀ x, x ∈ (encode_splits ct true true).split_edge_map ↔
        x ∈ (encode_splits ⟨true, some cherryTree, []⟩ true true).split_edge_map) :=
  tree_from_splits_roundtrip cherryTree 3 none (by decide) (by decide)
    (by
      have h : leafTaxaN cherryTree = (List.range 3).map some := by decide
      rw [h])
    (by decide)

end TreeSplit
